import Mathlib

/-!
# intervals-deduper: deduplication and conflict-resolution engine

A shallow embedding of the decision logic of `scoring.go` and of the
per-cluster processing in `main.go`, together with theorems about it.

Conventions of the embedding

* A Go `string` holding valid UTF-8 is a list of code points (`Str`); the Go
  builtin `len` is the UTF-8 byte length (`len`), `strings.Contains` is the
  contiguous-sublist test (`Contains`), `strings.HasPrefix` is
  `List.isPrefixOf`.
* `strings.ToLower` maps `unicode.ToLower` over the runes.  The case table of
  Go's `unicode` package is not part of the repository, so the rune mapping
  is a parameter `lower : Char → Char` of every definition that folds case;
  concrete evaluations instantiate it with `Char.toLower`, which agrees with
  Go on ASCII text.
* A finite `float64` is the rational it equals (`ℚ`), and every `float64`
  field of the input holds a finite value.  Arithmetic on them is binary64
  arithmetic: each operation rounds its exact result to the nearest binary64
  value, ties to even (`roundQ`), one rounding per operation: no multiply and
  add are fused, as in the code the Go compiler emits for amd64.  Where an
  operation can overflow, its result is an `F64`: a finite value, an infinity
  or NaN.  The two zeros are one value; no division in the program has a zero
  divisor.
* Go `int` fields are integers; `int` is `int64`, and the one subtraction of
  two of them (`timeDiff`) wraps to that range (`wrap64`).
* A `time.Time` is its instant in nanoseconds (`Int`); `Time.Sub` saturates
  to the `int64` range of `time.Duration` as in Go.
* A Go `map[string]float64` is an association list with `mapSet` as
  assignment.  A `range` over the map visits its entries in an order the
  program does not control: any permutation of the list.
-/

namespace IntervalsDeduper

/-! ## Strings -/

/-- A Go string (valid UTF-8) as its sequence of code points. -/
abbrev Str := List Char

/-- Go builtin `len` on a string: the number of bytes of its UTF-8 encoding. -/
def len (s : Str) : Nat := (s.map Char.utf8Size).sum

/-- Go `unicode.IsSpace`: the code points with the White_Space property. -/
def isSpace (c : Char) : Bool :=
  let n := c.toNat
  (9 ≤ n && n ≤ 13) || n == 32 || n == 133 || n == 160 || n == 5760 ||
  (8192 ≤ n && n ≤ 8202) || n == 8232 || n == 8233 || n == 8239 || n == 8287 ||
  n == 12288

/-- Go `strings.TrimSpace`: drops leading and trailing white space. -/
def TrimSpace (s : Str) : Str :=
  ((s.dropWhile isSpace).reverse.dropWhile isSpace).reverse

/-- Go `strings.ToLower` for a rune mapping `lower` (Go: `unicode.ToLower`). -/
def ToLower (lower : Char → Char) (s : Str) : Str := s.map lower

/-- Go `strings.Contains s substr`: `substr` occurs contiguously in `s`. -/
def Contains : Str → Str → Bool
  | [], substr => substr.isPrefixOf []
  | c :: s, substr => substr.isPrefixOf (c :: s) || Contains s substr

/-! ## Time -/

/-- Smallest `time.Duration` (an `int64` count of nanoseconds). -/
def minDuration : Int := -9223372036854775808

/-- Largest `time.Duration`. -/
def maxDuration : Int := 9223372036854775807

/-- Go `time.Second` in nanoseconds. -/
def Second : Int := 1000000000

/-- Go `t.Sub(u)`: the duration `t - u`, saturated to the `int64` range. -/
def timeSub (t u : Int) : Int :=
  let d := t - u
  if d < minDuration then minDuration
  else if d > maxDuration then maxDuration
  else d

/-- Unary minus on a `time.Duration`: two's-complement negation on `int64`. -/
def negDuration (d : Int) : Int :=
  if d = minDuration then minDuration else -d

/-! ## Binary64 arithmetic (Go `float64`, `int`, package `math`) -/

/-- The power of two with exponent `k`, as a rational. -/
def pow2 (k : Int) : ℚ :=
  if 0 ≤ k then ((2 ^ k.toNat : Nat) : ℚ) else 1 / ((2 ^ (-k).toNat : Nat) : ℚ)

/-- Binary logarithm of a natural number by repeated halving, `fuel` bounding
the number of halvings. -/
def log2Fuel : Nat → Nat → Nat
  | 0, _ => 0
  | fuel + 1, n => if n < 2 then 0 else log2Fuel fuel (n / 2) + 1

/-- Floor of the binary logarithm of a natural number (0 at 0). -/
def natLog2 (n : Nat) : Nat := log2Fuel n n

/-- Floor of the binary logarithm of `|a|` for a rational `a ≠ 0`: the
exponent of the binade of `a`. -/
def ilog2 (a : ℚ) : Int :=
  let e0 : Int := (natLog2 a.num.natAbs : Int) - (natLog2 a.den : Int)
  if pow2 e0 ≤ |a| then e0 else e0 - 1

/-- Rounding of a rational to the nearest integer, ties to the even one. -/
def roundHalfEven (x : ℚ) : Int :=
  let f := Rat.floor x
  let r := x - (f : ℚ)
  if r < 1 / 2 then f else if 1 / 2 < r then f + 1 else if f % 2 = 0 then f else f + 1

/-- Exponent of the unit in the last place of the binary64 binade of `a`:
significands have 53 bits, and below `2^-1022` the values are subnormal. -/
def ulpExp (a : ℚ) : Int := max (ilog2 a) (-1022) - 52

/-- Rounding of the exact result `a` of an operation to the nearest binary64
value, ties to even, before the overflow test. -/
def roundQ (a : ℚ) : ℚ :=
  if a = 0 then 0 else (roundHalfEven (a / pow2 (ulpExp a)) : ℚ) * pow2 (ulpExp a)

/-- A binary64 value: a finite one (the rational it equals), an infinity, or
NaN. -/
inductive F64 where
  | fin (q : ℚ)
  | posInf
  | negInf
  | nan
  deriving DecidableEq

/-- The binary64 result of an operation whose exact result is `a`: rounded to
nearest, and an infinity when the rounded magnitude reaches `2^1024`. -/
def round64 (a : ℚ) : F64 :=
  if pow2 1024 ≤ roundQ a then F64.posInf
  else if roundQ a ≤ -pow2 1024 then F64.negInf
  else F64.fin (roundQ a)

/-- Go `float64(n)` for an `int`. -/
def F64.ofInt (n : Int) : F64 := round64 (n : ℚ)

/-- Go `-x` on `float64`. -/
def F64.neg : F64 → F64
  | .fin a => .fin (-a)
  | .posInf => .negInf
  | .negInf => .posInf
  | .nan => .nan

/-- Go `x + y` on `float64`. -/
def F64.add : F64 → F64 → F64
  | .fin a, .fin b => round64 (a + b)
  | .nan, _ => .nan
  | _, .nan => .nan
  | .posInf, .negInf => .nan
  | .negInf, .posInf => .nan
  | .posInf, _ => .posInf
  | _, .posInf => .posInf
  | .negInf, _ => .negInf
  | _, .negInf => .negInf

/-- Go `x - y` on `float64`. -/
def F64.sub (x y : F64) : F64 := F64.add x (F64.neg y)

/-- Go `x / y` on `float64`. -/
def F64.div : F64 → F64 → F64
  | .nan, _ => .nan
  | _, .nan => .nan
  | .fin a, .fin b =>
    if b = 0 then (if a = 0 then .nan else if 0 < a then .posInf else .negInf)
    else round64 (a / b)
  | .fin _, _ => .fin 0
  | .posInf, .fin b => if 0 ≤ b then .posInf else .negInf
  | .negInf, .fin b => if 0 ≤ b then .negInf else .posInf
  | _, _ => .nan

/-- Go `math.Abs`. -/
def F64.abs : F64 → F64
  | .fin a => .fin |a|
  | .posInf => .posInf
  | .negInf => .posInf
  | .nan => .nan

/-- Go `math.Max`. -/
def F64.max : F64 → F64 → F64
  | .posInf, _ => .posInf
  | _, .posInf => .posInf
  | .nan, _ => .nan
  | _, .nan => .nan
  | .negInf, y => y
  | x, .negInf => x
  | .fin a, .fin b => .fin (Max.max a b)

/-- Go `x < y` on `float64`: false when an operand is NaN. -/
def F64.lt : F64 → F64 → Bool
  | .nan, _ => false
  | _, .nan => false
  | .fin a, .fin b => decide (a < b)
  | .negInf, .negInf => false
  | .negInf, _ => true
  | _, .negInf => false
  | .posInf, _ => false
  | _, .posInf => true

/-- Go `x > y` on `float64`. -/
def F64.gt (x y : F64) : Bool := F64.lt y x

/-- The value of an `int64` result: the exact result `n` wrapped into
`[-2^63, 2^63)`. -/
def wrap64 (n : Int) : Int := (n + 9223372036854775808) % 18446744073709551616 - 9223372036854775808

/-! ## Data model (`models.go`) -/

/-- Weights of the scoring factors (`models.go`, `Weights`). -/
structure Weights where
  GPS : ℚ
  HeartRate : ℚ
  Power : ℚ
  Cadence : ℚ
  SamplingRate : ℚ
  RPE : ℚ
  Manual : ℚ
  CustomName : ℚ
  deriving DecidableEq

/-- Application configuration (`models.go`, `Config`).  `UploaderPenalties`
is the Go map as a list of its entries. -/
structure Config where
  APIKey : Str
  AthleteID : Str
  Weights : Weights
  DevicePriority : List Str
  UploaderPenalties : List (Str × ℚ)
  DaysToSync : Int
  deriving DecidableEq

/-- Activity summary (`models.go`, `Activity`); `Type_` is the Go field `Type`
(a reserved word here).  Timestamps are instants in
nanoseconds. -/
structure Activity where
  ID : Str
  Name : Str
  Type_ : Str
  StartDateLocal : Int
  CreatedAt : Int
  DeviceName : Str
  Source : Str
  IcuRecordingSeconds : Int
  Distance : ℚ
  MovingTime : Int
  AverageHeartrate : ℚ
  AverageWatts : ℚ
  HasGPS : Bool
  RPE : Int
  Feel : Int
  Description : Str
  Updated : Int
  OAuthClientID : Int
  OAuthClientName : Str
  PowerMeter : Str
  PowerMeterSerial : Str
  PowerMeterBattery : Str
  deriving DecidableEq

/-- Activity with its stream kinds (`models.go`, `ActivityDetail`). -/
structure ActivityDetail extends Activity where
  StreamTypes : List Str
  deriving DecidableEq

/-- Result of scoring one activity (`models.go`, `Scorecard`).  The
`Reasonings` texts are display-only and are not part of the embedding. -/
structure Scorecard where
  Total : ℚ
  Breakdown : List (Str × ℚ)
  deriving DecidableEq

/-- Element of the `evaluated` slice in `main.go`. -/
structure evaluatedActivity where
  Detail : ActivityDetail
  Score : Scorecard
  deriving DecidableEq

/-- The Go zero value of `Activity`. -/
def zeroActivity : Activity :=
  { ID := [], Name := [], Type_ := [], StartDateLocal := 0, CreatedAt := 0,
    DeviceName := [], Source := [], IcuRecordingSeconds := 0, Distance := 0,
    MovingTime := 0, AverageHeartrate := 0, AverageWatts := 0, HasGPS := false,
    RPE := 0, Feel := 0, Description := [], Updated := 0, OAuthClientID := 0,
    OAuthClientName := [], PowerMeter := [], PowerMeterSerial := [],
    PowerMeterBattery := [] }

/-- The Go zero value of `ActivityDetail`. -/
def zeroDetail : ActivityDetail :=
  { toActivity := zeroActivity, StreamTypes := [] }

/-! ## Winner selection (`main.go`, lines 169-181) -/

/-- The `less` closure passed to `sort.Slice` in `main.go`: score descending,
then `Updated` descending, then `CreatedAt` descending. -/
def evaluatedLess (a b : evaluatedActivity) : Bool :=
  if a.Score.Total ≠ b.Score.Total then
    decide (a.Score.Total > b.Score.Total)
  else if ¬ (a.Detail.Updated = b.Detail.Updated) then
    decide (a.Detail.Updated > b.Detail.Updated)
  else
    decide (a.Detail.CreatedAt > b.Detail.CreatedAt)

/-- Inner loop of Go's `insertionSortLessFunc`: the new element `x` moves
left past every element it is `less` than.  The already sorted part is held
in reverse (nearest neighbour first). -/
def sinkLeft {α : Type} (less : α → α → Bool) (x : α) : List α → List α
  | [] => [x]
  | y :: ys => if less x y then y :: sinkLeft less x ys else x :: y :: ys

/-- Go `sort.Slice`, as the insertion sort the standard library runs on
slices of at most 12 elements (`insertionSortLessFunc`). -/
def sortSlice {α : Type} (less : α → α → Bool) (data : List α) : List α :=
  (data.foldl (fun sorted x => sinkLeft less x sorted) []).reverse

/-- The `evaluated` slice after `sort.Slice` in `main.go`. -/
def sortEvaluated (evaluated : List evaluatedActivity) : List evaluatedActivity :=
  sortSlice evaluatedLess evaluated

/-- The binding `winner := evaluated[0]` of `main.go`. -/
def winner (evaluated : List evaluatedActivity) : Option evaluatedActivity :=
  evaluated.head?

/-- The binding `losers := evaluated[1:]` of `main.go`. -/
def losers (evaluated : List evaluatedActivity) : List evaluatedActivity :=
  evaluated.drop 1

/-- The order the `less` closure stands for: `a` may precede `b`. -/
def rankedBefore (a b : evaluatedActivity) : Prop :=
  a.Score.Total ≥ b.Score.Total ∧
  (a.Score.Total = b.Score.Total → a.Detail.Updated ≥ b.Detail.Updated) ∧
  (a.Score.Total = b.Score.Total → a.Detail.Updated = b.Detail.Updated →
    a.Detail.CreatedAt ≥ b.Detail.CreatedAt)

/-! ## Generic names and name ranking (`scoring.go`, lines 19-85) -/

/-- The `times` slice of `IsGenericName`. -/
def times : List Str :=
  ["morning".toList, "afternoon".toList, "evening".toList, "night".toList, "lunch".toList]

/-- `ScoringEngine.IsGenericName` of `scoring.go`. -/
def IsGenericName (lower : Char → Char) (name activityType : Str) : Bool :=
  if name = [] ∨ ToLower lower name = "untitled".toList then true
  else
    let trimmed := ToLower lower (TrimSpace name)
    let lowType := ToLower lower activityType
    if trimmed = lowType ∨ trimmed = "cycling".toList ∨ trimmed = "ride".toList ∨
        trimmed = "workout".toList then true
    else
      times.any (fun t =>
        decide (trimmed = t ++ " ".toList ++ lowType) ||
        (decide (trimmed = t ++ " ride".toList) || decide (trimmed = t ++ " workout".toList)))

/-- The `keywords` slice of `RankCandidateNames`. -/
def keywords : List Str :=
  ["morning".toList, "afternoon".toList, "evening".toList, "night".toList, "lunch".toList]

/-- The `score` that the loop body of `RankCandidateNames` computes for a
name that is not generic.  The constants 1, 100 and 10 are binary64 values,
the constant `0.1` is the binary64 value nearest to a tenth, and
`float64(len(name))` is the nearest binary64 value to the length.  A string
has fewer than `2^63` bytes, so no operation overflows and every intermediate
value is finite. -/
def nameScore (lower : Char → Char) (name : Str) : ℚ :=
  let score : ℚ := 1
  let score := if Contains name " - ".toList then roundQ (score + 100) else score
  let score := roundQ (score + roundQ (roundQ (len name : ℚ) * roundQ (1 / 10)))
  if keywords.any (fun k => k.isPrefixOf (ToLower lower name)) then roundQ (score - 10)
  else score

/-- One iteration of the loop of `RankCandidateNames`; `st` is
`(bestName, bestScore)`. -/
def rankStep (lower : Char → Char) (activityType : Str) (st : Str × ℚ) (name : Str) :
    Str × ℚ :=
  if IsGenericName lower name activityType then st
  else if nameScore lower name > st.2 then (name, nameScore lower name)
  else st

/-- `ScoringEngine.RankCandidateNames` of `scoring.go`. -/
def RankCandidateNames (lower : Char → Char) (names : List Str) (activityType : Str) : Str :=
  (names.foldl (rankStep lower activityType) ([], -999)).1

/-- The desirability score as the specification words it, with the title
length counted in characters. -/
def specNameScore (lower : Char → Char) (name : Str) : ℚ :=
  1 + (if Contains name " - ".toList then 100 else 0) + (1 / 10) * (name.length : ℚ) -
    (if keywords.any (fun k => k.isPrefixOf (ToLower lower name)) then 10 else 0)

/-- The candidate `r` is the first candidate, left to right, that attains the
maximum of `score` among the candidates that are not generic. -/
def IsFirstBest (lower : Char → Char) (score : Str → ℚ) (names : List Str)
    (activityType : Str) (r : Str) : Prop :=
  ∃ pre post : List Str, names = pre ++ r :: post ∧
    IsGenericName lower r activityType = false ∧
    (∀ n ∈ names, IsGenericName lower n activityType = false → score n ≤ score r) ∧
    (∀ n ∈ pre, IsGenericName lower n activityType = false → score n < score r)

/-- Invariant of the loop of `RankCandidateNames` after the candidates
`processed`: either none of them qualified and the state is the initial one,
or the state holds the first best of them with its score. -/
def RankInv (lower : Char → Char) (activityType : Str) (processed : List Str)
    (st : Str × ℚ) : Prop :=
  ((∀ n ∈ processed, IsGenericName lower n activityType = true) ∧ st = ([], -999)) ∨
  (st.2 = nameScore lower st.1 ∧
    IsFirstBest lower (nameScore lower) processed activityType st.1)

/-! ## Scoring (`scoring.go`, lines 87-248) -/

/-- Assignment `m[k] = v` on a Go map held as a list of entries: the entry
of key `k` is replaced, or a new entry is added. -/
def mapSet : List (Str × ℚ) → Str → ℚ → List (Str × ℚ)
  | [], k, v => [(k, v)]
  | e :: m, k, v => if e.1 = k then (k, v) :: m else e :: mapSet m k v

/-- The statement `card.Breakdown[k] = v`. -/
def setBreakdown (card : Scorecard) (k : Str) (v : ℚ) : Scorecard :=
  { card with Breakdown := mapSet card.Breakdown k v }

/-- `ScoringEngine.evaluateStreams` of `scoring.go`. -/
def evaluateStreams (cfg : Config) (detail : ActivityDetail) (card : Scorecard) : Scorecard :=
  let hasWatts := decide ("watts".toList ∈ detail.StreamTypes)
  let hasHR := decide ("heartrate".toList ∈ detail.StreamTypes)
  let hasGPS := decide ("latlng".toList ∈ detail.StreamTypes)
  let hasCadence := decide ("cadence".toList ∈ detail.StreamTypes)
  let card := if hasWatts then setBreakdown card "Power Stream".toList cfg.Weights.Power
    else card
  let card := if hasHR then setBreakdown card "HeartRate Stream".toList cfg.Weights.HeartRate
    else card
  let card := if hasGPS then setBreakdown card "GPS/Map Stream".toList cfg.Weights.GPS
    else card
  if hasCadence then setBreakdown card "Cadence Stream".toList cfg.Weights.Cadence
  else card

/-- `ScoringEngine.evaluateSampling` of `scoring.go`.  Both conversions give
positive values below `2^64`, the rate is at most 1 after `math.Min`, and the
product is no larger in magnitude than the weight: no operation overflows. -/
def evaluateSampling (cfg : Config) (detail : ActivityDetail) (card : Scorecard) :
    Scorecard :=
  if detail.IcuRecordingSeconds ≤ 0 ∨ detail.MovingTime ≤ 0 then card
  else
    let rate : ℚ :=
      roundQ (roundQ (detail.IcuRecordingSeconds : ℚ) / roundQ (detail.MovingTime : ℚ))
    let normalizedRate : ℚ := min rate 1
    setBreakdown card "Sampling Density".toList
      (roundQ (normalizedRate * cfg.Weights.SamplingRate))

/-- The `searchString` of `evaluateDevice`. -/
def searchString (lower : Char → Char) (detail : ActivityDetail) : Str :=
  ToLower lower (detail.DeviceName ++ " ".toList ++ detail.Source ++ " ".toList ++
    detail.PowerMeter ++ " ".toList ++ detail.OAuthClientName)

/-- The loop of `evaluateDevice` from index `i` on, for a priority list of
length `n`: the key and the bonus written at the first match, if any. -/
def devicePriorityScan (lower : Char → Char) (search : Str) (n : Nat) :
    Nat → List Str → Option (Str × ℚ)
  | _, [] => none
  | i, preferred :: rest =>
    if Contains search (ToLower lower preferred) then
      some ("Device/Sensor Priority: ".toList ++ preferred, (((n : Int) - (i : Int) : Int) : ℚ) * 2)
    else devicePriorityScan lower search n (i + 1) rest

/-- `ScoringEngine.evaluateDevice` of `scoring.go`. -/
def evaluateDevice (lower : Char → Char) (cfg : Config) (detail : ActivityDetail)
    (card : Scorecard) : Scorecard :=
  match devicePriorityScan lower (searchString lower detail) cfg.DevicePriority.length 0
      cfg.DevicePriority with
  | some (k, bonus) => setBreakdown card k bonus
  | none => card

/-- `ScoringEngine.evaluateInteractions` of `scoring.go`. -/
def evaluateInteractions (cfg : Config) (detail : ActivityDetail) (card : Scorecard) :
    Scorecard :=
  let card :=
    if detail.RPE > 0 then setBreakdown card "RPE/Feel".toList cfg.Weights.RPE
    else if detail.Feel > 0 then setBreakdown card "RPE/Feel".toList cfg.Weights.RPE
    else card
  if TrimSpace detail.Description ≠ [] then
    setBreakdown card "Manual Description".toList cfg.Weights.Manual
  else card

/-- `ScoringEngine.evaluateName` of `scoring.go`. -/
def evaluateName (lower : Char → Char) (cfg : Config) (detail : ActivityDetail)
    (card : Scorecard) : Scorecard :=
  if ¬ (IsGenericName lower detail.Name detail.Type_ = true) then
    let uploader :=
      if detail.Source = "OAUTH_CLIENT".toList then ToLower lower detail.OAuthClientName
      else ToLower lower detail.Source
    let isPenalized :=
      cfg.UploaderPenalties.any (fun e => Contains uploader (ToLower lower e.1))
    if ¬ (isPenalized = true) then setBreakdown card "Custom Name".toList cfg.Weights.CustomName
    else card
  else card

/-- `ScoringEngine.evaluateUploader` of `scoring.go`. -/
def evaluateUploader (lower : Char → Char) (cfg : Config) (detail : ActivityDetail)
    (card : Scorecard) : Scorecard :=
  let uploader :=
    if detail.Source = "OAUTH_CLIENT".toList ∧ detail.OAuthClientName ≠ [] then
      detail.OAuthClientName
    else detail.Source
  cfg.UploaderPenalties.foldl
    (fun card e =>
      if Contains (ToLower lower uploader) (ToLower lower e.1) then
        setBreakdown card ("Uploader Penalty: ".toList ++ e.1) (-e.2)
      else card)
    card

/-- `ScoringEngine.Score` of `scoring.go`: the six passes on an empty card.
The field `Total` of the result is the exact sum of the values of the
breakdown.  The program adds them in binary64, in the order in which the map
is ranged over: the total it returns is `sumBreakdown order` for a
permutation `order` of the breakdown. -/
def Score (lower : Char → Char) (cfg : Config) (detail : ActivityDetail) : Scorecard :=
  let card : Scorecard := { Total := 0, Breakdown := [] }
  let card := evaluateStreams cfg detail card
  let card := evaluateSampling cfg detail card
  let card := evaluateDevice lower cfg detail card
  let card := evaluateInteractions cfg detail card
  let card := evaluateName lower cfg detail card
  let card := evaluateUploader lower cfg detail card
  { card with Total := card.Breakdown.foldl (fun total e => total + e.2) card.Total }

/-- The closing loop of `Score`,
`for _, score := range card.Breakdown { card.Total += score }`, when the map
is ranged over in the order `order`: binary64 additions, starting from the
zero total of the new card. -/
def sumBreakdown (order : List (Str × ℚ)) : F64 :=
  order.foldl (fun total e => F64.add total (F64.fin e.2)) (F64.fin 0)

/-- The configuration of `TestScoring` in `scoring_test.go`. -/
def testConfig : Config :=
  { APIKey := [], AthleteID := [],
    Weights := { GPS := 10, HeartRate := 0, Power := 5, Cadence := 0, SamplingRate := 0,
                 RPE := 0, Manual := 0, CustomName := 2 },
    DevicePriority := ["Wahoo".toList], UploaderPenalties := [], DaysToSync := 0 }

/-- The high-quality activity `detail1` of `TestScoring`. -/
def testDetail1 : ActivityDetail :=
  { zeroDetail with
    Name := "Epic Ride".toList, Type_ := "Cycling".toList,
    DeviceName := "Wahoo ELEMNT".toList,
    StreamTypes := ["latlng".toList, "watts".toList] }

/-- The low-quality activity `detail2` of `TestScoring`. -/
def testDetail2 : ActivityDetail :=
  { zeroDetail with
    Name := "Cycling".toList, Type_ := "Cycling".toList, DeviceName := "Phone".toList,
    StreamTypes := ["time".toList] }

/-- Configuration with a GPS weight of `10^16` and a power weight of 1. -/
def absorbConfig : Config :=
  { testConfig with
    Weights := { GPS := 10000000000000000, HeartRate := 0, Power := 1, Cadence := 0,
                 SamplingRate := 0, RPE := 0, Manual := 0, CustomName := 0 },
    DevicePriority := [] }

/-- Configuration whose stream weights are the binary64 values of 0.1 (GPS),
0.2 (heart rate) and 0.3 (power). -/
def tenthsConfig : Config :=
  { testConfig with
    Weights := { GPS := roundQ (1 / 10), HeartRate := roundQ (2 / 10), Power := roundQ (3 / 10),
                 Cadence := 0, SamplingRate := 0, RPE := 0, Manual := 0, CustomName := 0 },
    DevicePriority := [] }

/-- An activity with GPS, heart-rate and power streams and no other scoring
factor. -/
def streamsDetail : ActivityDetail :=
  { zeroDetail with StreamTypes := ["latlng".toList, "heartrate".toList, "watts".toList] }

/-- The card with one more breakdown entry in front. -/
def consCard (e : Str × ℚ) (card : Scorecard) : Scorecard :=
  { card with Breakdown := e :: card.Breakdown }

/-! ## Breakdown entries by kind -/

/-- The entries of a breakdown whose key satisfies `p`. -/
def entriesWith (p : Str → Bool) (m : List (Str × ℚ)) : List (Str × ℚ) :=
  m.filter (fun e => p e.1)

/-- Keys of the device pass: they start with "Device/Sensor Priority". -/
def isDeviceKey (k : Str) : Bool := "Device/Sensor Priority".toList.isPrefixOf k

/-- Keys of the uploader pass: they start with "Uploader Penalty: ". -/
def isPenaltyKey (k : Str) : Bool := "Uploader Penalty: ".toList.isPrefixOf k

/-- The key of the name pass. -/
def isCustomNameKey (k : Str) : Bool := decide (k = "Custom Name".toList)

/-- The assignments `card.Breakdown[k] = v` listed in `ws`, in order. -/
def applyWrites (ws : List (Str × ℚ)) (card : Scorecard) : Scorecard :=
  ws.foldl (fun c e => setBreakdown c e.1 e.2) card

/-- The assignments made by `evaluateStreams`, in order. -/
def streamWrites (cfg : Config) (detail : ActivityDetail) : List (Str × ℚ) :=
  (if "watts".toList ∈ detail.StreamTypes
    then [("Power Stream".toList, cfg.Weights.Power)] else []) ++
  (if "heartrate".toList ∈ detail.StreamTypes
    then [("HeartRate Stream".toList, cfg.Weights.HeartRate)] else []) ++
  (if "latlng".toList ∈ detail.StreamTypes
    then [("GPS/Map Stream".toList, cfg.Weights.GPS)] else []) ++
  (if "cadence".toList ∈ detail.StreamTypes
    then [("Cadence Stream".toList, cfg.Weights.Cadence)] else [])

/-- The assignment made by `evaluateSampling`, if any. -/
def samplingWrites (cfg : Config) (detail : ActivityDetail) : List (Str × ℚ) :=
  if detail.IcuRecordingSeconds ≤ 0 ∨ detail.MovingTime ≤ 0 then []
  else [("Sampling Density".toList,
    roundQ (min (roundQ (roundQ (detail.IcuRecordingSeconds : ℚ) /
      roundQ (detail.MovingTime : ℚ))) 1 * cfg.Weights.SamplingRate))]

/-- The assignment made by `evaluateDevice`, if any. -/
def deviceWrites (lower : Char → Char) (cfg : Config) (detail : ActivityDetail) :
    List (Str × ℚ) :=
  (devicePriorityScan lower (searchString lower detail) cfg.DevicePriority.length 0
    cfg.DevicePriority).toList

/-- The assignments made by `evaluateInteractions`, in order. -/
def interactionWrites (cfg : Config) (detail : ActivityDetail) : List (Str × ℚ) :=
  (if detail.RPE > 0 ∨ detail.Feel > 0 then [("RPE/Feel".toList, cfg.Weights.RPE)] else []) ++
  (if TrimSpace detail.Description ≠ []
    then [("Manual Description".toList, cfg.Weights.Manual)] else [])

/-- The uploader string that `evaluateName` tests. -/
def nameUploader (lower : Char → Char) (detail : ActivityDetail) : Str :=
  if detail.Source = "OAUTH_CLIENT".toList then ToLower lower detail.OAuthClientName
  else ToLower lower detail.Source

/-- The uploader string that `evaluateUploader` tests. -/
def penaltyUploader (lower : Char → Char) (detail : ActivityDetail) : Str :=
  ToLower lower
    (if detail.Source = "OAUTH_CLIENT".toList ∧ detail.OAuthClientName ≠ [] then
      detail.OAuthClientName
    else detail.Source)

/-- The assignment made by `evaluateName`, if any. -/
def nameWrites (lower : Char → Char) (cfg : Config) (detail : ActivityDetail) :
    List (Str × ℚ) :=
  if IsGenericName lower detail.Name detail.Type_ = false ∧
      cfg.UploaderPenalties.any
        (fun e => Contains (nameUploader lower detail) (ToLower lower e.1)) = false
  then [("Custom Name".toList, cfg.Weights.CustomName)] else []

/-- The assignments made by `evaluateUploader`, in the order of the table. -/
def uploaderWrites (lower : Char → Char) (cfg : Config) (detail : ActivityDetail) :
    List (Str × ℚ) :=
  (cfg.UploaderPenalties.filter
    (fun e => Contains (penaltyUploader lower detail) (ToLower lower e.1))).map
    (fun e => ("Uploader Penalty: ".toList ++ e.1, -e.2))

/-- All assignments to the breakdown made by `Score`, in order. -/
def scoreWrites (lower : Char → Char) (cfg : Config) (detail : ActivityDetail) :
    List (Str × ℚ) :=
  streamWrites cfg detail ++ samplingWrites cfg detail ++ deviceWrites lower cfg detail ++
    interactionWrites cfg detail ++ nameWrites lower cfg detail ++
    uploaderWrites lower cfg detail

/-- The keys that the stream, sampling, interaction and name passes assign. -/
def staticKeys : List Str :=
  ["Power Stream".toList, "HeartRate Stream".toList, "GPS/Map Stream".toList,
   "Cadence Stream".toList, "Sampling Density".toList, "RPE/Feel".toList,
   "Manual Description".toList, "Custom Name".toList]

/-- The uploader string in the words of the specification: the
originating-application name in place of the source whenever the source is
the generic tag "OAUTH_CLIENT". -/
def specUploader (detail : ActivityDetail) : Str :=
  if detail.Source = "OAUTH_CLIENT".toList then detail.OAuthClientName else detail.Source

/-- The penalty entries in the words of the specification: one entry per
table key whose case-folded form is a substring of the case-folded
`specUploader`. -/
def specPenaltyEntries (lower : Char → Char) (cfg : Config) (detail : ActivityDetail) :
    List (Str × ℚ) :=
  (cfg.UploaderPenalties.filter
    (fun e => Contains (ToLower lower (specUploader detail)) (ToLower lower e.1))).map
    (fun e => ("Uploader Penalty: ".toList ++ e.1, -e.2))

/-- A configuration with the one uploader penalty "oauth" of 5. -/
def oauthPenaltyConfig : Config :=
  { testConfig with UploaderPenalties := [("oauth".toList, 5)] }

/-- An activity with a custom title uploaded through the generic OAuth tag
with no client name. -/
def oauthNoClientDetail : ActivityDetail :=
  { testDetail1 with Source := "OAUTH_CLIENT".toList, OAuthClientName := [] }

/-- A configuration with two uploader penalties that can both match. -/
def stackedPenaltyConfig : Config :=
  { testConfig with UploaderPenalties := [("rungap".toList, 5), ("gap".toList, 1)] }

/-- The high-quality test activity uploaded by RunGap. -/
def runGapDetail : ActivityDetail :=
  { testDetail1 with Source := "RunGap".toList }

/-! ## Metadata adoption (`main.go`, lines 234-258) -/

/-- The `metaUpdates` map of `main.go`; the loop assigns only the keys
`"feel"`, `"icu_rpe"` and `"description"`, held here as one optional entry
each (`none`: key absent). -/
structure MetaUpdates where
  feel : Option Int
  icu_rpe : Option Int
  description : Option Str
  deriving DecidableEq

/-- State of the metadata loop: the in-memory copy `winner.Detail`, the
`metaUpdates` map and the `metaReasons` slice. -/
structure MetaState where
  winner : ActivityDetail
  metaUpdates : MetaUpdates
  metaReasons : List Str
  deriving DecidableEq

/-- Go `fmt.Sprintf("%d", n)`. -/
def fmtInt (n : Int) : Str := (toString n).toList

/-- One iteration of the metadata loop over the losers. -/
def metaStep (st : MetaState) (loser : evaluatedActivity) : MetaState :=
  let st1 : MetaState :=
    if st.winner.Feel = 0 ∧ loser.Detail.Feel > 0 then
      { winner := { st.winner with Feel := loser.Detail.Feel }
        metaUpdates := { st.metaUpdates with feel := some loser.Detail.Feel }
        metaReasons := st.metaReasons ++ ["Feel: ".toList ++ fmtInt loser.Detail.Feel] }
    else st
  let st2 : MetaState :=
    if st1.winner.RPE = 0 ∧ loser.Detail.RPE > 0 then
      { winner := { st1.winner with RPE := loser.Detail.RPE }
        metaUpdates := { st1.metaUpdates with icu_rpe := some loser.Detail.RPE }
        metaReasons := st1.metaReasons ++ ["RPE: ".toList ++ fmtInt loser.Detail.RPE] }
    else st1
  if TrimSpace st2.winner.Description = [] ∧ TrimSpace loser.Detail.Description ≠ [] then
    { winner := { st2.winner with Description := TrimSpace loser.Detail.Description }
      metaUpdates :=
        { st2.metaUpdates with description := some (TrimSpace loser.Detail.Description) }
      metaReasons := st2.metaReasons ++ ["Description".toList] }
  else st2

/-- The metadata adoption block of `main.go`: the loop over the ranked
losers, started with an empty `metaUpdates` map. -/
def metadataAdoption (winner : evaluatedActivity) (losers : List evaluatedActivity) :
    MetaState :=
  losers.foldl metaStep
    { winner := winner.Detail, metaUpdates := ⟨none, none, none⟩, metaReasons := [] }

/-- Test for a `metaReasons` entry written by the feel branch. -/
def isFeelReason (r : Str) : Bool := "Feel: ".toList.isPrefixOf r

/-- Test for a `metaReasons` entry written by the RPE branch. -/
def isRPEReason (r : Str) : Bool := "RPE: ".toList.isPrefixOf r

/-- Test for a `metaReasons` entry written by the description branch. -/
def isDescriptionReason (r : Str) : Bool := decide (r = "Description".toList)

/-- The scan of one field over the losers, in isolation: the current value
of the winner's field, the proposed value and the number of fills. -/
def fieldScan {α L : Type} (isEmpty : α → Bool) (has : L → Bool) (val : L → α)
    (s : α × Option α × Nat) (l : L) : α × Option α × Nat :=
  if isEmpty s.1 && has l then (val l, some (val l), s.2.2 + 1) else s

/-! ## Size-mismatch flag (`main.go`, lines 295-298) -/

/-- The `distDiff` of the loser loop in `main.go`:
`math.Abs(w.Distance-l.Distance) / math.Max(w.Distance, 1.0)` in binary64. -/
def distDiff (winner loser : ActivityDetail) : F64 :=
  F64.div (F64.abs (F64.sub (F64.fin winner.Distance) (F64.fin loser.Distance)))
    (F64.max (F64.fin winner.Distance) (F64.fin 1))

/-- The `timeDiff` of the loser loop in `main.go`:
`math.Abs(float64(w.MovingTime-l.MovingTime)) / math.Max(float64(w.MovingTime), 1.0)`;
the difference is taken on `int`, where it wraps, and then converted. -/
def timeDiff (winner loser : ActivityDetail) : F64 :=
  F64.div (F64.abs (F64.ofInt (wrap64 (winner.MovingTime - loser.MovingTime))))
    (F64.max (F64.ofInt winner.MovingTime) (F64.fin 1))

/-- The `isMismatch` flag of the loser loop in `main.go`:
`distDiff > 0.5 || timeDiff > 0.25`. -/
def isMismatch (winner loser : ActivityDetail) : Bool :=
  F64.gt (distDiff winner loser) (F64.fin (1 / 2)) ||
    F64.gt (timeDiff winner loser) (F64.fin (1 / 4))

/-- The size-mismatch test as the specification words it: the two relative
differences as exact quotients of the exact differences. -/
def specMismatch (winner loser : ActivityDetail) : Prop :=
  |winner.Distance - loser.Distance| / max winner.Distance 1 > 1 / 2 ∨
  |(winner.MovingTime : ℚ) - (loser.MovingTime : ℚ)| / max (winner.MovingTime : ℚ) 1 > 1 / 4

/-! ## Cluster builder (`main.go`, lines 113-135) -/

/-- One iteration of the grouping loop: `st` is `(groups, currentGroup)`. -/
def groupStep (st : List (List Activity) × List Activity) (a : Activity) :
    List (List Activity) × List Activity :=
  match st.2 with
  | [] => (st.1, [a])
  | anchor :: members =>
    let diff := timeSub a.StartDateLocal anchor.StartDateLocal
    let diff := if diff < 0 then negDuration diff else diff
    if diff ≤ 30 * Second then
      (st.1, (anchor :: members) ++ [a])
    else
      (if (anchor :: members).length > 1 then st.1 ++ [anchor :: members] else st.1, [a])

/-- The grouping block of `main.go`: activities within 30 seconds of the
first element of the open group are collected; groups of one are dropped. -/
def groupActivities (activities : List Activity) : List (List Activity) :=
  match activities with
  | [] => []
  | first :: rest =>
    let st := rest.foldl groupStep ([], [first])
    if st.2.length > 1 then st.1 ++ [st.2] else st.1

/-- The proximity rule in the words of the specification: the absolute
start-time difference to the anchor is at most 30 seconds. -/
def withinWindow (anchor a : Activity) : Bool :=
  decide (|a.StartDateLocal - anchor.StartDateLocal| ≤ 30 * Second)

/-- The cluster builder in the words of the specification: the group of an
anchor is the anchor followed by the longest run of following elements that
are within the window of the anchor; it is emitted when it has at least two
members, and the next group is anchored at the first element outside the
window. -/
def specClusters : List Activity → List (List Activity)
  | [] => []
  | anchor :: rest =>
    (if 2 ≤ (anchor :: rest.takeWhile (withinWindow anchor)).length
      then [anchor :: rest.takeWhile (withinWindow anchor)] else []) ++
    specClusters (rest.dropWhile (withinWindow anchor))
termination_by l => l.length
decreasing_by
  simp_wf
  exact Nat.lt_succ_of_le (List.dropWhile_sublist _).length_le

/-! ## Per-cluster processing (`main.go`, lines 137-349) -/

/-- The calls on the remote data source and the dry-run announcements that
the processing of one cluster issues; other console output is not part of the
embedding.  `updateName id name` is `client.UpdateActivity(id, {"name": name})`,
`updateMetadata id updates` is `client.UpdateActivity(id, metaUpdates)`,
`DeleteActivity id` is `client.DeleteActivity(id)`; the other three are the
`[DRY RUN] Would ...` lines. -/
inductive Action where
  | updateName (id : Str) (name : Str)
  | wouldAdoptName (id : Str) (name : Str)
  | updateMetadata (id : Str) (updates : MetaUpdates)
  | wouldAdoptMetadata (id : Str) (updates : MetaUpdates)
  | DeleteActivity (id : Str)
  | wouldDelete (id : Str)
  deriving DecidableEq

/-- The action is a deletion of `id`, real or announced by a dry run. -/
def Action.isDeleteOf (a : Action) (id : Str) : Prop :=
  a = Action.DeleteActivity id ∨ a = Action.wouldDelete id

/-- Go `reader.ReadString` on standard input, held as the list of the lines
still to come: the next line, or the empty string at end of input (the error
is ignored by the caller). -/
def readLine (input : List Str) : Str × List Str :=
  match input with
  | [] => ([], [])
  | line :: rest => (line, rest)

/-- The name that the name-adoption block of `main.go` proposes: the
`bestName` for which the block `if bestName != ""` is entered. -/
def proposedName (lower : Char → Char) (w : evaluatedActivity)
    (ls : List evaluatedActivity) : Option Str :=
  if IsGenericName lower w.Detail.Name w.Detail.Type_ then
    let candidateNames := ls.map (fun loser => loser.Detail.Name)
    let bestName := RankCandidateNames lower candidateNames w.Detail.Type_
    if bestName ≠ [] then some bestName else none
  else none

/-- The name-adoption block of `main.go` with its confirmation: the actions
issued and the input left.  `adoptConfirmed` starts as `!interactive` and the
answer can only set it to false. -/
def nameAdoption (lower : Char → Char) (dryRun interactive : Bool) (w : evaluatedActivity)
    (ls : List evaluatedActivity) (input : List Str) : List Action × List Str :=
  match proposedName lower w ls with
  | none => ([], input)
  | some bestName =>
    let adoptConfirmed := !interactive
    let asked : Bool × List Str :=
      if interactive then
        let response := (readLine input).1
        (if ToLower lower (TrimSpace response) = "n".toList then false else adoptConfirmed,
          (readLine input).2)
      else (adoptConfirmed, input)
    if asked.1 then
      if dryRun then ([Action.wouldAdoptName w.Detail.ID bestName], asked.2)
      else ([Action.updateName w.Detail.ID bestName], asked.2)
    else ([], asked.2)

/-- The test `len(metaUpdates) > 0`. -/
def MetaUpdates.nonEmpty (u : MetaUpdates) : Bool :=
  u.feel.isSome || u.icu_rpe.isSome || u.description.isSome

/-- The block of `main.go` that applies the metadata updates, with its
confirmation.  `migrateConfirmed` starts as `!interactive` and the answer can
only set it to false. -/
def metadataActions (lower : Char → Char) (dryRun interactive : Bool) (st : MetaState)
    (input : List Str) : List Action × List Str :=
  if st.metaUpdates.nonEmpty then
    let migrateConfirmed := !interactive
    let asked : Bool × List Str :=
      if interactive then
        let response := (readLine input).1
        (if ToLower lower (TrimSpace response) = "n".toList then false else migrateConfirmed,
          (readLine input).2)
      else (migrateConfirmed, input)
    if asked.1 then
      if dryRun then ([Action.wouldAdoptMetadata st.winner.ID st.metaUpdates], asked.2)
      else ([Action.updateMetadata st.winner.ID st.metaUpdates], asked.2)
    else ([], asked.2)
  else ([], input)

/-- One iteration of the loser loop of `main.go`; `st` is the actions issued
so far and the input left, `winnerDetail` the in-memory `winner.Detail`. -/
def loserStep (lower : Char → Char) (dryRun interactive : Bool) (winnerDetail : ActivityDetail)
    (st : List Action × List Str) (loser : evaluatedActivity) : List Action × List Str :=
  if isMismatch winnerDetail loser.Detail then st
  else
    let deleteConfirmed := !interactive
    let asked : Bool × List Str :=
      if interactive then
        let response := (readLine st.2).1
        (if ToLower lower (TrimSpace response) = "y".toList then true else deleteConfirmed,
          (readLine st.2).2)
      else (deleteConfirmed, st.2)
    if asked.1 then
      if dryRun then (st.1 ++ [Action.wouldDelete loser.Detail.ID], asked.2)
      else (st.1 ++ [Action.DeleteActivity loser.Detail.ID], asked.2)
    else (st.1, asked.2)

/-- The body of the loop over the groups in `main.go`, from the fetched
details on: scoring, ranking, name adoption, metadata adoption and the loser
loop.  The result is the actions issued, in order, and the input left. -/
def processCluster (lower : Char → Char) (cfg : Config) (dryRun interactive : Bool)
    (details : List ActivityDetail) (input : List Str) : List Action × List Str :=
  if details.length ≤ 1 then ([], input)
  else
    let evaluated := sortEvaluated (details.map (fun d => ⟨d, Score lower cfg d⟩))
    match winner evaluated with
    | none => ([], input)
    | some w =>
      let ls := losers evaluated
      let named := nameAdoption lower dryRun interactive w ls input
      let st := metadataAdoption w ls
      let migrated := metadataActions lower dryRun interactive st named.2
      ls.foldl (loserStep lower dryRun interactive st.winner)
        (named.1 ++ migrated.1, migrated.2)

/-- A cluster of three details for evaluation: the high-quality test activity
(10000 m, 3600 s). -/
def clusterBest : ActivityDetail :=
  { testDetail1 with ID := "i1".toList, Distance := 10000, MovingTime := 3600 }

/-- A duplicate of similar size (9900 m, 3590 s) with a feel rating. -/
def clusterDuplicate : ActivityDetail :=
  { testDetail2 with
    ID := "i2".toList, Name := "Morning Ride".toList, Distance := 9900, MovingTime := 3590,
    Feel := 3 }

/-- A record of much smaller distance (4000 m, 3600 s). -/
def clusterShort : ActivityDetail :=
  { testDetail2 with ID := "i3".toList, Distance := 4000, MovingTime := 3600 }

/-! # Theorems -/

/-! ## Binary64 arithmetic -/

theorem pow2_eq (k : Int) : pow2 k = (2 : ℚ) ^ k := by
  unfold pow2
  split
  · rename_i h
    have hk : k = (k.toNat : Int) := (Int.toNat_of_nonneg h).symm
    conv_rhs => rw [hk]
    rw [zpow_natCast]
    push_cast
    rfl
  · rename_i h
    have h' : 0 ≤ -k := by omega
    have hk : k = -((-k).toNat : Int) := by
      rw [Int.toNat_of_nonneg h']; ring
    conv_rhs => rw [hk]
    rw [zpow_neg, zpow_natCast]
    push_cast
    rw [one_div]

theorem pow2_pos (k : Int) : 0 < pow2 k := by
  rw [pow2_eq]; positivity

theorem pow2_add (a b : Int) : pow2 (a + b) = pow2 a * pow2 b := by
  rw [pow2_eq, pow2_eq, pow2_eq, zpow_add₀ (by norm_num)]

theorem pow2_le_pow2 {a b : Int} (h : a ≤ b) : pow2 a ≤ pow2 b := by
  rw [pow2_eq, pow2_eq]
  exact zpow_le_zpow_right₀ (by norm_num) h

theorem pow2_lt_pow2 {a b : Int} (h : a < b) : pow2 a < pow2 b := by
  rw [pow2_eq, pow2_eq]
  exact zpow_lt_zpow_right₀ (by norm_num) h

theorem pow2_natCast (n : Nat) : pow2 (n : Int) = ((2 ^ n : Nat) : ℚ) := by
  rw [pow2_eq, zpow_natCast]; push_cast; rfl

theorem log2Fuel_spec : ∀ (fuel n : Nat), n ≤ fuel → n ≠ 0 →
    2 ^ log2Fuel fuel n ≤ n ∧ n < 2 ^ (log2Fuel fuel n + 1)
  | 0, n, h, h0 => by omega
  | fuel + 1, n, h, h0 => by
    unfold log2Fuel
    split
    · rename_i h2
      have : n = 1 := by omega
      subst this
      simp
    · rename_i h2
      have hdiv : n / 2 ≤ fuel := by omega
      have hne : n / 2 ≠ 0 := by omega
      obtain ⟨h1, h3⟩ := log2Fuel_spec fuel (n / 2) hdiv hne
      constructor
      · rw [pow_succ]; omega
      · rw [pow_succ]; omega

theorem natLog2_spec (n : Nat) (h : n ≠ 0) :
    2 ^ natLog2 n ≤ n ∧ n < 2 ^ (natLog2 n + 1) :=
  log2Fuel_spec n n le_rfl h

theorem abs_eq_natAbs_div (a : ℚ) : |a| = (a.num.natAbs : ℚ) / (a.den : ℚ) := by
  conv_lhs => rw [← Rat.num_div_den a]
  rw [abs_div, Nat.abs_cast, ← Int.cast_abs, Int.abs_eq_natAbs, Int.cast_natCast]

theorem ilog2_spec (a : ℚ) (h : a ≠ 0) :
    pow2 (ilog2 a) ≤ |a| ∧ |a| < pow2 (ilog2 a + 1) := by
  have hn : a.num.natAbs ≠ 0 := by
    simpa [Int.natAbs_eq_zero] using h
  have hd : a.den ≠ 0 := a.den_nz
  obtain ⟨n1, n2⟩ := natLog2_spec _ hn
  obtain ⟨d1, d2⟩ := natLog2_spec _ hd
  have ha := abs_eq_natAbs_div a
  have hdpos : (0 : ℚ) < (a.den : ℚ) := by exact_mod_cast Nat.pos_of_ne_zero hd
  have n1q : (2 : ℚ) ^ (natLog2 a.num.natAbs : Int) ≤ (a.num.natAbs : ℚ) := by
    rw [zpow_natCast]; exact_mod_cast n1
  have n2q : (a.num.natAbs : ℚ) < (2 : ℚ) ^ ((natLog2 a.num.natAbs : Int) + 1) := by
    have : ((natLog2 a.num.natAbs : Int) + 1) = ((natLog2 a.num.natAbs + 1 : Nat) : Int) := by
      push_cast; ring
    rw [this, zpow_natCast]; exact_mod_cast n2
  have d1q : (2 : ℚ) ^ (natLog2 a.den : Int) ≤ (a.den : ℚ) := by
    rw [zpow_natCast]; exact_mod_cast d1
  have d2q : (a.den : ℚ) < (2 : ℚ) ^ ((natLog2 a.den : Int) + 1) := by
    have : ((natLog2 a.den : Int) + 1) = ((natLog2 a.den + 1 : Nat) : Int) := by
      push_cast; ring
    rw [this, zpow_natCast]; exact_mod_cast d2
  have two : (2 : ℚ) ≠ 0 := by norm_num
  unfold ilog2
  simp only []
  split
  · rename_i hle
    refine ⟨hle, ?_⟩
    rw [ha, pow2_eq, div_lt_iff₀ hdpos]
    have e : (natLog2 a.num.natAbs : Int) - (natLog2 a.den : Int) + 1
        = ((natLog2 a.num.natAbs : Int) + 1) - (natLog2 a.den : Int) := by ring
    rw [e, zpow_sub₀ two]
    calc (a.num.natAbs : ℚ) < (2 : ℚ) ^ ((natLog2 a.num.natAbs : Int) + 1) := n2q
      _ = (2 : ℚ) ^ ((natLog2 a.num.natAbs : Int) + 1) / (2 : ℚ) ^ (natLog2 a.den : Int)
            * (2 : ℚ) ^ (natLog2 a.den : Int) := by
          rw [div_mul_cancel₀]; positivity
      _ ≤ _ := by
          apply mul_le_mul_of_nonneg_left d1q
          positivity
  · rename_i hle
    have hlt := lt_of_not_le hle
    have e : (natLog2 a.num.natAbs : Int) - (natLog2 a.den : Int) - 1 + 1
        = (natLog2 a.num.natAbs : Int) - (natLog2 a.den : Int) := by ring
    rw [e]
    refine ⟨?_, hlt⟩
    rw [ha, pow2_eq, le_div_iff₀ hdpos]
    have e2 : (natLog2 a.num.natAbs : Int) - (natLog2 a.den : Int) - 1
        = (natLog2 a.num.natAbs : Int) - ((natLog2 a.den : Int) + 1) := by ring
    rw [e2, zpow_sub₀ two]
    calc (2 : ℚ) ^ (natLog2 a.num.natAbs : Int) / (2 : ℚ) ^ ((natLog2 a.den : Int) + 1)
          * (a.den : ℚ)
        ≤ (2 : ℚ) ^ (natLog2 a.num.natAbs : Int) / (2 : ℚ) ^ ((natLog2 a.den : Int) + 1)
          * (2 : ℚ) ^ ((natLog2 a.den : Int) + 1) := by
          apply mul_le_mul_of_nonneg_left d2q.le
          positivity
      _ = (2 : ℚ) ^ (natLog2 a.num.natAbs : Int) := by
          rw [div_mul_cancel₀]; positivity
      _ ≤ _ := n1q

theorem ilog2_mono {a b : ℚ} (ha : a ≠ 0) (h : |a| ≤ |b|) : ilog2 a ≤ ilog2 b := by
  have hb : b ≠ 0 := by
    intro hb; rw [hb, abs_zero] at h
    exact ha (abs_eq_zero.mp (le_antisymm h (abs_nonneg a)))
  obtain ⟨s1, _⟩ := ilog2_spec a ha
  obtain ⟨_, t2⟩ := ilog2_spec b hb
  have : pow2 (ilog2 a) < pow2 (ilog2 b + 1) := lt_of_le_of_lt (le_trans s1 h) t2
  rw [pow2_eq, pow2_eq] at this
  have := (zpow_lt_zpow_iff_right₀ (by norm_num : (1 : ℚ) < 2)).mp this
  omega

theorem roundHalfEven_cases (x : ℚ) :
    (roundHalfEven x = ⌊x⌋ ∧ x - (⌊x⌋ : ℚ) ≤ 1 / 2) ∨
    (roundHalfEven x = ⌊x⌋ + 1 ∧ 1 / 2 ≤ x - (⌊x⌋ : ℚ)) := by
  have hf : Rat.floor x = ⌊x⌋ := rfl
  unfold roundHalfEven
  simp only [hf]
  split_ifs with h1 h2 h3
  · left; exact ⟨rfl, h1.le⟩
  · right; exact ⟨rfl, h2.le⟩
  · left; exact ⟨rfl, not_lt.mp h2⟩
  · right; exact ⟨rfl, not_lt.mp h1⟩

theorem roundHalfEven_le_of_le (x : ℚ) (k : Int) (h : x ≤ (k : ℚ)) : roundHalfEven x ≤ k := by
  have h1 := Int.floor_le x
  have h2 := Int.lt_floor_add_one x
  rcases roundHalfEven_cases x with ⟨e, _⟩ | ⟨e, hr⟩
  · rw [e]; exact Int.cast_le.mp (le_trans h1 h)
  · rw [e]
    have : ((⌊x⌋ : Int) : ℚ) < (k : ℚ) := by linarith
    have := Int.cast_lt.mp this
    omega

theorem le_roundHalfEven_of_le (x : ℚ) (k : Int) (h : (k : ℚ) ≤ x) : k ≤ roundHalfEven x := by
  have h3 : k ≤ ⌊x⌋ := Int.le_floor.mpr h
  rcases roundHalfEven_cases x with ⟨e, _⟩ | ⟨e, _⟩ <;> rw [e] <;> omega

theorem roundHalfEven_intCast (k : Int) : roundHalfEven (k : ℚ) = k :=
  le_antisymm (roundHalfEven_le_of_le _ k le_rfl) (le_roundHalfEven_of_le _ k le_rfl)

theorem roundHalfEven_mono {x y : ℚ} (h : x ≤ y) : roundHalfEven x ≤ roundHalfEven y := by
  have hfx : Rat.floor x = ⌊x⌋ := rfl
  have hfy : Rat.floor y = ⌊y⌋ := rfl
  have hxy : ⌊x⌋ ≤ ⌊y⌋ := Int.floor_mono h
  rcases lt_or_eq_of_le hxy with hlt | heq
  · have a : roundHalfEven x ≤ ⌊x⌋ + 1 := by
      rcases roundHalfEven_cases x with ⟨e, _⟩ | ⟨e, _⟩ <;> rw [e] <;> omega
    have b : ⌊y⌋ ≤ roundHalfEven y := by
      rcases roundHalfEven_cases y with ⟨e, _⟩ | ⟨e, _⟩ <;> rw [e] <;> omega
    omega
  · unfold roundHalfEven
    simp only [hfx, hfy, heq]
    have hr : x - (⌊y⌋ : ℚ) ≤ y - (⌊y⌋ : ℚ) := by linarith
    split_ifs <;> first | omega | (exfalso; linarith)

theorem roundHalfEven_sub_le (x : ℚ) : |(roundHalfEven x : ℚ) - x| ≤ 1 / 2 := by
  have h1 := Int.floor_le x
  have h2 := Int.lt_floor_add_one x
  rw [abs_le]
  rcases roundHalfEven_cases x with ⟨e, hr⟩ | ⟨e, hr⟩
  · rw [e]; constructor <;> linarith
  · rw [e]; push_cast; constructor <;> linarith

theorem lt_of_pow2_lt {a b : Int} (h : pow2 a < pow2 b) : a < b := by
  rw [pow2_eq, pow2_eq] at h
  exact (zpow_lt_zpow_iff_right₀ (by norm_num : (1 : ℚ) < 2)).mp h

theorem roundQ_zero : roundQ 0 = 0 := by simp [roundQ]

theorem roundQ_le_of_grid (a : ℚ) (k : Int) (h : a ≤ (k : ℚ) * pow2 (ulpExp a)) :
    roundQ a ≤ (k : ℚ) * pow2 (ulpExp a) := by
  unfold roundQ
  split
  · rename_i h0; exact le_of_eq_of_le h0.symm h
  · have hp := pow2_pos (ulpExp a)
    apply mul_le_mul_of_nonneg_right _ hp.le
    have : a / pow2 (ulpExp a) ≤ (k : ℚ) := (div_le_iff₀ hp).mpr h
    exact_mod_cast roundHalfEven_le_of_le _ k this

theorem le_roundQ_of_grid (a : ℚ) (k : Int) (h : (k : ℚ) * pow2 (ulpExp a) ≤ a) :
    (k : ℚ) * pow2 (ulpExp a) ≤ roundQ a := by
  unfold roundQ
  split
  · rename_i h0; exact le_of_le_of_eq h h0
  · have hp := pow2_pos (ulpExp a)
    apply mul_le_mul_of_nonneg_right _ hp.le
    have : (k : ℚ) ≤ a / pow2 (ulpExp a) := (le_div_iff₀ hp).mpr h
    exact_mod_cast le_roundHalfEven_of_le _ k this

theorem roundQ_nonneg {a : ℚ} (h : 0 ≤ a) : 0 ≤ roundQ a := by
  have := le_roundQ_of_grid a 0 (by simpa using h)
  simpa using this

theorem roundQ_nonpos {a : ℚ} (h : a ≤ 0) : roundQ a ≤ 0 := by
  have := roundQ_le_of_grid a 0 (by simpa using h)
  simpa using this

/-- A power of two at or above the unit of the last place lies on the grid. -/
theorem pow2_eq_grid (a : ℚ) (j : Int) (h : ulpExp a ≤ j) :
    pow2 j = (((2 ^ (j - ulpExp a).toNat : Nat) : Int) : ℚ) * pow2 (ulpExp a) := by
  have h1 : ((j - ulpExp a).toNat : Int) = j - ulpExp a := Int.toNat_of_nonneg (by omega)
  rw [Int.cast_natCast, ← pow2_natCast, h1, ← pow2_add]
  congr 1; ring

theorem roundQ_le_pow2 (a : ℚ) (j : Int) (hj : ulpExp a ≤ j) (h : a ≤ pow2 j) :
    roundQ a ≤ pow2 j := by
  rw [pow2_eq_grid a j hj] at h ⊢
  exact roundQ_le_of_grid a _ h

theorem pow2_le_roundQ (a : ℚ) (j : Int) (hj : ulpExp a ≤ j) (h : pow2 j ≤ a) :
    pow2 j ≤ roundQ a := by
  rw [pow2_eq_grid a j hj] at h ⊢
  exact le_roundQ_of_grid a _ h

theorem neg_pow2_le_roundQ (a : ℚ) (j : Int) (hj : ulpExp a ≤ j) (h : -pow2 j ≤ a) :
    -pow2 j ≤ roundQ a := by
  rw [pow2_eq_grid a j hj, ← neg_mul, ← Int.cast_neg] at h ⊢
  exact le_roundQ_of_grid a _ h

theorem roundQ_le_neg_pow2 (a : ℚ) (j : Int) (hj : ulpExp a ≤ j) (h : a ≤ -pow2 j) :
    roundQ a ≤ -pow2 j := by
  rw [pow2_eq_grid a j hj, ← neg_mul, ← Int.cast_neg] at h ⊢
  exact roundQ_le_of_grid a _ h

theorem ulpExp_mono {a b : ℚ} (ha : a ≠ 0) (h : |a| ≤ |b|) : ulpExp a ≤ ulpExp b := by
  have := ilog2_mono ha h
  unfold ulpExp
  omega

theorem roundQ_mono_same {a b : ℚ} (ha : a ≠ 0) (hb : b ≠ 0) (hu : ulpExp a = ulpExp b)
    (h : a ≤ b) : roundQ a ≤ roundQ b := by
  unfold roundQ
  rw [if_neg ha, if_neg hb, hu]
  have hp := pow2_pos (ulpExp b)
  apply mul_le_mul_of_nonneg_right _ hp.le
  have : a / pow2 (ulpExp b) ≤ b / pow2 (ulpExp b) := div_le_div_of_nonneg_right h hp.le
  exact_mod_cast roundHalfEven_mono this

theorem roundQ_mono_pos {a b : ℚ} (ha : 0 < a) (h : a ≤ b) : roundQ a ≤ roundQ b := by
  have hb : 0 < b := lt_of_lt_of_le ha h
  have habs : |a| ≤ |b| := by rw [abs_of_pos ha, abs_of_pos hb]; exact h
  have hu := ulpExp_mono ha.ne' habs
  rcases lt_or_eq_of_le hu with hlt | heq
  · obtain ⟨_, a2⟩ := ilog2_spec a ha.ne'
    obtain ⟨b1, _⟩ := ilog2_spec b hb.ne'
    rw [abs_of_pos ha] at a2
    rw [abs_of_pos hb] at b1
    have hlt' : max (ilog2 a) (-1022) < max (ilog2 b) (-1022) := by
      unfold ulpExp at hlt; omega
    have hbn : -1022 < ilog2 b := by
      by_contra hc
      have : max (ilog2 b) (-1022) = -1022 := by omega
      omega
    have hbe : max (ilog2 b) (-1022) = ilog2 b := by omega
    have h1 : roundQ a ≤ pow2 (max (ilog2 a) (-1022) + 1) := by
      apply roundQ_le_pow2
      · unfold ulpExp; omega
      · exact le_trans a2.le (pow2_le_pow2 (by omega))
    have h2 : pow2 (ilog2 b) ≤ roundQ b := by
      apply pow2_le_roundQ
      · unfold ulpExp; omega
      · exact b1
    exact le_trans h1 (le_trans (pow2_le_pow2 (by omega)) h2)
  · exact roundQ_mono_same ha.ne' hb.ne' heq h

theorem roundQ_mono_neg {a b : ℚ} (hb : b < 0) (h : a ≤ b) : roundQ a ≤ roundQ b := by
  have ha : a < 0 := lt_of_le_of_lt h hb
  have habs : |b| ≤ |a| := by rw [abs_of_neg ha, abs_of_neg hb]; linarith
  have hu := ulpExp_mono hb.ne habs
  rcases lt_or_eq_of_le hu with hlt | heq
  · obtain ⟨a1, _⟩ := ilog2_spec a ha.ne
    obtain ⟨_, b2⟩ := ilog2_spec b hb.ne
    rw [abs_of_neg ha] at a1
    rw [abs_of_neg hb] at b2
    have hlt' : max (ilog2 b) (-1022) < max (ilog2 a) (-1022) := by
      unfold ulpExp at hlt; omega
    have han : -1022 < ilog2 a := by
      by_contra hc
      have : max (ilog2 a) (-1022) = -1022 := by omega
      omega
    have h1 : -pow2 (max (ilog2 b) (-1022) + 1) ≤ roundQ b := by
      apply neg_pow2_le_roundQ
      · unfold ulpExp; omega
      · have := le_trans b2.le (pow2_le_pow2 (show ilog2 b + 1 ≤ max (ilog2 b) (-1022) + 1 by omega))
        linarith
    have h2 : roundQ a ≤ -pow2 (ilog2 a) := by
      apply roundQ_le_neg_pow2
      · unfold ulpExp; omega
      · linarith
    have h3 : pow2 (max (ilog2 b) (-1022) + 1) ≤ pow2 (ilog2 a) := pow2_le_pow2 (by omega)
    linarith
  · exact roundQ_mono_same ha.ne hb.ne heq.symm h

/-- Rounding to nearest is monotone. -/
theorem roundQ_mono {a b : ℚ} (h : a ≤ b) : roundQ a ≤ roundQ b := by
  rcases lt_trichotomy a 0 with ha | ha | ha
  · rcases lt_or_le b 0 with hb | hb
    · exact roundQ_mono_neg hb h
    · exact le_trans (roundQ_nonpos ha.le) (roundQ_nonneg hb)
  · rw [ha, roundQ_zero]; exact roundQ_nonneg (ha ▸ h)
  · exact roundQ_mono_pos ha h

/-- A multiple of a power of two with fewer than 54 significant bits, at or
above the smallest subnormal, is a binary64 value: rounding leaves it. -/
theorem roundQ_of_grid (n k : Int) (hk : -1074 ≤ k) (hn : |(n : ℚ)| < pow2 53) :
    roundQ ((n : ℚ) * pow2 k) = (n : ℚ) * pow2 k := by
  by_cases h0 : (n : ℚ) * pow2 k = 0
  · rw [h0, roundQ_zero]
  · have hu : ulpExp ((n : ℚ) * pow2 k) ≤ k := by
      obtain ⟨s1, _⟩ := ilog2_spec _ h0
      have hlt : pow2 (ilog2 ((n : ℚ) * pow2 k)) < pow2 (k + 53) := by
        apply lt_of_le_of_lt s1
        rw [abs_mul, abs_of_pos (pow2_pos k), add_comm, pow2_add]
        exact mul_lt_mul_of_pos_right hn (pow2_pos k)
      have := lt_of_pow2_lt hlt
      unfold ulpExp; omega
    have hg := pow2_eq_grid ((n : ℚ) * pow2 k) k hu
    have hp := pow2_pos (ulpExp ((n : ℚ) * pow2 k))
    unfold roundQ
    rw [if_neg h0]
    have hq : (n : ℚ) * pow2 k / pow2 (ulpExp ((n : ℚ) * pow2 k))
        = ((n * ((2 ^ (k - ulpExp ((n : ℚ) * pow2 k)).toNat : Nat) : Int) : Int) : ℚ) := by
      rw [div_eq_iff hp.ne']
      conv_lhs => rw [hg]
      push_cast; ring
    rw [hq, roundHalfEven_intCast]
    conv_rhs => rw [hg]
    push_cast; ring

theorem roundQ_intCast (n : Int) (hn : |(n : ℚ)| < pow2 53) : roundQ (n : ℚ) = (n : ℚ) := by
  have := roundQ_of_grid n 0 (by norm_num) hn
  have h1 : pow2 0 = 1 := by rw [pow2_eq]; simp
  simpa [h1] using this

theorem roundQ_one : roundQ 1 = 1 := by decide!

theorem roundQ_neg_nine : roundQ (-9) = -9 := by decide!

theorem pow2_1024_big : (2 : ℚ) ^ 53 < pow2 1024 := by
  have : pow2 53 < pow2 1024 := pow2_lt_pow2 (by norm_num)
  rw [pow2_eq 53] at this
  exact_mod_cast this

/-- Without overflow the result of an operation is the rounded value. -/
theorem round64_of_abs_lt (a : ℚ) (h : |roundQ a| < pow2 1024) :
    round64 a = F64.fin (roundQ a) := by
  rw [abs_lt] at h
  unfold round64
  rw [if_neg (not_le.mpr h.2), if_neg (not_le.mpr h.1)]

/-- Integers below `2^53` in magnitude are binary64 values. -/
theorem round64_intCast (n : Int) (h : |(n : ℚ)| < 2 ^ 53) :
    round64 (n : ℚ) = F64.fin (n : ℚ) := by
  have hp : pow2 53 = (2 : ℚ) ^ 53 := by rw [pow2_eq]; norm_cast
  have hr : roundQ (n : ℚ) = (n : ℚ) := roundQ_intCast n (by rw [hp]; exact h)
  have := round64_of_abs_lt (n : ℚ) (by rw [hr]; exact lt_trans h pow2_1024_big)
  rw [this, hr]


/-- A value of magnitude at least `2^-1022` lies in a normal binade. -/
theorem ilog2_ge_of_abs_ge {a : ℚ} (h : pow2 (-1022) ≤ |a|) : -1022 ≤ ilog2 a := by
  have h0 : a ≠ 0 := by
    intro h0; rw [h0, abs_zero] at h
    exact absurd h (not_le.mpr (pow2_pos _))
  obtain ⟨_, s2⟩ := ilog2_spec a h0
  have := lt_of_pow2_lt (lt_of_le_of_lt h s2)
  omega

/-- In the normal range rounding changes a value by at most the fraction
`2^-53` of its magnitude. -/
theorem roundQ_rel_error {a : ℚ} (h : pow2 (-1022) ≤ |a|) :
    |roundQ a - a| ≤ pow2 (-53) * |a| := by
  have h0 : a ≠ 0 := by
    intro h0; rw [h0, abs_zero] at h
    exact absurd h (not_le.mpr (pow2_pos _))
  have he := ilog2_ge_of_abs_ge h
  obtain ⟨s1, _⟩ := ilog2_spec a h0
  have hu : ulpExp a = ilog2 a - 52 := by unfold ulpExp; omega
  have hp := pow2_pos (ulpExp a)
  have hx : a = a / pow2 (ulpExp a) * pow2 (ulpExp a) := by
    rw [div_mul_cancel₀ _ hp.ne']
  have hr : roundQ a - a =
      ((roundHalfEven (a / pow2 (ulpExp a)) : ℚ) - a / pow2 (ulpExp a)) * pow2 (ulpExp a) := by
    unfold roundQ
    rw [if_neg h0, sub_mul, div_mul_cancel₀ _ hp.ne']
  rw [hr, abs_mul, abs_of_pos hp]
  have hhalf := roundHalfEven_sub_le (a / pow2 (ulpExp a))
  have e2 : pow2 (-53) * pow2 (ilog2 a) = 1 / 2 * pow2 (ulpExp a) := by
    have h52 : pow2 (-53) * pow2 52 = 1 / 2 := by rw [← pow2_add]; decide!
    rw [hu]
    have : pow2 (ilog2 a - 52 + 52) = pow2 (ilog2 a) := by congr 1; ring
    rw [← this, pow2_add, ← mul_assoc, mul_comm (pow2 (-53)), mul_assoc, h52, mul_comm]
  calc |(roundHalfEven (a / pow2 (ulpExp a)) : ℚ) - a / pow2 (ulpExp a)| * pow2 (ulpExp a)
      ≤ 1 / 2 * pow2 (ulpExp a) := mul_le_mul_of_nonneg_right hhalf hp.le
    _ = pow2 (-53) * pow2 (ilog2 a) := e2.symm
    _ ≤ pow2 (-53) * |a| := mul_le_mul_of_nonneg_left s1 (pow2_pos _).le

/-- The magnitude of a rounded value, from below, for a magnitude of at
least `2^-1022`. -/
theorem abs_roundQ_ge {d : ℚ} (h : pow2 (-1022) ≤ |d|) :
    |d| * (1 - pow2 (-53)) ≤ |roundQ d| := by
  have := roundQ_rel_error h
  have h1 : |d| - |roundQ d| ≤ |roundQ d - d| := by
    rw [abs_sub_comm]; exact abs_sub_abs_le_abs_sub d (roundQ d)
  linarith

/-- The magnitude of a rounded value, from above. -/
theorem abs_roundQ_le (d : ℚ) :
    |roundQ d| ≤ max (|d| * (1 + pow2 (-53))) (pow2 (-1022)) := by
  by_cases h : pow2 (-1022) ≤ |d|
  · have := roundQ_rel_error h
    have h1 : |roundQ d| - |d| ≤ |roundQ d - d| := abs_sub_abs_le_abs_sub (roundQ d) d
    apply le_max_of_le_left
    linarith
  · have hlt := lt_of_not_le h
    rw [abs_lt] at hlt
    have e1 : roundQ (pow2 (-1022)) = pow2 (-1022) := by
      have := roundQ_of_grid 1 (-1022) (by norm_num) (by decide!)
      simpa using this
    have e2 : roundQ (-pow2 (-1022)) = -pow2 (-1022) := by
      have := roundQ_of_grid (-1) (-1022) (by norm_num) (by decide!)
      simpa using this
    have u1 := roundQ_mono hlt.2.le
    have u2 := roundQ_mono hlt.1.le
    rw [e1] at u1
    rw [e2] at u2
    apply le_max_of_le_right
    rw [abs_le]
    exact ⟨u2, u1⟩

/-- A rounded quotient at or above the successor `t + g` of the threshold `t`
compares greater than `t`. -/
theorem gt_round64_of_ge (x t g : ℚ) (ht : 0 ≤ t) (hg : 0 < g)
    (hs : roundQ (t + g) = t + g) (hx : t + g ≤ x) :
    F64.gt (round64 x) (F64.fin t) = true := by
  have hr := roundQ_mono hx
  rw [hs] at hr
  have hp := pow2_pos 1024
  unfold round64
  split_ifs with h1 h2
  · rfl
  · exfalso; linarith
  · simp only [F64.gt, F64.lt, decide_eq_true_eq]
    linarith

/-- A rounded quotient at or below the threshold `t` does not compare greater
than `t`. -/
theorem not_gt_round64_of_le (x t : ℚ) (ht : t < pow2 1024) (hs : roundQ t = t)
    (hx : x ≤ t) : F64.gt (round64 x) (F64.fin t) = false := by
  have hr := roundQ_mono hx
  rw [hs] at hr
  unfold round64
  split_ifs with h1 h2
  · exfalso; linarith
  · rfl
  · simp only [F64.gt, F64.lt, decide_eq_false_iff_not, not_lt]
    exact hr

theorem pow2_neg53_pos : 0 < pow2 (-53) := pow2_pos _

theorem pow2_neg53_le : pow2 (-53) ≤ 1 / 8 := by decide!

/-- The quotient of two binary64 values compares greater than the threshold
`t` when the exact quotient `absd / M` is at least `t + 2^-51`; `a` and `Mf`
are the rounded numerator and denominator. -/
theorem quotient_band_gt (a Mf absd M t g : ℚ) (hM : 1 ≤ M) (hMf0 : 0 < Mf)
    (hMf : Mf ≤ M * (1 + pow2 (-53))) (ha : absd * (1 - pow2 (-53)) ≤ a)
    (hρ : t + 4 * pow2 (-53) ≤ absd / M) (ht : 0 ≤ t) (ht2 : t ≤ 1 / 2)
    (hg : 0 < g) (hg2 : g ≤ pow2 (-53)) (hs : roundQ (t + g) = t + g) :
    F64.gt (F64.div (F64.fin a) (F64.fin Mf)) (F64.fin t) = true := by
  have hδ0 := pow2_neg53_pos
  have hδ1 := pow2_neg53_le
  have hMpos : (0 : ℚ) < M := by linarith
  have hdiv : F64.div (F64.fin a) (F64.fin Mf) = round64 (a / Mf) := by
    simp only [F64.div, hMf0.ne', if_false]
  rw [hdiv]
  apply gt_round64_of_ge _ t g ht hg hs
  rw [le_div_iff₀ hMf0]
  have h1 : (t + 4 * pow2 (-53)) * M ≤ absd := (le_div_iff₀ hMpos).mp hρ
  have key : (t + g) * (1 + pow2 (-53)) ≤ (t + 4 * pow2 (-53)) * (1 - pow2 (-53)) := by
    nlinarith [mul_nonneg ht hδ0.le, mul_nonneg hδ0.le hδ0.le,
      mul_le_mul_of_nonneg_right hg2 hδ0.le, mul_le_mul_of_nonneg_right ht2 hδ0.le,
      mul_le_mul_of_nonneg_right hδ1 hδ0.le]
  have htg : 0 ≤ t + g := by linarith
  have h1δ : (0 : ℚ) ≤ 1 - pow2 (-53) := by linarith
  calc (t + g) * Mf ≤ (t + g) * (M * (1 + pow2 (-53))) := mul_le_mul_of_nonneg_left hMf htg
    _ = (t + g) * (1 + pow2 (-53)) * M := by ring
    _ ≤ (t + 4 * pow2 (-53)) * (1 - pow2 (-53)) * M := mul_le_mul_of_nonneg_right key hMpos.le
    _ = (t + 4 * pow2 (-53)) * M * (1 - pow2 (-53)) := by ring
    _ ≤ absd * (1 - pow2 (-53)) := mul_le_mul_of_nonneg_right h1 h1δ
    _ ≤ a := ha

/-- The quotient of two binary64 values does not compare greater than the
threshold `t` when the exact quotient `absd / M` is at most `t - 2^-51`. -/
theorem quotient_band_le (a Mf absd M t : ℚ) (hM : 1 ≤ M) (hMf1 : 1 ≤ Mf)
    (hMf : M * (1 - pow2 (-53)) ≤ Mf) (habs : 0 ≤ absd)
    (ha : a ≤ max (absd * (1 + pow2 (-53))) (pow2 (-1022)))
    (hρ : absd / M ≤ t - 4 * pow2 (-53)) (ht : pow2 (-1022) ≤ t) (ht2 : t ≤ 1 / 2)
    (hs : roundQ t = t) :
    F64.gt (F64.div (F64.fin a) (F64.fin Mf)) (F64.fin t) = false := by
  have hδ0 := pow2_neg53_pos
  have hδ1 := pow2_neg53_le
  have hMpos : (0 : ℚ) < M := by linarith
  have hMf0 : (0 : ℚ) < Mf := by linarith
  have ht0 : 0 ≤ t := le_trans (pow2_pos _).le ht
  have hdiv : F64.div (F64.fin a) (F64.fin Mf) = round64 (a / Mf) := by
    simp only [F64.div, hMf0.ne', if_false]
  rw [hdiv]
  have hbig : t < pow2 1024 := by
    have : (1 : ℚ) / 2 < pow2 1024 := by
      have := pow2_1024_big
      have h2 : (1 : ℚ) / 2 < 2 ^ 53 := by norm_num
      linarith
    linarith
  apply not_gt_round64_of_le _ t hbig hs
  rw [div_le_iff₀ hMf0]
  have h1 : absd ≤ (t - 4 * pow2 (-53)) * M := (div_le_iff₀ hMpos).mp hρ
  have ht4 : 0 ≤ t - 4 * pow2 (-53) := le_trans (div_nonneg habs hMpos.le) hρ
  rcases le_max_iff.mp ha with h | h
  · have key : (t - 4 * pow2 (-53)) * (1 + pow2 (-53)) ≤ t * (1 - pow2 (-53)) := by
      nlinarith [mul_nonneg ht0 hδ0.le, mul_nonneg hδ0.le hδ0.le,
        mul_le_mul_of_nonneg_right ht2 hδ0.le]
    have h1δ : (0 : ℚ) ≤ 1 + pow2 (-53) := by linarith
    calc a ≤ absd * (1 + pow2 (-53)) := h
      _ ≤ (t - 4 * pow2 (-53)) * M * (1 + pow2 (-53)) := mul_le_mul_of_nonneg_right h1 h1δ
      _ = (t - 4 * pow2 (-53)) * (1 + pow2 (-53)) * M := by ring
      _ ≤ t * (1 - pow2 (-53)) * M := mul_le_mul_of_nonneg_right key hMpos.le
      _ = t * (M * (1 - pow2 (-53))) := by ring
      _ ≤ t * Mf := mul_le_mul_of_nonneg_left hMf ht0
  · calc a ≤ pow2 (-1022) := h
      _ ≤ t := ht
      _ = t * 1 := (mul_one t).symm
      _ ≤ t * Mf := mul_le_mul_of_nonneg_left hMf1 ht0

theorem wrap64_of_range (n : Int) (h1 : -9223372036854775808 ≤ n)
    (h2 : n < 9223372036854775808) : wrap64 n = n := by
  unfold wrap64
  omega

/-- The conversion of an `int` of the `int64` range is finite. -/
theorem ofInt_eq_fin (n : Int) (h : |n| ≤ 2 ^ 63) : F64.ofInt n = F64.fin (roundQ (n : ℚ)) := by
  have hq : |(n : ℚ)| ≤ 2 ^ 63 := by
    rw [← Int.cast_abs]; exact_mod_cast h
  have hp : pow2 63 = (2 : ℚ) ^ 63 := by rw [pow2_eq]; norm_cast
  have e1 : roundQ ((2 : ℚ) ^ 63) = (2 : ℚ) ^ 63 := by
    have := roundQ_of_grid 1 63 (by norm_num) (by decide!)
    rw [hp] at this
    simpa using this
  have e2 : roundQ (-(2 : ℚ) ^ 63) = -(2 : ℚ) ^ 63 := by
    have := roundQ_of_grid (-1) 63 (by norm_num) (by decide!)
    rw [hp] at this
    simpa using this
  rw [abs_le] at hq
  have u1 := roundQ_mono hq.2
  have u2 := roundQ_mono hq.1
  rw [e1] at u1
  rw [e2] at u2
  have hbig : (2 : ℚ) ^ 63 < pow2 1024 := by
    have : pow2 63 < pow2 1024 := pow2_lt_pow2 (by norm_num)
    rwa [hp] at this
  unfold F64.ofInt
  exact round64_of_abs_lt _ (by rw [abs_lt]; constructor <;> linarith)

/-- The rounded divisor `max(float64(n), 1)` against the exact `max(n, 1)`. -/
theorem max_round_band (n : Int) :
    1 ≤ max (roundQ (n : ℚ)) 1 ∧
    max (n : ℚ) 1 * (1 - pow2 (-53)) ≤ max (roundQ (n : ℚ)) 1 ∧
    max (roundQ (n : ℚ)) 1 ≤ max (n : ℚ) 1 * (1 + pow2 (-53)) := by
  have hδ0 := pow2_neg53_pos
  refine ⟨le_max_right _ _, ?_⟩
  rcases le_or_lt 1 n with h | h
  · have hq : (1 : ℚ) ≤ (n : ℚ) := by exact_mod_cast h
    have hr1 : (1 : ℚ) ≤ roundQ (n : ℚ) := by
      have := roundQ_mono hq
      rwa [roundQ_one] at this
    have hbig : pow2 (-1022) ≤ |(n : ℚ)| := by
      rw [abs_of_pos (by linarith)]
      have : pow2 (-1022) ≤ 1 := by decide!
      linarith
    have herr := roundQ_rel_error hbig
    rw [abs_of_pos (show (0 : ℚ) < (n : ℚ) by linarith), abs_le] at herr
    rw [max_eq_left hr1, max_eq_left hq]
    constructor <;> linarith
  · have hq : (n : ℚ) ≤ 0 := by
      have : n ≤ 0 := by omega
      exact_mod_cast this
    have hr0 := roundQ_nonpos hq
    rw [max_eq_right (by linarith), max_eq_right (by linarith)]
    constructor <;> linarith

theorem forall_perm_of_permutations {α : Type} (l : List α) (P : List α → Prop)
    (h : ∀ o ∈ l.permutations', P o) : ∀ o : List α, o.Perm l → P o :=
  fun o ho => h o (List.mem_permutations'.mpr ho)

/-- A multiple of `2^k` below `2^(k+53)` in magnitude, with `k` in the
exponent range of binary64, is the result of the operation that yields it. -/
theorem round64_of_grid (n k : Int) (hk1 : -1074 ≤ k) (hk2 : k ≤ 971)
    (hn : |(n : ℚ) * pow2 k| < pow2 (k + 53)) :
    round64 ((n : ℚ) * pow2 k) = F64.fin ((n : ℚ) * pow2 k) := by
  have hn' : |(n : ℚ)| < pow2 53 := by
    rw [abs_mul, abs_of_pos (pow2_pos k), add_comm, pow2_add] at hn
    exact lt_of_mul_lt_mul_right hn (pow2_pos k).le
  have hr := roundQ_of_grid n k hk1 hn'
  have := round64_of_abs_lt ((n : ℚ) * pow2 k) (by
    rw [hr]
    exact lt_of_lt_of_le hn (pow2_le_pow2 (by omega)))
  rw [this, hr]

/-- Binary64 additions are exact along a list of multiples of `2^k` whose
magnitudes, with that of the start value, sum to less than `2^(k+53)`. -/
theorem foldl_add_exact (k : Int) (hk1 : -1074 ≤ k) (hk2 : k ≤ 971) :
    ∀ (l : List (Str × ℚ)) (q : ℚ), (∃ n : Int, q = (n : ℚ) * pow2 k) →
      (∀ e ∈ l, ∃ n : Int, e.2 = (n : ℚ) * pow2 k) →
      |q| + (l.map (fun e => |e.2|)).sum < pow2 (k + 53) →
      l.foldl (fun total e => F64.add total (F64.fin e.2)) (F64.fin q) =
        F64.fin (q + (l.map (fun e => e.2)).sum) := by
  intro l
  induction l with
  | nil => intro q _ _ _; simp
  | cons e l ih =>
    intro q hq hl hb
    obtain ⟨n0, hn0⟩ := hq
    obtain ⟨n1, hn1⟩ := hl e (List.mem_cons_self _ _)
    rw [List.map_cons, List.sum_cons] at hb
    have hnn : 0 ≤ (l.map (fun e => |e.2|)).sum :=
      List.sum_nonneg (by
        intro x hx
        obtain ⟨e, _, rfl⟩ := List.mem_map.mp hx
        exact abs_nonneg _)
    have hsum : q + e.2 = ((n0 + n1 : Int) : ℚ) * pow2 k := by
      rw [hn0, hn1]; push_cast; ring
    have habs : |q + e.2| ≤ |q| + |e.2| := abs_add _ _
    have hstep : F64.add (F64.fin q) (F64.fin e.2) = F64.fin (q + e.2) := by
      simp only [F64.add]
      rw [hsum]
      apply round64_of_grid _ _ hk1 hk2
      rw [← hsum]
      linarith
    rw [List.foldl_cons, hstep, ih (q + e.2) ⟨n0 + n1, hsum⟩
      (fun x hx => hl x (List.mem_cons_of_mem _ hx)) (by linarith),
      List.map_cons, List.sum_cons, add_assoc]

/-- The binary64 total is the exact sum of the breakdown, in every iteration
order, when the values are multiples of `2^k` whose magnitudes sum to less than
`2^(k+53)`. -/
theorem sumBreakdown_exact (k : Int) (hk1 : -1074 ≤ k) (hk2 : k ≤ 971)
    (bd order : List (Str × ℚ)) (hperm : order.Perm bd)
    (hg : ∀ e ∈ bd, ∃ n : Int, e.2 = (n : ℚ) * pow2 k)
    (hb : (bd.map (fun e => |e.2|)).sum < pow2 (k + 53)) :
    sumBreakdown order = F64.fin ((bd.map (fun e => e.2)).sum) := by
  have h1 : (order.map (fun e => e.2)).sum = (bd.map (fun e => e.2)).sum :=
    (hperm.map _).sum_eq
  have h2 : (order.map (fun e => |e.2|)).sum = (bd.map (fun e => |e.2|)).sum :=
    (hperm.map _).sum_eq
  have := foldl_add_exact k hk1 hk2 order 0 ⟨0, by simp⟩
    (fun e he => hg e (hperm.mem_iff.mp he)) (by rw [abs_zero, zero_add, h2]; exact hb)
  unfold sumBreakdown
  rw [this, zero_add, h1]

/-! ## Winner selection -/

theorem evaluatedLess_false_iff (a b : evaluatedActivity) :
    evaluatedLess b a = false ↔ rankedBefore a b := by
  unfold evaluatedLess rankedBefore
  by_cases hT : b.Score.Total = a.Score.Total
  · by_cases hU : b.Detail.Updated = a.Detail.Updated
    · simp [hT, hU]
    · simp only [hT, hU, ne_eq, not_true_eq_false, not_false_eq_true, if_true, if_false,
        decide_eq_false_iff_not, not_lt, ge_iff_le, le_refl, true_and, forall_const]
      constructor
      · intro h
        exact ⟨h, fun h2 => absurd h2.symm hU⟩
      · intro h
        exact h.1
  · simp only [hT, ne_eq, not_false_eq_true, if_true, decide_eq_false_iff_not, not_lt,
      ge_iff_le]
    constructor
    · intro h
      exact ⟨h, fun h2 => absurd h2.symm hT, fun h2 => absurd h2.symm hT⟩
    · intro h
      exact h.1

theorem rankedBefore_total (a b : evaluatedActivity) : rankedBefore a b ∨ rankedBefore b a := by
  unfold rankedBefore
  rcases lt_trichotomy a.Score.Total b.Score.Total with h | h | h
  · right
    exact ⟨le_of_lt h, fun e => absurd e (ne_of_gt h), fun e => absurd e (ne_of_gt h)⟩
  · rcases lt_trichotomy a.Detail.Updated b.Detail.Updated with u | u | u
    · right
      exact ⟨le_of_eq h, fun _ => le_of_lt u, fun _ e => absurd e (ne_of_gt u)⟩
    · rcases le_total a.Detail.CreatedAt b.Detail.CreatedAt with c | c
      · right
        exact ⟨le_of_eq h, fun _ => le_of_eq u, fun _ _ => c⟩
      · left
        exact ⟨le_of_eq h.symm, fun _ => le_of_eq u.symm, fun _ _ => c⟩
    · left
      exact ⟨le_of_eq h.symm, fun _ => le_of_lt u, fun _ e => absurd e (ne_of_gt u)⟩
  · left
    exact ⟨le_of_lt h, fun e => absurd e (ne_of_gt h), fun e => absurd e (ne_of_gt h)⟩

theorem rankedBefore_trans {a b c : evaluatedActivity}
    (hab : rankedBefore a b) (hbc : rankedBefore b c) : rankedBefore a c := by
  obtain ⟨h1, h2, h3⟩ := hab
  obtain ⟨k1, k2, k3⟩ := hbc
  have hac : a.Score.Total ≥ c.Score.Total := le_trans k1 h1
  refine ⟨hac, ?_, ?_⟩
  · intro e
    have eab : a.Score.Total = b.Score.Total := le_antisymm (e ▸ k1) h1
    have ebc : b.Score.Total = c.Score.Total := eab ▸ e
    exact le_trans (k2 ebc) (h2 eab)
  · intro e u
    have eab : a.Score.Total = b.Score.Total := le_antisymm (e ▸ k1) h1
    have ebc : b.Score.Total = c.Score.Total := eab ▸ e
    have uab : a.Detail.Updated = b.Detail.Updated := le_antisymm (u ▸ k2 ebc) (h2 eab)
    have ubc : b.Detail.Updated = c.Detail.Updated := uab ▸ u
    exact le_trans (k3 ebc ubc) (h3 eab uab)

/-- Elements of `sinkLeft` are the inserted element and the old ones. -/
theorem sinkLeft_perm {α : Type} (less : α → α → Bool) (x : α) (l : List α) :
    (sinkLeft less x l).Perm (x :: l) := by
  induction l with
  | nil => exact List.Perm.refl _
  | cons y ys ih =>
    unfold sinkLeft
    split
    · exact (List.Perm.cons y ih).trans (List.Perm.swap x y ys)
    · exact List.Perm.refl _

theorem sortSlice_perm {α : Type} (less : α → α → Bool) (data : List α) :
    (sortSlice less data).Perm data := by
  unfold sortSlice
  have key : ∀ (l acc : List α),
      (l.foldl (fun sorted x => sinkLeft less x sorted) acc).Perm (l.reverse ++ acc) := by
    intro l
    induction l with
    | nil => intro acc; exact List.Perm.refl _
    | cons x xs ih =>
      intro acc
      rw [List.foldl_cons, List.reverse_cons, List.append_assoc]
      exact (ih _).trans (List.Perm.append_left _ (sinkLeft_perm less x acc))
  have h := key data []
  rw [List.append_nil] at h
  exact (List.reverse_perm _).trans (h.trans (List.reverse_perm _))

/-- Inserting into a reversed sorted prefix keeps it reversed sorted. -/
theorem sinkLeft_pairwise (x : evaluatedActivity) (l : List evaluatedActivity)
    (hl : l.Pairwise (fun p q => rankedBefore q p)) :
    (sinkLeft evaluatedLess x l).Pairwise (fun p q => rankedBefore q p) := by
  induction l with
  | nil => simp [sinkLeft]
  | cons y ys ih =>
    rw [List.pairwise_cons] at hl
    unfold sinkLeft
    split
    · rename_i hless
      rw [List.pairwise_cons]
      refine ⟨?_, ih hl.2⟩
      intro q hq
      rcases (List.mem_cons.mp ((sinkLeft_perm evaluatedLess x ys).subset hq)) with e | e
      · subst e
        rcases rankedBefore_total q y with h | h
        · exact h
        · have := (evaluatedLess_false_iff y q).mpr h
          rw [this] at hless
          exact absurd hless (by simp)
      · exact hl.1 q e
    · rename_i hless
      have hyx : rankedBefore y x := (evaluatedLess_false_iff y x).mp (by simpa using hless)
      rw [List.pairwise_cons]
      refine ⟨?_, List.pairwise_cons.mpr hl⟩
      intro q hq
      rcases List.mem_cons.mp hq with e | e
      · subst e; exact hyx
      · exact rankedBefore_trans (hl.1 q e) hyx

theorem sortEvaluated_pairwise (ev : List evaluatedActivity) :
    (sortEvaluated ev).Pairwise rankedBefore := by
  unfold sortEvaluated sortSlice
  have key : ∀ (l acc : List evaluatedActivity),
      acc.Pairwise (fun p q => rankedBefore q p) →
      (l.foldl (fun sorted x => sinkLeft evaluatedLess x sorted) acc).Pairwise
        (fun p q => rankedBefore q p) := by
    intro l
    induction l with
    | nil => intro acc h; exact h
    | cons x xs ih =>
      intro acc h
      rw [List.foldl_cons]
      exact ih _ (sinkLeft_pairwise x acc h)
  exact List.pairwise_reverse.mpr (key ev [] List.Pairwise.nil)

/-- C1: for every cluster of at least two scored details the slice after the
resolution sort is a rearrangement of the cluster in which, for positions
`i < j`, the total at `i` is at least the total at `j`, on equal totals the
last-updated instant at `i` is not earlier, and on equal totals and equal
last-updated instants the creation instant at `i` is not earlier.  The winner
is the element at position 0, the losers are the rest in that order, and no
detail of the cluster with the winner's total has a later last-updated instant
(or, on equal last-updated instants, a later creation instant).  The order of
positions holds as well for any other slice in which no element is `less` than
an element before it, which is all that `sort.Slice` promises on longer
slices. -/
theorem C1_winner_selection_order (ev : List evaluatedActivity) (hlen : 2 ≤ ev.length) :
    (sortEvaluated ev).Perm ev ∧
    (∀ (i j : Nat) (a b : evaluatedActivity), i < j →
      (sortEvaluated ev)[i]? = some a → (sortEvaluated ev)[j]? = some b →
      a.Score.Total ≥ b.Score.Total ∧
      (a.Score.Total = b.Score.Total → a.Detail.Updated ≥ b.Detail.Updated) ∧
      (a.Score.Total = b.Score.Total → a.Detail.Updated = b.Detail.Updated →
        a.Detail.CreatedAt ≥ b.Detail.CreatedAt)) ∧
    (∃ w : evaluatedActivity,
      winner (sortEvaluated ev) = some w ∧
      (sortEvaluated ev)[0]? = some w ∧
      sortEvaluated ev = w :: losers (sortEvaluated ev) ∧
      (losers (sortEvaluated ev)).length + 1 = ev.length ∧
      (∀ a ∈ ev, a.Score.Total = w.Score.Total →
        a.Detail.Updated ≤ w.Detail.Updated ∧
        (a.Detail.Updated = w.Detail.Updated → a.Detail.CreatedAt ≤ w.Detail.CreatedAt))) ∧
    (∀ ranked : List evaluatedActivity,
      ranked.Pairwise (fun a b => evaluatedLess b a = false) →
      ∀ (i j : Nat) (a b : evaluatedActivity), i < j →
        ranked[i]? = some a → ranked[j]? = some b →
        a.Score.Total ≥ b.Score.Total ∧
        (a.Score.Total = b.Score.Total → a.Detail.Updated ≥ b.Detail.Updated) ∧
        (a.Score.Total = b.Score.Total → a.Detail.Updated = b.Detail.Updated →
          a.Detail.CreatedAt ≥ b.Detail.CreatedAt)) := by
  have hperm := sortSlice_perm evaluatedLess ev
  have hpw := sortEvaluated_pairwise ev
  refine ⟨hperm, ?_, ?_, ?_⟩
  rotate_left 2
  · intro ranked hr i j a b hij ha hb
    rw [List.pairwise_iff_getElem] at hr
    obtain ⟨hi, rfl⟩ := List.getElem?_eq_some_iff.mp ha
    obtain ⟨hj, rfl⟩ := List.getElem?_eq_some_iff.mp hb
    exact (evaluatedLess_false_iff _ _).mp (hr i j hi hj hij)
  · intro i j a b hij ha hb
    rw [List.pairwise_iff_getElem] at hpw
    obtain ⟨hi, rfl⟩ := List.getElem?_eq_some_iff.mp ha
    obtain ⟨hj, rfl⟩ := List.getElem?_eq_some_iff.mp hb
    exact hpw i j hi hj hij
  · have hl : (sortEvaluated ev).length = ev.length := hperm.length_eq
    cases hs : sortEvaluated ev with
    | nil => rw [hs] at hl; simp at hl; omega
    | cons w rest =>
      rw [hs] at hpw hl
      refine ⟨w, rfl, by simp, rfl, ?_, ?_⟩
      · simpa [losers] using hl
      · intro a ha hT
        have hmem : a ∈ w :: rest := by
          have := hperm.symm.subset ha
          change a ∈ sortEvaluated ev at this
          rwa [hs] at this
        rcases List.mem_cons.mp hmem with e | e
        · subst e
          exact ⟨le_refl _, fun _ => le_refl _⟩
        · have hr := (List.pairwise_cons.mp hpw).1 a e
          exact ⟨hr.2.1 hT.symm, fun hU => hr.2.2 hT.symm hU.symm⟩

/-- C1 at a two-element cluster with equal totals: the detail updated later
is ranked first. -/
theorem C1_winner_selection_order_witness :
    2 ≤ [(⟨{ zeroDetail with ID := "i1".toList, Updated := 5 }, ⟨7, []⟩⟩ : evaluatedActivity),
         ⟨{ zeroDetail with ID := "i2".toList, Updated := 9 }, ⟨7, []⟩⟩].length ∧
    (sortEvaluated
        [(⟨{ zeroDetail with ID := "i1".toList, Updated := 5 }, ⟨7, []⟩⟩ : evaluatedActivity),
         ⟨{ zeroDetail with ID := "i2".toList, Updated := 9 }, ⟨7, []⟩⟩]).Perm
        [(⟨{ zeroDetail with ID := "i1".toList, Updated := 5 }, ⟨7, []⟩⟩ : evaluatedActivity),
         ⟨{ zeroDetail with ID := "i2".toList, Updated := 9 }, ⟨7, []⟩⟩] ∧
    winner (sortEvaluated
        [(⟨{ zeroDetail with ID := "i1".toList, Updated := 5 }, ⟨7, []⟩⟩ : evaluatedActivity),
         ⟨{ zeroDetail with ID := "i2".toList, Updated := 9 }, ⟨7, []⟩⟩]) =
      some ⟨{ zeroDetail with ID := "i2".toList, Updated := 9 }, ⟨7, []⟩⟩ :=
  ⟨by decide, (C1_winner_selection_order _ (by decide)).1, by decide⟩

/-! ## Cluster builder -/

/-- A well-formed group: an anchor followed by at least one member, every
member starting at most 30 seconds after the anchor. -/
theorem groupStep_window (anchor a : Activity)
    (h : (if timeSub a.StartDateLocal anchor.StartDateLocal < 0
            then negDuration (timeSub a.StartDateLocal anchor.StartDateLocal)
            else timeSub a.StartDateLocal anchor.StartDateLocal) ≤ 30 * Second) :
    a.StartDateLocal - anchor.StartDateLocal ≤ 30 * Second := by
  unfold timeSub negDuration minDuration maxDuration Second at h
  unfold Second
  simp only at h
  split_ifs at h <;> omega

/-- On an element not earlier than the anchor, the test of the grouping loop
is the absolute-difference test of the specification. -/
theorem groupStep_test_sorted (anchor a : Activity)
    (hle : anchor.StartDateLocal ≤ a.StartDateLocal) :
    ((if timeSub a.StartDateLocal anchor.StartDateLocal < 0
            then negDuration (timeSub a.StartDateLocal anchor.StartDateLocal)
            else timeSub a.StartDateLocal anchor.StartDateLocal) ≤ 30 * Second) ↔
    withinWindow anchor a = true := by
  unfold withinWindow
  rw [decide_eq_true_iff, abs_of_nonneg (by omega)]
  unfold timeSub negDuration minDuration maxDuration Second
  simp only
  constructor
  · intro h
    split_ifs at h <;> omega
  · intro h
    split_ifs <;> omega

theorem specClusters_cons (anchor : Activity) (rest : List Activity) :
    specClusters (anchor :: rest) =
      (if 2 ≤ (anchor :: rest.takeWhile (withinWindow anchor)).length
        then [anchor :: rest.takeWhile (withinWindow anchor)] else []) ++
      specClusters (rest.dropWhile (withinWindow anchor)) := by
  rw [specClusters]

theorem groupStep_of_within (groups : List (List Activity)) (anchor a : Activity)
    (members : List Activity) (hle : anchor.StartDateLocal ≤ a.StartDateLocal)
    (hw : withinWindow anchor a = true) :
    groupStep (groups, anchor :: members) a = (groups, (anchor :: members) ++ [a]) := by
  have h := (groupStep_test_sorted anchor a hle).mpr hw
  simp only [groupStep]
  rw [if_pos h]

theorem groupStep_of_not_within (groups : List (List Activity)) (anchor a : Activity)
    (members : List Activity) (hle : anchor.StartDateLocal ≤ a.StartDateLocal)
    (hw : withinWindow anchor a = false) :
    groupStep (groups, anchor :: members) a =
      (if (anchor :: members).length > 1 then groups ++ [anchor :: members] else groups, [a]) := by
  have h : ¬ ((if timeSub a.StartDateLocal anchor.StartDateLocal < 0
            then negDuration (timeSub a.StartDateLocal anchor.StartDateLocal)
            else timeSub a.StartDateLocal anchor.StartDateLocal) ≤ 30 * Second) := by
    intro hc
    rw [(groupStep_test_sorted anchor a hle).mp hc] at hw
    exact absurd hw (by simp)
  simp only [groupStep]
  rw [if_neg h]

/-- The grouping loop started with an open group computes the groups of the
specification on input sorted by start time. -/
theorem groupLoop_eq_spec (rest : List Activity) :
    ∀ (groups : List (List Activity)) (anchor : Activity) (members : List Activity),
    (∀ b ∈ rest, anchor.StartDateLocal ≤ b.StartDateLocal) →
    rest.Pairwise (fun a b => a.StartDateLocal ≤ b.StartDateLocal) →
    (if ((rest.foldl groupStep (groups, anchor :: members)).2).length > 1
      then (rest.foldl groupStep (groups, anchor :: members)).1 ++
        [(rest.foldl groupStep (groups, anchor :: members)).2]
      else (rest.foldl groupStep (groups, anchor :: members)).1) =
    groups ++
      (if 2 ≤ (anchor :: (members ++ rest.takeWhile (withinWindow anchor))).length
        then [anchor :: (members ++ rest.takeWhile (withinWindow anchor))] else []) ++
      specClusters (rest.dropWhile (withinWindow anchor)) := by
  induction rest with
  | nil =>
    intro groups anchor members _ _
    simp only [List.foldl_nil, List.takeWhile_nil, List.dropWhile_nil, List.append_nil,
      specClusters]
    by_cases h : (anchor :: members).length > 1
    · rw [if_pos h, if_pos (by omega)]
    · rw [if_neg h, if_neg (by omega)]
      simp
  | cons b rest ih =>
    intro groups anchor members hanchor hsorted
    have hb : anchor.StartDateLocal ≤ b.StartDateLocal := hanchor b (List.mem_cons_self _ _)
    rw [List.pairwise_cons] at hsorted
    rw [List.foldl_cons]
    cases hw : withinWindow anchor b with
    | true =>
      rw [groupStep_of_within groups anchor b members hb hw]
      have := ih groups anchor (members ++ [b])
        (fun c hc => hanchor c (List.mem_cons_of_mem _ hc)) hsorted.2
      rw [List.cons_append]
      rw [this]
      simp only [List.takeWhile_cons, List.dropWhile_cons, hw, if_true, List.append_assoc,
        List.singleton_append]
    | false =>
      rw [groupStep_of_not_within groups anchor b members hb hw]
      have := ih (if (anchor :: members).length > 1 then groups ++ [anchor :: members]
          else groups) b [] hsorted.1 hsorted.2
      rw [this]
      simp only [List.takeWhile_cons, List.dropWhile_cons, hw, List.append_nil,
        List.nil_append, Bool.false_eq_true, if_false]
      rw [specClusters_cons b rest]
      have e1 : (if (anchor :: members).length > 1 then groups ++ [anchor :: members]
          else groups) =
          groups ++ (if 2 ≤ (anchor :: members).length then [anchor :: members] else []) := by
        by_cases h : (anchor :: members).length > 1
        · rw [if_pos h, if_pos (by omega)]
        · rw [if_neg h, if_neg (by omega), List.append_nil]
      rw [e1]
      simp only [List.append_assoc]

theorem groupActivities_eq_spec (acts : List Activity)
    (hsorted : acts.Pairwise (fun a b => a.StartDateLocal ≤ b.StartDateLocal)) :
    groupActivities acts = specClusters acts := by
  cases acts with
  | nil => simp [groupActivities, specClusters]
  | cons first rest =>
    rw [List.pairwise_cons] at hsorted
    have := groupLoop_eq_spec rest [] first [] hsorted.1 hsorted.2
    simp only [groupActivities]
    rw [this, specClusters_cons first rest]
    simp

/-- Every group of the specification's builder on sorted input is an anchor
followed by members that start no earlier than the anchor and at most 30
seconds after it. -/
theorem specClusters_window : ∀ (n : Nat) (l : List Activity), l.length ≤ n →
    l.Pairwise (fun a b => a.StartDateLocal ≤ b.StartDateLocal) →
    ∀ g ∈ specClusters l, ∃ (anchor : Activity) (members : List Activity),
      g = anchor :: members ∧
      ∀ m ∈ g, 0 ≤ m.StartDateLocal - anchor.StartDateLocal ∧
        m.StartDateLocal - anchor.StartDateLocal ≤ 30 * Second := by
  intro n
  induction n with
  | zero =>
    intro l hl _ g hg
    have : l = [] := List.length_eq_zero.mp (Nat.le_zero.mp hl)
    subst this
    simp [specClusters] at hg
  | succ n ih =>
    intro l hl hs g hg
    cases l with
    | nil => simp [specClusters] at hg
    | cons anchor rest =>
      rw [specClusters_cons anchor rest] at hg
      rw [List.pairwise_cons] at hs
      rcases List.mem_append.mp hg with h | h
      · split at h
        · rw [List.mem_singleton] at h
          refine ⟨anchor, rest.takeWhile (withinWindow anchor), h, ?_⟩
          intro m hm
          rw [h] at hm
          rcases List.mem_cons.mp hm with e | e
          · subst e
            simp [Second]
          · have hle := hs.1 m ((List.takeWhile_sublist _).subset e)
            have hw := List.mem_takeWhile_imp e
            unfold withinWindow at hw
            rw [decide_eq_true_iff, abs_of_nonneg (by omega)] at hw
            exact ⟨by omega, hw⟩
        · simp at h
      · have hlen : (rest.dropWhile (withinWindow anchor)).length ≤ n := by
          have := (List.dropWhile_sublist (withinWindow anchor) (l := rest)).length_le
          simp only [List.length_cons] at hl
          omega
        exact ih _ hlen (hs.2.sublist (List.dropWhile_sublist _)) g h

/-- The grouping loop keeps every emitted group at two members or more, for
any input. -/
theorem groupLoop_sizes (rest : List Activity) :
    ∀ (st : List (List Activity) × List Activity),
    (∀ g ∈ st.1, 2 ≤ g.length) →
    ∀ g ∈ (if (rest.foldl groupStep st).2.length > 1
        then (rest.foldl groupStep st).1 ++ [(rest.foldl groupStep st).2]
        else (rest.foldl groupStep st).1), 2 ≤ g.length := by
  induction rest with
  | nil =>
    intro st hst g hg
    rw [List.foldl_nil] at hg
    split at hg
    · rcases List.mem_append.mp hg with h | h
      · exact hst g h
      · rw [List.mem_singleton] at h
        subst h
        omega
    · exact hst g hg
  | cons a rest ih =>
    intro st hst
    rw [List.foldl_cons]
    apply ih
    intro g hg
    obtain ⟨groups, cur⟩ := st
    cases cur with
    | nil => exact hst g hg
    | cons anchor members =>
      simp only [groupStep] at hg
      generalize (if timeSub a.StartDateLocal anchor.StartDateLocal < 0
        then negDuration (timeSub a.StartDateLocal anchor.StartDateLocal)
        else timeSub a.StartDateLocal anchor.StartDateLocal) = d at hg
      split at hg
      · exact hst g hg
      · simp only at hg
        split at hg
        · rcases List.mem_append.mp hg with h | h
          · exact hst g h
          · rw [List.mem_singleton] at h
            subst h
            omega
        · exact hst g hg

/-- C2: on input sorted ascending by start time, every emitted group is an
anchor followed by members that start no earlier than the anchor and at most
30 seconds after it; one loop iteration appends the element to the open group
exactly when its absolute start-time difference to the anchor (the first
element of the open group) is at most 30 seconds, and otherwise opens a new
group at it, so the output is that of the specification's builder.  For start
times `t0`, `t0 + 20s`, `t0 + 45s` the output is the single group of the first
two elements. -/
theorem C2_clustering_anchor_relative (acts : List Activity)
    (hsorted : acts.Pairwise (fun a b => a.StartDateLocal ≤ b.StartDateLocal)) :
    (∀ g ∈ groupActivities acts, ∃ (anchor : Activity) (members : List Activity),
      g = anchor :: members ∧
      ∀ m ∈ g, 0 ≤ m.StartDateLocal - anchor.StartDateLocal ∧
        m.StartDateLocal - anchor.StartDateLocal ≤ 30 * Second) ∧
    (∀ (groups : List (List Activity)) (anchor a : Activity) (members : List Activity),
      anchor.StartDateLocal ≤ a.StartDateLocal →
      (groupStep (groups, anchor :: members) a).2 =
        if |a.StartDateLocal - anchor.StartDateLocal| ≤ 30 * Second
          then anchor :: members ++ [a] else [a]) ∧
    groupActivities acts = specClusters acts ∧
    (∀ (t0 : Int) (a0 a1 a2 : Activity), a0.StartDateLocal = t0 →
      a1.StartDateLocal = t0 + 20 * Second → a2.StartDateLocal = t0 + 45 * Second →
      groupActivities [a0, a1, a2] = [[a0, a1]]) := by
  refine ⟨?_, ?_, groupActivities_eq_spec acts hsorted, ?_⟩
  · rw [groupActivities_eq_spec acts hsorted]
    exact specClusters_window acts.length acts (le_refl _) hsorted
  · intro groups anchor a members hle
    cases hw : withinWindow anchor a with
    | true =>
      rw [groupStep_of_within groups anchor a members hle hw]
      unfold withinWindow at hw
      rw [decide_eq_true_iff] at hw
      rw [if_pos hw]
    | false =>
      rw [groupStep_of_not_within groups anchor a members hle hw]
      unfold withinWindow at hw
      rw [decide_eq_false_iff_not] at hw
      rw [if_neg hw]
  · intro t0 a0 a1 a2 h0 h1 h2
    have w01 : withinWindow a0 a1 = true := by
      unfold withinWindow
      rw [decide_eq_true_iff, h0, h1, abs_of_nonneg (by simp [Second])]
      simp [Second]
    have w02 : withinWindow a0 a2 = false := by
      unfold withinWindow
      rw [decide_eq_false_iff_not, h0, h2, abs_of_nonneg (by simp [Second])]
      simp [Second]
    have l01 : a0.StartDateLocal ≤ a1.StartDateLocal := by rw [h0, h1]; simp [Second]
    have l02 : a0.StartDateLocal ≤ a2.StartDateLocal := by rw [h0, h2]; simp [Second]
    simp only [groupActivities, List.foldl_cons, List.foldl_nil]
    rw [groupStep_of_within [] a0 a1 [] l01 w01]
    have e : ([a0] ++ [a1] : List Activity) = a0 :: [a1] := rfl
    rw [e, groupStep_of_not_within [] a0 a2 [a1] l02 w02]
    simp

/-- C2 at start times 0 s, 20 s and 45 s: one group, of the first two. -/
theorem C2_clustering_anchor_relative_witness :
    [{ zeroActivity with ID := "a".toList, StartDateLocal := 0 },
     { zeroActivity with ID := "b".toList, StartDateLocal := 20 * Second },
     { zeroActivity with ID := "c".toList, StartDateLocal := 45 * Second }].Pairwise
      (fun a b => a.StartDateLocal ≤ b.StartDateLocal) ∧
    groupActivities
      [{ zeroActivity with ID := "a".toList, StartDateLocal := 0 },
       { zeroActivity with ID := "b".toList, StartDateLocal := 20 * Second },
       { zeroActivity with ID := "c".toList, StartDateLocal := 45 * Second }] =
    specClusters
      [{ zeroActivity with ID := "a".toList, StartDateLocal := 0 },
       { zeroActivity with ID := "b".toList, StartDateLocal := 20 * Second },
       { zeroActivity with ID := "c".toList, StartDateLocal := 45 * Second }] ∧
    groupActivities
      [{ zeroActivity with ID := "a".toList, StartDateLocal := 0 },
       { zeroActivity with ID := "b".toList, StartDateLocal := 20 * Second },
       { zeroActivity with ID := "c".toList, StartDateLocal := 45 * Second }] =
      [[{ zeroActivity with ID := "a".toList, StartDateLocal := 0 },
        { zeroActivity with ID := "b".toList, StartDateLocal := 20 * Second }]] :=
  ⟨by decide, (C2_clustering_anchor_relative _ (by decide)).2.2.1, by decide⟩

/-- C3: for every input list, sorted or not, every group emitted by the
cluster builder has at least two members; the empty list and a one-element
list yield no group. -/
theorem C3_no_small_group (acts : List Activity) :
    (∀ g ∈ groupActivities acts, 2 ≤ g.length) ∧
    groupActivities [] = [] ∧
    (∀ a : Activity, groupActivities [a] = []) := by
  refine ⟨?_, rfl, fun a => rfl⟩
  intro g hg
  cases acts with
  | nil => simp [groupActivities] at hg
  | cons first rest =>
    exact groupLoop_sizes rest ([], [first]) (by simp) g hg

/-! ## Metadata adoption -/

theorem TrimSpace_idempotent (s : Str) : TrimSpace (TrimSpace s) = TrimSpace s := by
  have e : ∀ t : Str, TrimSpace t = List.rdropWhile isSpace (List.dropWhile isSpace t) :=
    fun _ => rfl
  rw [e (TrimSpace s), e s]
  have hd : List.dropWhile isSpace
      (List.rdropWhile isSpace (List.dropWhile isSpace s)) =
      List.rdropWhile isSpace (List.dropWhile isSpace s) := by
    obtain ⟨t, ht⟩ := List.rdropWhile_prefix isSpace (l := List.dropWhile isSpace s)
    generalize List.rdropWhile isSpace (List.dropWhile isSpace s) = r at ht
    cases r with
    | nil => rfl
    | cons a r =>
      have hpos : 0 < (List.dropWhile isSpace s).length := by
        rw [← ht]
        simp
      have h0 := List.dropWhile_get_zero_not isSpace s hpos
      have ha : (List.dropWhile isSpace s).get ⟨0, hpos⟩ = a := by
        simp only [List.get_eq_getElem]
        simp [← ht]
      rw [ha] at h0
      simp [List.dropWhile_cons, h0]
  rw [hd, List.rdropWhile_idempotent]

theorem fieldScan_foldl {α L : Type} (isEmpty : α → Bool) (has : L → Bool) (val : L → α)
    (hfill : ∀ l, has l = true → isEmpty (val l) = false) (ls : List L) :
    ∀ (w : α) (u : Option α) (c : Nat),
    ls.foldl (fieldScan isEmpty has val) (w, u, c) =
      if isEmpty w = true then
        (match ls.find? has with
          | some l => (val l, some (val l), c + 1)
          | none => (w, u, c))
      else (w, u, c) := by
  induction ls with
  | nil => intro w u c; simp
  | cons l ls ih =>
    intro w u c
    rw [List.foldl_cons]
    cases hw : isEmpty w with
    | false =>
      have : fieldScan isEmpty has val (w, u, c) l = (w, u, c) := by simp [fieldScan, hw]
      rw [this, ih, hw]
      simp
    | true =>
      cases hl : has l with
      | false =>
        have : fieldScan isEmpty has val (w, u, c) l = (w, u, c) := by simp [fieldScan, hl]
        rw [this, ih, hw, List.find?_cons_of_neg _ (by simp [hl])]
      | true =>
        have : fieldScan isEmpty has val (w, u, c) l = (val l, some (val l), c + 1) := by
          simp [fieldScan, hw, hl]
        rw [this, ih, hfill l hl, List.find?_cons_of_pos _ hl]
        simp

/-- The feel branch of one loop iteration, seen on its own. -/
theorem metaStep_feel (st : MetaState) (l : evaluatedActivity) :
    ((metaStep st l).winner.Feel, (metaStep st l).metaUpdates.feel,
      (metaStep st l).metaReasons.countP isFeelReason) =
    fieldScan (fun w : Int => decide (w = 0))
      (fun l : evaluatedActivity => decide (l.Detail.Feel > 0))
      (fun l : evaluatedActivity => l.Detail.Feel)
      (st.winner.Feel, st.metaUpdates.feel, st.metaReasons.countP isFeelReason) l := by
  unfold metaStep fieldScan
  by_cases h1 : st.winner.Feel = 0 ∧ l.Detail.Feel > 0 <;>
  by_cases h2 : st.winner.RPE = 0 ∧ l.Detail.RPE > 0 <;>
  by_cases h3 : TrimSpace st.winner.Description = [] ∧ TrimSpace l.Detail.Description ≠ [] <;>
  simp [h1, h2, h3, List.countP_append, List.countP_cons, isFeelReason]

/-- The RPE branch of one loop iteration, seen on its own. -/
theorem metaStep_rpe (st : MetaState) (l : evaluatedActivity) :
    ((metaStep st l).winner.RPE, (metaStep st l).metaUpdates.icu_rpe,
      (metaStep st l).metaReasons.countP isRPEReason) =
    fieldScan (fun w : Int => decide (w = 0))
      (fun l : evaluatedActivity => decide (l.Detail.RPE > 0))
      (fun l : evaluatedActivity => l.Detail.RPE)
      (st.winner.RPE, st.metaUpdates.icu_rpe, st.metaReasons.countP isRPEReason) l := by
  unfold metaStep fieldScan
  by_cases h1 : st.winner.Feel = 0 ∧ l.Detail.Feel > 0 <;>
  by_cases h2 : st.winner.RPE = 0 ∧ l.Detail.RPE > 0 <;>
  by_cases h3 : TrimSpace st.winner.Description = [] ∧ TrimSpace l.Detail.Description ≠ [] <;>
  simp [h1, h2, h3, List.countP_append, List.countP_cons, isRPEReason]

/-- The description branch of one loop iteration, seen on its own. -/
theorem metaStep_description (st : MetaState) (l : evaluatedActivity) :
    ((metaStep st l).winner.Description, (metaStep st l).metaUpdates.description,
      (metaStep st l).metaReasons.countP isDescriptionReason) =
    fieldScan (fun w : Str => decide (TrimSpace w = []))
      (fun l : evaluatedActivity => decide (TrimSpace l.Detail.Description ≠ []))
      (fun l : evaluatedActivity => TrimSpace l.Detail.Description)
      (st.winner.Description, st.metaUpdates.description,
        st.metaReasons.countP isDescriptionReason) l := by
  unfold metaStep fieldScan
  by_cases h1 : st.winner.Feel = 0 ∧ l.Detail.Feel > 0 <;>
  by_cases h2 : st.winner.RPE = 0 ∧ l.Detail.RPE > 0 <;>
  by_cases h3 : TrimSpace st.winner.Description = [] ∧ TrimSpace l.Detail.Description ≠ [] <;>
  simp [h1, h2, h3, List.countP_append, List.countP_cons, isDescriptionReason]

/-- A component of the loop state that each iteration updates by `g` is
updated by the fold of `g` over the whole loop. -/
theorem metaLoop_component {β : Type} (proj : MetaState → β)
    (g : β → evaluatedActivity → β)
    (hstep : ∀ st l, proj (metaStep st l) = g (proj st) l) (ls : List evaluatedActivity) :
    ∀ st : MetaState, proj (ls.foldl metaStep st) = ls.foldl g (proj st) := by
  induction ls with
  | nil => intro st; rfl
  | cons l ls ih =>
    intro st
    rw [List.foldl_cons, List.foldl_cons, ih, hstep]

/-- What the scan of one field yields when started with no proposal and no
fill: the proposal is the value of the first loser that has the field, made
exactly when the winner's field is empty and such a loser exists; a non-empty
winner field stays; there is at most one fill. -/
theorem fieldScan_summary {α L : Type} (isEmpty : α → Bool) (has : L → Bool) (val : L → α)
    (hfill : ∀ l, has l = true → isEmpty (val l) = false) (ls : List L) (w : α) :
    (ls.foldl (fieldScan isEmpty has val) (w, none, 0)).2.1 =
      (if isEmpty w = true then (ls.find? has).map val else none) ∧
    ((ls.foldl (fieldScan isEmpty has val) (w, none, 0)).2.1.isSome = true ↔
      (isEmpty w = true ∧ ∃ l ∈ ls, has l = true)) ∧
    (isEmpty w = false → (ls.foldl (fieldScan isEmpty has val) (w, none, 0)).1 = w) ∧
    (ls.foldl (fieldScan isEmpty has val) (w, none, 0)).2.2 ≤ 1 := by
  rw [fieldScan_foldl isEmpty has val hfill ls w none 0]
  cases hw : isEmpty w with
  | false => simp
  | true =>
    cases hf : ls.find? has with
    | none =>
      have hn := List.find?_eq_none.mp hf
      simp only [if_true, Option.map_none', Option.isSome_none, Bool.false_eq_true, true_and,
        false_iff, not_exists, not_and, le_refl, zero_le, and_true, reduceCtorEq,
        false_implies]
      exact fun l hl => hn l hl
    | some l =>
      have hm := List.mem_of_find?_eq_some hf
      have hp := List.find?_some hf
      simp only [if_true, Option.map_some', Option.isSome_some, true_and, true_iff,
        le_refl, and_true, reduceCtorEq, false_implies]
      exact ⟨l, hm, hp⟩

/-- C4: for every winner and ranked loser list, and for each of the fields
feel, icu_rpe and description on its own: the merge proposes a value exactly
when the winner's original field is empty (rating 0, description blank after
trimming) and some loser has the field (rating above 0, description not
blank); the proposal is the value of the first such loser in ranked order
(the description trimmed); a winner field that is not empty keeps its value;
and the loop fills the field at most once. -/
theorem C4_metadata_merge (w : evaluatedActivity) (ls : List evaluatedActivity) :
    ((metadataAdoption w ls).metaUpdates.feel =
        (if w.Detail.Feel = 0
          then (ls.find? (fun l => decide (l.Detail.Feel > 0))).map (fun l => l.Detail.Feel)
          else none) ∧
      ((metadataAdoption w ls).metaUpdates.feel.isSome = true ↔
        (w.Detail.Feel = 0 ∧ ∃ l ∈ ls, l.Detail.Feel > 0)) ∧
      (w.Detail.Feel ≠ 0 → (metadataAdoption w ls).winner.Feel = w.Detail.Feel) ∧
      (metadataAdoption w ls).metaReasons.countP isFeelReason ≤ 1) ∧
    ((metadataAdoption w ls).metaUpdates.icu_rpe =
        (if w.Detail.RPE = 0
          then (ls.find? (fun l => decide (l.Detail.RPE > 0))).map (fun l => l.Detail.RPE)
          else none) ∧
      ((metadataAdoption w ls).metaUpdates.icu_rpe.isSome = true ↔
        (w.Detail.RPE = 0 ∧ ∃ l ∈ ls, l.Detail.RPE > 0)) ∧
      (w.Detail.RPE ≠ 0 → (metadataAdoption w ls).winner.RPE = w.Detail.RPE) ∧
      (metadataAdoption w ls).metaReasons.countP isRPEReason ≤ 1) ∧
    ((metadataAdoption w ls).metaUpdates.description =
        (if TrimSpace w.Detail.Description = []
          then (ls.find? (fun l => decide (TrimSpace l.Detail.Description ≠ []))).map
            (fun l => TrimSpace l.Detail.Description)
          else none) ∧
      ((metadataAdoption w ls).metaUpdates.description.isSome = true ↔
        (TrimSpace w.Detail.Description = [] ∧
          ∃ l ∈ ls, TrimSpace l.Detail.Description ≠ [])) ∧
      (TrimSpace w.Detail.Description ≠ [] →
        (metadataAdoption w ls).winner.Description = w.Detail.Description) ∧
      (metadataAdoption w ls).metaReasons.countP isDescriptionReason ≤ 1) := by
  refine ⟨?_, ?_, ?_⟩
  · have hp := metaLoop_component
      (fun st => (st.winner.Feel, st.metaUpdates.feel, st.metaReasons.countP isFeelReason))
      _ metaStep_feel ls
      { winner := w.Detail, metaUpdates := ⟨none, none, none⟩, metaReasons := [] }
    have hs := fieldScan_summary (fun v : Int => decide (v = 0))
      (fun l : evaluatedActivity => decide (l.Detail.Feel > 0))
      (fun l : evaluatedActivity => l.Detail.Feel)
      (by intro l hl; simp only [decide_eq_true_eq] at hl; simp; omega) ls w.Detail.Feel
    simp only [List.countP_nil] at hp
    rw [← hp] at hs
    simpa [metadataAdoption] using hs
  · have hp := metaLoop_component
      (fun st => (st.winner.RPE, st.metaUpdates.icu_rpe, st.metaReasons.countP isRPEReason))
      _ metaStep_rpe ls
      { winner := w.Detail, metaUpdates := ⟨none, none, none⟩, metaReasons := [] }
    have hs := fieldScan_summary (fun v : Int => decide (v = 0))
      (fun l : evaluatedActivity => decide (l.Detail.RPE > 0))
      (fun l : evaluatedActivity => l.Detail.RPE)
      (by intro l hl; simp only [decide_eq_true_eq] at hl; simp; omega) ls w.Detail.RPE
    simp only [List.countP_nil] at hp
    rw [← hp] at hs
    simpa [metadataAdoption] using hs
  · have hp := metaLoop_component
      (fun st => (st.winner.Description, st.metaUpdates.description,
        st.metaReasons.countP isDescriptionReason))
      _ metaStep_description ls
      { winner := w.Detail, metaUpdates := ⟨none, none, none⟩, metaReasons := [] }
    have hs := fieldScan_summary (fun v : Str => decide (TrimSpace v = []))
      (fun l : evaluatedActivity => decide (TrimSpace l.Detail.Description ≠ []))
      (fun l : evaluatedActivity => TrimSpace l.Detail.Description)
      (by
        intro l hl
        simp only [decide_eq_true_eq] at hl
        simp only [decide_eq_false_iff_not, TrimSpace_idempotent]
        exact hl) ls w.Detail.Description
    simp only [List.countP_nil] at hp
    rw [← hp] at hs
    simpa [metadataAdoption] using hs

/-! ## Size-mismatch flag -/

/-- The metadata loop leaves the winner's distance and moving time alone. -/
theorem metaStep_size (st : MetaState) (l : evaluatedActivity) :
    ((metaStep st l).winner.Distance, (metaStep st l).winner.MovingTime) =
      (st.winner.Distance, st.winner.MovingTime) := by
  unfold metaStep
  by_cases h1 : st.winner.Feel = 0 ∧ l.Detail.Feel > 0 <;>
  by_cases h2 : st.winner.RPE = 0 ∧ l.Detail.RPE > 0 <;>
  by_cases h3 : TrimSpace st.winner.Description = [] ∧ TrimSpace l.Detail.Description ≠ [] <;>
  simp [h1, h2, h3]

/-- The threshold test on the quotient of two integers: with a divisor of at
most `2^52` the rounded quotient exceeds `1/c` exactly when the exact one
does, for a threshold `1/c` that is a binary64 value with successor
`1/c + 1/(c * 2^52)`. -/
theorem quotient_test (p M c : Int) (hp : 0 ≤ p) (hp2 : (p : ℚ) < 2 ^ 53)
    (hM : 1 ≤ M) (hM2 : (M : ℚ) ≤ 2 ^ 52) (hc : 1 ≤ c)
    (h1 : roundQ (1 / (c : ℚ)) = 1 / (c : ℚ))
    (h2 : roundQ (1 / (c : ℚ) + 1 / ((c : ℚ) * 2 ^ 52)) = 1 / (c : ℚ) + 1 / ((c : ℚ) * 2 ^ 52)) :
    F64.gt (F64.div (F64.fin (p : ℚ)) (F64.fin (M : ℚ))) (F64.fin (1 / (c : ℚ))) = true ↔
      (p : ℚ) / (M : ℚ) > 1 / (c : ℚ) := by
  have hMq : (1 : ℚ) ≤ (M : ℚ) := by exact_mod_cast hM
  have hMpos : (0 : ℚ) < (M : ℚ) := by linarith
  have hcq : (1 : ℚ) ≤ (c : ℚ) := by exact_mod_cast hc
  have hcpos : (0 : ℚ) < (c : ℚ) := by linarith
  have hpq : (0 : ℚ) ≤ (p : ℚ) := by exact_mod_cast hp
  have hρ0 : 0 ≤ (p : ℚ) / (M : ℚ) := div_nonneg hpq hMpos.le
  have hρle : (p : ℚ) / (M : ℚ) ≤ (p : ℚ) := div_le_self hpq hMq
  -- no overflow
  have hr0 : 0 ≤ roundQ ((p : ℚ) / (M : ℚ)) := roundQ_nonneg hρ0
  have hp53 : roundQ ((2 : ℚ) ^ 53) = (2 : ℚ) ^ 53 := by
    have hp : pow2 53 = (2 : ℚ) ^ 53 := by rw [pow2_eq]; norm_cast
    have := roundQ_of_grid 1 53 (by norm_num) (by rw [hp]; norm_num)
    rw [hp] at this
    simpa using this
  have hrle : roundQ ((p : ℚ) / (M : ℚ)) ≤ (2 : ℚ) ^ 53 := by
    have := roundQ_mono (show (p : ℚ) / (M : ℚ) ≤ (2 : ℚ) ^ 53 by linarith)
    rwa [hp53] at this
  have hfin : round64 ((p : ℚ) / (M : ℚ)) = F64.fin (roundQ ((p : ℚ) / (M : ℚ))) :=
    round64_of_abs_lt _ (by
      rw [abs_of_nonneg hr0]
      exact lt_of_le_of_lt hrle pow2_1024_big)
  have hdiv : F64.div (F64.fin (p : ℚ)) (F64.fin (M : ℚ)) =
      F64.fin (roundQ ((p : ℚ) / (M : ℚ))) := by
    simp only [F64.div, hMpos.ne', if_false, hfin]
  rw [hdiv]
  unfold F64.gt F64.lt
  rw [decide_eq_true_iff]
  constructor
  · intro h
    by_contra hn
    have hle : (p : ℚ) / (M : ℚ) ≤ 1 / (c : ℚ) := not_lt.mp hn
    have := roundQ_mono hle
    rw [h1] at this
    linarith
  · intro h
    have hlt : (M : ℚ) < (c : ℚ) * (p : ℚ) := by
      have := (lt_div_iff₀ hMpos).mp h
      have h3 : (M : ℚ) / (c : ℚ) < (p : ℚ) := by
        rw [div_lt_iff₀ hcpos]
        calc (M : ℚ) = 1 / (c : ℚ) * (M : ℚ) * (c : ℚ) := by field_simp
          _ < (p : ℚ) * (c : ℚ) := mul_lt_mul_of_pos_right this hcpos
      have := (div_lt_iff₀ hcpos).mp h3
      linarith
    have hlt' : M < c * p := by exact_mod_cast hlt
    have hle' : M + 1 ≤ c * p := by omega
    have hleq : (M : ℚ) + 1 ≤ (c : ℚ) * (p : ℚ) := by exact_mod_cast hle'
    have hge : 1 / (c : ℚ) + 1 / ((c : ℚ) * 2 ^ 52) ≤ (p : ℚ) / (M : ℚ) := by
      rw [le_div_iff₀ hMpos]
      have e1 : (1 / (c : ℚ) + 1 / ((c : ℚ) * 2 ^ 52)) * (M : ℚ) =
          ((M : ℚ) + (M : ℚ) / 2 ^ 52) / (c : ℚ) := by
        field_simp
        ring
      rw [e1, div_le_iff₀ hcpos]
      have : (M : ℚ) / 2 ^ 52 ≤ 1 := by
        rw [div_le_iff₀ (by positivity)]; linarith
      linarith
    have := roundQ_mono hge
    rw [h2] at this
    have hpos : (0 : ℚ) < 1 / ((c : ℚ) * 2 ^ 52) := by positivity
    linarith

theorem round_half : roundQ (1 / ((2 : Int) : ℚ)) = 1 / ((2 : Int) : ℚ) := by decide!

theorem round_half_succ : roundQ (1 / ((2 : Int) : ℚ) + 1 / (((2 : Int) : ℚ) * 2 ^ 52)) =
    1 / ((2 : Int) : ℚ) + 1 / (((2 : Int) : ℚ) * 2 ^ 52) := by decide!

theorem round_quarter : roundQ (1 / ((4 : Int) : ℚ)) = 1 / ((4 : Int) : ℚ) := by decide!

theorem round_quarter_succ : roundQ (1 / ((4 : Int) : ℚ) + 1 / (((4 : Int) : ℚ) * 2 ^ 52)) =
    1 / ((4 : Int) : ℚ) + 1 / (((4 : Int) : ℚ) * 2 ^ 52) := by decide!

/-- On whole-number distances below `2^52` in magnitude the distance test is
the exact one. -/
theorem distDiff_test (a b : ActivityDetail) (m n : Int)
    (ha : a.Distance = (m : ℚ)) (hb : b.Distance = (n : ℚ))
    (hm : |m| < 2 ^ 52) (hn : |n| < 2 ^ 52) :
    F64.gt (distDiff a b) (F64.fin (1 / 2)) = true ↔
      |a.Distance - b.Distance| / max a.Distance 1 > 1 / 2 := by
  have hd : |m - n| < 2 ^ 53 := by
    rw [abs_lt] at hm hn ⊢
    constructor <;> omega
  have hdq : |((m - n : Int) : ℚ)| < 2 ^ 53 := by
    rw [← Int.cast_abs]; exact_mod_cast hd
  have hsub : F64.sub (F64.fin (m : ℚ)) (F64.fin (n : ℚ)) = F64.fin ((m - n : Int) : ℚ) := by
    simp only [F64.sub, F64.neg, F64.add]
    rw [← round64_intCast (m - n) hdq]
    push_cast
    ring_nf
  have hM1 : 1 ≤ max m 1 := le_max_right _ _
  have hM2 : ((max m 1 : Int) : ℚ) ≤ 2 ^ 52 := by
    have : max m 1 ≤ 2 ^ 52 := by
      rw [abs_lt] at hm
      apply max_le <;> omega
    exact_mod_cast this
  have key := quotient_test |m - n| (max m 1) 2 (abs_nonneg _) (by exact_mod_cast hd) hM1 hM2
    (by norm_num) round_half round_half_succ
  unfold distDiff
  rw [ha, hb, hsub]
  simp only [F64.abs, F64.max]
  have e1 : |((m - n : Int) : ℚ)| = ((|m - n| : Int) : ℚ) := by rw [Int.cast_abs]
  have e2 : (Max.max (m : ℚ) 1) = ((max m 1 : Int) : ℚ) := by push_cast; rfl
  have e3 : (1 : ℚ) / 2 = 1 / ((2 : Int) : ℚ) := by norm_num
  rw [e1, e2, e3, key]
  push_cast
  rfl

/-- On moving times below `2^52` in magnitude the duration test is the exact
one. -/
theorem timeDiff_test (a b : ActivityDetail)
    (hm : |a.MovingTime| < 2 ^ 52) (hn : |b.MovingTime| < 2 ^ 52) :
    F64.gt (timeDiff a b) (F64.fin (1 / 4)) = true ↔
      |(a.MovingTime : ℚ) - (b.MovingTime : ℚ)| / max (a.MovingTime : ℚ) 1 > 1 / 4 := by
  have hd : |a.MovingTime - b.MovingTime| < 2 ^ 53 := by
    rw [abs_lt] at hm hn ⊢
    constructor <;> omega
  have hdq : |((a.MovingTime - b.MovingTime : Int) : ℚ)| < 2 ^ 53 := by
    rw [← Int.cast_abs]; exact_mod_cast hd
  have hw : wrap64 (a.MovingTime - b.MovingTime) = a.MovingTime - b.MovingTime := by
    rw [abs_lt] at hd
    exact wrap64_of_range _ (by omega) (by omega)
  have hmq : |((a.MovingTime : Int) : ℚ)| < 2 ^ 53 := by
    rw [← Int.cast_abs]
    have : |a.MovingTime| < 2 ^ 53 := lt_trans hm (by norm_num)
    exact_mod_cast this
  have hM1 : 1 ≤ max a.MovingTime 1 := le_max_right _ _
  have hM2 : ((max a.MovingTime 1 : Int) : ℚ) ≤ 2 ^ 52 := by
    have : max a.MovingTime 1 ≤ 2 ^ 52 := by
      rw [abs_lt] at hm
      apply max_le <;> omega
    exact_mod_cast this
  have key := quotient_test |a.MovingTime - b.MovingTime| (max a.MovingTime 1) 4 (abs_nonneg _)
    (by exact_mod_cast hd) hM1 hM2 (by norm_num) round_quarter round_quarter_succ
  unfold timeDiff F64.ofInt
  rw [hw, round64_intCast _ hdq, round64_intCast _ hmq]
  simp only [F64.abs, F64.max]
  have e1 : |((a.MovingTime - b.MovingTime : Int) : ℚ)| =
      ((|a.MovingTime - b.MovingTime| : Int) : ℚ) := by rw [Int.cast_abs]
  have e2 : (Max.max (a.MovingTime : ℚ) 1) = ((max a.MovingTime 1 : Int) : ℚ) := by
    push_cast; rfl
  have e3 : (1 : ℚ) / 4 = 1 / ((4 : Int) : ℚ) := by norm_num
  rw [e1, e2, e3, key]
  push_cast
  rfl

/-- With equal moving times the relative duration difference is zero. -/
theorem timeDiff_of_eq (a b : ActivityDetail) (h : a.MovingTime = b.MovingTime) :
    timeDiff a b = F64.fin 0 := by
  have h0 : F64.ofInt (wrap64 0) = F64.fin 0 := by decide!
  have hr : round64 0 = F64.fin 0 := by decide!
  unfold timeDiff
  rw [h, sub_self, h0]
  unfold F64.ofInt round64
  split_ifs
  · simp [F64.abs, F64.max, F64.div]
  · simp [F64.abs, F64.max, F64.div, hr]
  · have hne : Max.max (roundQ (b.MovingTime : ℚ)) 1 ≠ 0 := by
      have : (1 : ℚ) ≤ Max.max (roundQ (b.MovingTime : ℚ)) 1 := le_max_right _ _
      intro h; rw [h] at this; norm_num at this
    simp [F64.abs, F64.max, F64.div, hne, hr]

theorem roundQ_half_succ : roundQ (1 / 2 + pow2 (-53)) = 1 / 2 + pow2 (-53) := by decide!

theorem roundQ_quarter_succ : roundQ (1 / 4 + pow2 (-54)) = 1 / 4 + pow2 (-54) := by decide!

theorem roundQ_half : roundQ (1 / 2) = 1 / 2 := by decide!

theorem roundQ_quarter : roundQ (1 / 4) = 1 / 4 := by decide!

theorem pow2_neg51 : pow2 (-51) = 4 * pow2 (-53) := by decide!

/-- The distance test agrees with the test on the exact quotient when that
quotient is at least `2^-51` away from the threshold. -/
theorem distDiff_band (a b : ActivityDetail) :
    (1 / 2 + pow2 (-51) ≤ |a.Distance - b.Distance| / max a.Distance 1 →
      F64.gt (distDiff a b) (F64.fin (1 / 2)) = true) ∧
    (a.Distance < pow2 1024 →
      |a.Distance - b.Distance| / max a.Distance 1 ≤ 1 / 2 - pow2 (-51) →
      F64.gt (distDiff a b) (F64.fin (1 / 2)) = false) := by
  have hδ0 := pow2_neg53_pos
  have hδ1 := pow2_neg53_le
  have hM1 : (1 : ℚ) ≤ max a.Distance 1 := le_max_right _ _
  have hMpos : (0 : ℚ) < max a.Distance 1 := by linarith
  have hsmall : pow2 (-1022) ≤ 1 / 4 := by decide!
  have hd : distDiff a b =
      F64.div (F64.abs (round64 (a.Distance - b.Distance))) (F64.fin (max a.Distance 1)) := by
    simp only [distDiff, F64.sub, F64.neg, F64.add, F64.max, sub_eq_add_neg]
  rw [hd, pow2_neg51]
  constructor
  · intro hρ
    have h1 : (1 / 2 + 4 * pow2 (-53)) * max a.Distance 1 ≤ |a.Distance - b.Distance| :=
      (le_div_iff₀ hMpos).mp hρ
    have hbig : pow2 (-1022) ≤ |a.Distance - b.Distance| := by
      have : (1 : ℚ) / 2 ≤ (1 / 2 + 4 * pow2 (-53)) * max a.Distance 1 := by
        nlinarith [mul_nonneg hδ0.le (le_trans zero_le_one hM1)]
      linarith
    unfold round64
    split_ifs with c1 c2
    · simp only [F64.abs, F64.div, hMpos.le, if_true]
      rfl
    · simp only [F64.abs, F64.div, hMpos.le, if_true]
      rfl
    · simp only [F64.abs]
      exact quotient_band_gt _ _ |a.Distance - b.Distance| (max a.Distance 1) (1 / 2)
        (pow2 (-53)) hM1 hMpos (by nlinarith) (abs_roundQ_ge hbig) hρ (by norm_num) le_rfl
        hδ0 le_rfl roundQ_half_succ
  · intro hw hρ
    have h1 : |a.Distance - b.Distance| ≤ (1 / 2 - 4 * pow2 (-53)) * max a.Distance 1 :=
      (div_le_iff₀ hMpos).mp hρ
    have hMlt : max a.Distance 1 < pow2 1024 := by
      apply max_lt hw
      have := pow2_1024_big
      have h2 : (1 : ℚ) < 2 ^ 53 := by norm_num
      linarith
    have h1023 : pow2 1024 = 2 * pow2 1023 := by
      have : (1024 : Int) = 1 + 1023 := by norm_num
      rw [this, pow2_add]
      congr 1
    have hdlt : |a.Distance - b.Distance| ≤ pow2 1023 := by
      have : (1 / 2 - 4 * pow2 (-53)) * max a.Distance 1 ≤ 1 / 2 * max a.Distance 1 := by
        apply mul_le_mul_of_nonneg_right _ hMpos.le
        linarith
      linarith
    have e1 : roundQ (pow2 1023) = pow2 1023 := by
      have := roundQ_of_grid 1 1023 (by norm_num) (by decide!)
      simpa using this
    have e2 : roundQ (-pow2 1023) = -pow2 1023 := by
      have := roundQ_of_grid (-1) 1023 (by norm_num) (by decide!)
      simpa using this
    rw [abs_le] at hdlt
    have u1 := roundQ_mono hdlt.2
    have u2 := roundQ_mono hdlt.1
    rw [e1] at u1
    rw [e2] at u2
    have hp1023 := pow2_pos 1023
    have hfin : round64 (a.Distance - b.Distance) = F64.fin (roundQ (a.Distance - b.Distance)) :=
      round64_of_abs_lt _ (by rw [abs_lt]; constructor <;> linarith)
    rw [hfin]
    simp only [F64.abs]
    exact quotient_band_le _ _ |a.Distance - b.Distance| (max a.Distance 1) (1 / 2) hM1 hM1
      (by nlinarith) (abs_nonneg _) (abs_roundQ_le _) hρ (by linarith) le_rfl roundQ_half

/-- The duration test agrees with the test on the exact quotient when that
quotient is at least `2^-51` away from the threshold and the difference of the
moving times does not wrap. -/
theorem timeDiff_band (a b : ActivityDetail) (ha : |a.MovingTime| ≤ 2 ^ 63)
    (h1 : -9223372036854775808 ≤ a.MovingTime - b.MovingTime)
    (h2 : a.MovingTime - b.MovingTime < 9223372036854775808) :
    (1 / 4 + pow2 (-51) ≤
        |(a.MovingTime : ℚ) - (b.MovingTime : ℚ)| / max (a.MovingTime : ℚ) 1 →
      F64.gt (timeDiff a b) (F64.fin (1 / 4)) = true) ∧
    (|(a.MovingTime : ℚ) - (b.MovingTime : ℚ)| / max (a.MovingTime : ℚ) 1 ≤
        1 / 4 - pow2 (-51) →
      F64.gt (timeDiff a b) (F64.fin (1 / 4)) = false) := by
  have hδ0 := pow2_neg53_pos
  have hδ1 := pow2_neg53_le
  have hM1 : (1 : ℚ) ≤ max (a.MovingTime : ℚ) 1 := le_max_right _ _
  have hMpos : (0 : ℚ) < max (a.MovingTime : ℚ) 1 := by linarith
  obtain ⟨b1, b2, b3⟩ := max_round_band a.MovingTime
  have hdabs : |a.MovingTime - b.MovingTime| ≤ 2 ^ 63 := by
    rw [abs_le]; constructor <;> omega
  have hd : timeDiff a b =
      F64.div (F64.fin |roundQ ((a.MovingTime - b.MovingTime : Int) : ℚ)|)
        (F64.fin (max (roundQ (a.MovingTime : ℚ)) 1)) := by
    unfold timeDiff
    rw [wrap64_of_range _ h1 h2, ofInt_eq_fin _ hdabs, ofInt_eq_fin _ ha]
    simp only [F64.abs, F64.max]
  have hcast : |(a.MovingTime : ℚ) - (b.MovingTime : ℚ)| =
      |((a.MovingTime - b.MovingTime : Int) : ℚ)| := by push_cast; rfl
  have h54 : (0 : ℚ) < pow2 (-54) := pow2_pos _
  have h54le : pow2 (-54) ≤ pow2 (-53) := pow2_le_pow2 (by norm_num)
  rw [hd, hcast, pow2_neg51]
  constructor
  · intro hρ
    have h3 : (1 / 4 + 4 * pow2 (-53)) * max (a.MovingTime : ℚ) 1 ≤
        |((a.MovingTime - b.MovingTime : Int) : ℚ)| := (le_div_iff₀ hMpos).mp hρ
    have hbig : pow2 (-1022) ≤ |((a.MovingTime - b.MovingTime : Int) : ℚ)| := by
      have : (1 : ℚ) / 4 ≤ (1 / 4 + 4 * pow2 (-53)) * max (a.MovingTime : ℚ) 1 := by
        nlinarith [mul_nonneg hδ0.le (le_trans zero_le_one hM1)]
      have hs : pow2 (-1022) ≤ 1 / 4 := by decide!
      linarith
    exact quotient_band_gt _ _ _ (max (a.MovingTime : ℚ) 1) (1 / 4) (pow2 (-54)) hM1
      (by linarith) b3 (abs_roundQ_ge hbig) hρ (by norm_num) (by norm_num) h54 h54le
      roundQ_quarter_succ
  · intro hρ
    exact quotient_band_le _ _ _ (max (a.MovingTime : ℚ) 1) (1 / 4) hM1 b1 b2 (abs_nonneg _)
      (abs_roundQ_le _) hρ (by decide!) (by norm_num) roundQ_quarter

/-- C5 as stated fails: the flag is computed in binary64 and on `int`, not
on exact quotients.  With winner distance 0.8 and loser distance 0.3 (the
binary64 values nearest to them) and equal moving times, the exact relative
difference exceeds 0.5 by `2^-54`, while the subtraction rounds to exactly 0.5
and the loser is not flagged.  With winner moving time the largest `int` and
loser moving time the smallest, the exact relative difference is about 2,
while the `int` difference wraps to -1 and the loser is not flagged. -/
theorem C5_exact_quotient_counterexample :
    (roundQ (8 / 10) = 3602879701896397 / 4503599627370496 ∧
      roundQ (3 / 10) = 5404319552844595 / 18014398509481984 ∧
      specMismatch { zeroDetail with Distance := 3602879701896397 / 4503599627370496 }
        { zeroDetail with Distance := 5404319552844595 / 18014398509481984 } ∧
      distDiff { zeroDetail with Distance := 3602879701896397 / 4503599627370496 }
        { zeroDetail with Distance := 5404319552844595 / 18014398509481984 } =
        F64.fin (1 / 2) ∧
      isMismatch { zeroDetail with Distance := 3602879701896397 / 4503599627370496 }
        { zeroDetail with Distance := 5404319552844595 / 18014398509481984 } = false) ∧
    (specMismatch { zeroDetail with MovingTime := 9223372036854775807 }
        { zeroDetail with MovingTime := -9223372036854775808 } ∧
      wrap64 (9223372036854775807 - -9223372036854775808) = -1 ∧
      isMismatch { zeroDetail with MovingTime := 9223372036854775807 }
        { zeroDetail with MovingTime := -9223372036854775808 } = false) := by
  refine ⟨⟨by decide!, by decide!, ?_, by decide!, by decide!⟩, ?_, by decide!, by decide!⟩
  · unfold specMismatch
    decide!
  · unfold specMismatch
    decide!

/-- C5 (amended): for every winner (as the loser loop sees it, after the
metadata loop) and every loser, the loser is flagged as a mismatch exactly
when `|winnerDistance - loserDistance| / max(winnerDistance, 1) > 0.5` or
`|winnerMovingTime - loserMovingTime| / max(winnerMovingTime, 1) > 0.25`,
evaluated as the program does: on the winner's and the loser's own distance
and moving time, every `float64` operation rounded to the nearest binary64
value and the difference of the moving times taken on `int`, where it wraps.
When the difference of the moving times does not wrap, a loser is flagged if
one of the exact quotients is at least `2^-51` above its threshold, and is not
flagged if both exact quotients are at least `2^-51` below.  When the
distances are whole numbers and distances and moving times are below `2^52` in
magnitude, the flag is the test on the exact quotients.  With winner distance
10000, loser distance 4000 and equal moving times the relative distance
difference is the binary64 value of 0.6 and the loser is flagged. -/
theorem C5_size_mismatch_flag (w : evaluatedActivity) (ls : List evaluatedActivity)
    (l : evaluatedActivity) :
    (isMismatch (metadataAdoption w ls).winner l.Detail = true ↔
      (F64.gt
          (F64.div
            (F64.abs (F64.sub (F64.fin w.Detail.Distance) (F64.fin l.Detail.Distance)))
            (F64.max (F64.fin w.Detail.Distance) (F64.fin 1)))
          (F64.fin (1 / 2)) = true ∨
        F64.gt
          (F64.div
            (F64.abs (F64.ofInt (wrap64 (w.Detail.MovingTime - l.Detail.MovingTime))))
            (F64.max (F64.ofInt w.Detail.MovingTime) (F64.fin 1)))
          (F64.fin (1 / 4)) = true)) ∧
    (∀ a b : ActivityDetail, a.Distance < pow2 1024 → |a.MovingTime| ≤ 2 ^ 63 →
      -9223372036854775808 ≤ a.MovingTime - b.MovingTime →
      a.MovingTime - b.MovingTime < 9223372036854775808 →
      ((1 / 2 + pow2 (-51) ≤ |a.Distance - b.Distance| / max a.Distance 1 ∨
          1 / 4 + pow2 (-51) ≤
            |(a.MovingTime : ℚ) - (b.MovingTime : ℚ)| / max (a.MovingTime : ℚ) 1) →
        isMismatch a b = true) ∧
      (|a.Distance - b.Distance| / max a.Distance 1 ≤ 1 / 2 - pow2 (-51) →
        |(a.MovingTime : ℚ) - (b.MovingTime : ℚ)| / max (a.MovingTime : ℚ) 1 ≤
          1 / 4 - pow2 (-51) →
        isMismatch a b = false)) ∧
    (∀ (a b : ActivityDetail) (m n : Int), a.Distance = (m : ℚ) → b.Distance = (n : ℚ) →
      |m| < 2 ^ 52 → |n| < 2 ^ 52 → |a.MovingTime| < 2 ^ 52 → |b.MovingTime| < 2 ^ 52 →
      (isMismatch a b = true ↔
        (|a.Distance - b.Distance| / max a.Distance 1 > 1 / 2 ∨
          |(a.MovingTime : ℚ) - (b.MovingTime : ℚ)| / max (a.MovingTime : ℚ) 1 > 1 / 4))) ∧
    (∀ a b : ActivityDetail, a.Distance = 10000 → b.Distance = 4000 →
      a.MovingTime = b.MovingTime →
      distDiff a b = F64.fin (roundQ (6 / 10)) ∧ timeDiff a b = F64.fin 0 ∧
        isMismatch a b = true) := by
  refine ⟨?_, ?_, ?_, ?_⟩
  · have hp := metaLoop_component
      (fun st => (st.winner.Distance, st.winner.MovingTime)) (fun b _ => b)
      metaStep_size ls
      { winner := w.Detail, metaUpdates := ⟨none, none, none⟩, metaReasons := [] }
    have hfix : ∀ (xs : List evaluatedActivity) (b : ℚ × Int),
        xs.foldl (fun (b : ℚ × Int) (_ : evaluatedActivity) => b) b = b := by
      intro xs b
      induction xs with
      | nil => rfl
      | cons x xs ih => exact ih
    rw [hfix] at hp
    have hD : (metadataAdoption w ls).winner.Distance = w.Detail.Distance :=
      congrArg Prod.fst hp
    have hM : (metadataAdoption w ls).winner.MovingTime = w.Detail.MovingTime :=
      congrArg Prod.snd hp
    unfold isMismatch distDiff timeDiff
    rw [hD, hM, Bool.or_eq_true]
  · intro a b hd hm h1 h2
    have hdist := distDiff_band a b
    have htime := timeDiff_band a b hm h1 h2
    constructor
    · intro h
      unfold isMismatch
      rw [Bool.or_eq_true]
      rcases h with h | h
      · exact Or.inl (hdist.1 h)
      · exact Or.inr (htime.1 h)
    · intro hx hy
      unfold isMismatch
      rw [hdist.2 hd hx, htime.2 hy]
      rfl
  · intro a b m n ha hb hm hn hma hmb
    unfold isMismatch
    rw [Bool.or_eq_true, distDiff_test a b m n ha hb hm hn, timeDiff_test a b hma hmb]
  · intro a b ha hb hm
    have hd : distDiff a b = F64.fin (roundQ (6 / 10)) := by
      unfold distDiff
      rw [ha, hb]
      decide!
    have ht := timeDiff_of_eq a b hm
    refine ⟨hd, ht, ?_⟩
    unfold isMismatch
    rw [hd, ht]
    decide!

/-! ## Generic names -/

/-- C6 (evaluation of the code where the claimed invariance fails): a title
that is `"Untitled"` with surrounding blanks is not classified generic although
`"Untitled"` is, and a title of blanks only is not classified generic although
the empty title is; the two titles of each pair have the same trimmed form. -/
theorem C6_whitespace_variants_differ :
    TrimSpace " Untitled ".toList = TrimSpace "Untitled".toList ∧
    IsGenericName Char.toLower "Untitled".toList "Cycling".toList = true ∧
    IsGenericName Char.toLower " Untitled ".toList "Cycling".toList = false ∧
    TrimSpace "   ".toList = TrimSpace "".toList ∧
    IsGenericName Char.toLower "".toList "Cycling".toList = true ∧
    IsGenericName Char.toLower "   ".toList "Cycling".toList = false := by
  decide

/-- C7: `IsGenericName` is true exactly when (1) the title is empty or
equals "untitled" after case folding, or (2) the trimmed, case-folded title
equals the case-folded type tag or one of "cycling", "ride", "workout", or
(3) the trimmed, case-folded title is a time-of-day word, a blank, and the
case-folded type tag, "ride" or "workout".  On ASCII titles:
"Morning Ride"/Cycling, "Lunch Walk"/Walk and ""/Cycling are generic,
"Morning GravelRide"/Cycling, "Fox Creek Trails"/Cycling and
"Ellisville - Weldon"/Cycling are not. -/
theorem C7_generic_name_rules (lower : Char → Char) (name activityType : Str) :
    (IsGenericName lower name activityType = true ↔
      ((name = [] ∨ ToLower lower name = "untitled".toList) ∨
       (ToLower lower (TrimSpace name) = ToLower lower activityType ∨
         ToLower lower (TrimSpace name) ∈
           ["cycling".toList, "ride".toList, "workout".toList]) ∨
       (∃ t ∈ ["morning".toList, "afternoon".toList, "evening".toList, "night".toList,
            "lunch".toList],
         ∃ x ∈ [ToLower lower activityType, "ride".toList, "workout".toList],
           ToLower lower (TrimSpace name) = t ++ " ".toList ++ x))) ∧
    (IsGenericName Char.toLower "Morning Ride".toList "Cycling".toList = true ∧
     IsGenericName Char.toLower "Lunch Walk".toList "Walk".toList = true ∧
     IsGenericName Char.toLower "".toList "Cycling".toList = true ∧
     IsGenericName Char.toLower "Morning GravelRide".toList "Cycling".toList = false ∧
     IsGenericName Char.toLower "Fox Creek Trails".toList "Cycling".toList = false ∧
     IsGenericName Char.toLower "Ellisville - Weldon".toList "Cycling".toList = false) := by
  refine ⟨?_, by decide⟩
  unfold IsGenericName
  by_cases h1 : name = [] ∨ ToLower lower name = "untitled".toList
  · simp only [h1, if_true, true_or]
  · rw [if_neg h1]
    simp only [h1, false_or]
    by_cases h2 : ToLower lower (TrimSpace name) = ToLower lower activityType ∨
        ToLower lower (TrimSpace name) = "cycling".toList ∨
        ToLower lower (TrimSpace name) = "ride".toList ∨
        ToLower lower (TrimSpace name) = "workout".toList
    · rw [if_pos h2]
      simp only [true_iff]
      left
      rcases h2 with h | h | h | h
      · exact Or.inl h
      · exact Or.inr (by rw [h]; simp)
      · exact Or.inr (by rw [h]; simp)
      · exact Or.inr (by rw [h]; simp)
    · rw [if_neg h2]
      have h2a : ¬ (ToLower lower (TrimSpace name) = ToLower lower activityType ∨
          ToLower lower (TrimSpace name) ∈
            ["cycling".toList, "ride".toList, "workout".toList]) := by
        intro h
        apply h2
        rcases h with h | h
        · exact Or.inl h
        · simp only [List.mem_cons, List.mem_singleton, List.not_mem_nil, or_false] at h
          exact Or.inr h
      simp only [h2a, false_or]
      rw [List.any_eq_true]
      constructor
      · rintro ⟨t, ht, hc⟩
        refine ⟨t, ht, ?_⟩
        simp only [Bool.or_eq_true, decide_eq_true_eq] at hc
        rcases hc with hc | hc | hc
        · exact ⟨_, List.mem_cons_self _ _, hc⟩
        · exact ⟨"ride".toList, by simp, by rw [hc]; simp⟩
        · exact ⟨"workout".toList, by simp, by rw [hc]; simp⟩
      · rintro ⟨t, ht, x, hx, hc⟩
        refine ⟨t, ht, ?_⟩
        simp only [Bool.or_eq_true, decide_eq_true_eq]
        simp only [List.mem_cons, List.mem_singleton, List.not_mem_nil, or_false] at hx
        rcases hx with hx | hx | hx
        · left; rw [hc, hx]
        · right; left; rw [hc, hx]; simp
        · right; right; rw [hc, hx]; simp

/-! ## Name ranking -/

/-- The score of a name, with every rounding spelled out. -/
theorem nameScore_eq (lower : Char → Char) (name : Str) :
    nameScore lower name =
      if keywords.any (fun k => k.isPrefixOf (ToLower lower name)) then
        roundQ (roundQ ((if Contains name " - ".toList then roundQ (1 + 100) else 1) +
          roundQ (roundQ (len name : ℚ) * roundQ (1 / 10))) - 10)
      else
        roundQ ((if Contains name " - ".toList then roundQ (1 + 100) else 1) +
          roundQ (roundQ (len name : ℚ) * roundQ (1 / 10))) := rfl

/-- Between two names with the same pattern and the same kind of start, the
one with more bytes does not score lower. -/
theorem nameScore_mono_len (lower : Char → Char) (n m : Str)
    (hc : Contains n " - ".toList = Contains m " - ".toList)
    (hk : keywords.any (fun k => k.isPrefixOf (ToLower lower n)) =
      keywords.any (fun k => k.isPrefixOf (ToLower lower m)))
    (hl : len n ≤ len m) : nameScore lower n ≤ nameScore lower m := by
  have h1 : roundQ (len n : ℚ) ≤ roundQ (len m : ℚ) := roundQ_mono (by exact_mod_cast hl)
  have h0 : (0 : ℚ) ≤ roundQ (1 / 10) := roundQ_nonneg (by norm_num)
  have h2 : roundQ (roundQ (len n : ℚ) * roundQ (1 / 10)) ≤
      roundQ (roundQ (len m : ℚ) * roundQ (1 / 10)) :=
    roundQ_mono (mul_le_mul_of_nonneg_right h1 h0)
  have h3 : roundQ ((if Contains m " - ".toList then roundQ (1 + 100) else 1) +
        roundQ (roundQ (len n : ℚ) * roundQ (1 / 10))) ≤
      roundQ ((if Contains m " - ".toList then roundQ (1 + 100) else 1) +
        roundQ (roundQ (len m : ℚ) * roundQ (1 / 10))) :=
    roundQ_mono (by linarith)
  rw [nameScore_eq, nameScore_eq, hc, hk]
  split
  · exact roundQ_mono (by linarith)
  · exact h3

/-- Every score is at least -9. -/
theorem nameScore_lower_bound (lower : Char → Char) (name : Str) :
    -9 ≤ nameScore lower name := by
  have ht : 0 ≤ roundQ (roundQ (len name : ℚ) * roundQ (1 / 10)) :=
    roundQ_nonneg (mul_nonneg (roundQ_nonneg (by positivity)) (roundQ_nonneg (by norm_num)))
  have h101 : (1 : ℚ) ≤ roundQ (1 + 100) := by
    have := roundQ_mono (show (1 : ℚ) ≤ 1 + 100 by norm_num)
    rwa [roundQ_one] at this
  have key : ∀ b t : ℚ, 1 ≤ b → 0 ≤ t → 1 ≤ roundQ (b + t) := by
    intro b t hb ht
    have := roundQ_mono (show (1 : ℚ) ≤ b + t by linarith)
    rwa [roundQ_one] at this
  have key2 : ∀ s : ℚ, 1 ≤ s → -9 ≤ roundQ (s - 10) := by
    intro s hs
    have := roundQ_mono (show (-9 : ℚ) ≤ s - 10 by linarith)
    rwa [roundQ_neg_nine] at this
  unfold nameScore
  simp only []
  have h1 := key _ _ h101 ht
  have h2 := key _ _ (le_refl 1) ht
  split_ifs
  · exact key2 _ h1
  · exact key2 _ h2
  · linarith
  · linarith

theorem rankStep_inv (lower : Char → Char) (activityType : Str) (processed : List Str)
    (st : Str × ℚ) (x : Str) (h : RankInv lower activityType processed st) :
    RankInv lower activityType (processed ++ [x]) (rankStep lower activityType st x) := by
  unfold rankStep
  cases hx : IsGenericName lower x activityType with
  | true =>
    simp only [if_true]
    rcases h with ⟨hall, hst⟩ | ⟨hsc, pre, post, hsplit, hng, hmax, hfirst⟩
    · left
      refine ⟨?_, hst⟩
      intro n hn
      rcases List.mem_append.mp hn with hn | hn
      · exact hall n hn
      · rw [List.mem_singleton.mp hn]; exact hx
    · right
      refine ⟨hsc, pre, post ++ [x], by rw [hsplit]; simp, hng, ?_, hfirst⟩
      intro n hn hgen
      rcases List.mem_append.mp hn with hn | hn
      · exact hmax n hn hgen
      · rw [List.mem_singleton.mp hn, hx] at hgen
        exact absurd hgen (by simp)
  | false =>
    simp only [Bool.false_eq_true, if_false]
    rcases h with ⟨hall, hst⟩ | ⟨hsc, pre, post, hsplit, hng, hmax, hfirst⟩
    · have hgt : nameScore lower x > st.2 := by
        rw [hst]
        have := nameScore_lower_bound lower x
        show (-999 : ℚ) < nameScore lower x
        linarith
      rw [if_pos hgt]
      right
      refine ⟨rfl, processed, [], rfl, hx, ?_, ?_⟩
      · intro n hn hgen
        rcases List.mem_append.mp hn with hn | hn
        · rw [hall n hn] at hgen
          exact absurd hgen (by simp)
        · rw [List.mem_singleton.mp hn]
      · intro n hn hgen
        rw [hall n hn] at hgen
        exact absurd hgen (by simp)
    · by_cases hgt : nameScore lower x > st.2
      · rw [if_pos hgt]
        right
        refine ⟨rfl, processed, [], rfl, hx, ?_, ?_⟩
        · intro n hn hgen
          rcases List.mem_append.mp hn with hn | hn
          · have := hmax n hn hgen
            show nameScore lower n ≤ nameScore lower x
            rw [hsc] at hgt
            linarith
          · rw [List.mem_singleton.mp hn]
        · intro n hn hgen
          have := hmax n hn hgen
          show nameScore lower n < nameScore lower x
          rw [hsc] at hgt
          linarith
      · rw [if_neg hgt]
        right
        refine ⟨hsc, pre, post ++ [x], by rw [hsplit]; simp, hng, ?_, hfirst⟩
        intro n hn hgen
        rcases List.mem_append.mp hn with hn | hn
        · exact hmax n hn hgen
        · rw [List.mem_singleton.mp hn]
          rw [hsc] at hgt
          exact not_lt.mp hgt

theorem rankLoop_inv (lower : Char → Char) (activityType : Str) (rest : List Str) :
    ∀ (processed : List Str) (st : Str × ℚ), RankInv lower activityType processed st →
    RankInv lower activityType (processed ++ rest)
      (rest.foldl (rankStep lower activityType) st) := by
  induction rest with
  | nil => intro processed st h; simpa using h
  | cons x rest ih =>
    intro processed st h
    have := ih (processed ++ [x]) _ (rankStep_inv lower activityType processed st x h)
    simpa using this

theorem RankCandidateNames_inv (lower : Char → Char) (names : List Str) (activityType : Str) :
    RankInv lower activityType names
      (names.foldl (rankStep lower activityType) ([], -999)) := by
  have := rankLoop_inv lower activityType names [] ([], -999)
    (Or.inl ⟨by simp, rfl⟩)
  simpa using this

theorem len_of_ascii (n : Str) (h : ∀ c ∈ n, c.val ≤ 127) : len n = n.length := by
  unfold len
  induction n with
  | nil => rfl
  | cons c cs ih =>
    have hc : Char.utf8Size c = 1 := by
      have := h c (List.mem_cons_self _ _)
      unfold Char.utf8Size
      exact if_pos this
    rw [List.map_cons, List.sum_cons, hc, ih (fun d hd => h d (List.mem_cons_of_mem _ hd)),
      List.length_cons]
    omega

/-- C8 as stated fails, for two reasons.  The title length is counted in
bytes, not in characters: for `["Zürich Loop", "Zurich Loops"]` the first title
(11 characters in 12 bytes) is returned, while with the length in characters
the second (12 characters) has the higher score.  And the score is computed in
binary64: for `["aaaaaaaaa", "Morning x" followed by 100 times "a"]` the scores
of the claim are both 1.9, so the first title is the first to attain the
maximum, while the program computes 1.9 rounded for the first title and
1.9000000000000004 for the second, and returns the second. -/
theorem C8_first_maximum_counterexample :
    (RankCandidateNames Char.toLower ["Zürich Loop".toList, "Zurich Loops".toList]
        "Ride".toList = "Zürich Loop".toList ∧
      ¬ IsFirstBest Char.toLower (specNameScore Char.toLower)
        ["Zürich Loop".toList, "Zurich Loops".toList] "Ride".toList
        (RankCandidateNames Char.toLower ["Zürich Loop".toList, "Zurich Loops".toList]
          "Ride".toList)) ∧
    (specNameScore Char.toLower "aaaaaaaaa".toList = 19 / 10 ∧
      specNameScore Char.toLower ("Morning x".toList ++ List.replicate 100 'a') = 19 / 10 ∧
      nameScore Char.toLower "aaaaaaaaa".toList = 4278419646001971 / 2251799813685248 ∧
      nameScore Char.toLower ("Morning x".toList ++ List.replicate 100 'a') =
        1069604911500493 / 562949953421312 ∧
      RankCandidateNames Char.toLower
        ["aaaaaaaaa".toList, "Morning x".toList ++ List.replicate 100 'a'] "Ride".toList =
        "Morning x".toList ++ List.replicate 100 'a' ∧
      ¬ IsFirstBest Char.toLower (specNameScore Char.toLower)
        ["aaaaaaaaa".toList, "Morning x".toList ++ List.replicate 100 'a'] "Ride".toList
        (RankCandidateNames Char.toLower
          ["aaaaaaaaa".toList, "Morning x".toList ++ List.replicate 100 'a']
          "Ride".toList)) := by
  have hr : RankCandidateNames Char.toLower ["Zürich Loop".toList, "Zurich Loops".toList]
      "Ride".toList = "Zürich Loop".toList := by decide!
  have h1 : specNameScore Char.toLower "Zurich Loops".toList = 11 / 5 := by decide!
  have h2 : specNameScore Char.toLower "Zürich Loop".toList = 21 / 10 := by decide!
  have hr2 : RankCandidateNames Char.toLower
      ["aaaaaaaaa".toList, "Morning x".toList ++ List.replicate 100 'a'] "Ride".toList =
      "Morning x".toList ++ List.replicate 100 'a' := by decide!
  have h3 : specNameScore Char.toLower "aaaaaaaaa".toList = 19 / 10 := by decide!
  have h4 : specNameScore Char.toLower ("Morning x".toList ++ List.replicate 100 'a') =
      19 / 10 := by decide!
  refine ⟨⟨hr, ?_⟩, h3, h4, by decide!, by decide!, hr2, ?_⟩
  · rw [hr]
    rintro ⟨pre, post, _, _, hmax, _⟩
    have h := hmax "Zurich Loops".toList (by simp) (by decide)
    rw [h1, h2] at h
    norm_num at h
  · rw [hr2]
    rintro ⟨pre, post, hsplit, _, _, hfirst⟩
    have hpre : "aaaaaaaaa".toList ∈ pre := by
      cases pre with
      | nil =>
        rw [List.nil_append, List.cons.injEq] at hsplit
        exact absurd hsplit.1 (by decide)
      | cons p pre =>
        rw [List.cons_append, List.cons.injEq] at hsplit
        rw [← hsplit.1]
        exact List.mem_cons_self _ _
    have h := hfirst _ hpre (by decide)
    rw [h3, h4] at h
    exact absurd h (lt_irrefl _)

/-- C8 (amended): for every candidate list with at least one title that is
not generic, `RankCandidateNames` returns the first candidate, left to right,
that attains the maximum score among the candidates that are not generic,
where the score of a title is computed in binary64, each operation rounded to
the nearest value: 1, plus 100 if it contains " - ", plus the product of its
length in bytes of UTF-8 (the number of characters when the title is ASCII)
and the binary64 constant 0.1, minus 10 once if its case-folded form starts
with morning, afternoon, evening, night or lunch.  Between two titles with the
same pattern and the same kind of start the one with more bytes does not score
lower.  The two lists of the claim give "Ellisville - Weldon" and
"Morning GravelRide". -/
theorem C8_rank_first_best (lower : Char → Char) (names : List Str) (activityType : Str)
    (h : ∃ n ∈ names, IsGenericName lower n activityType = false) :
    IsFirstBest lower (nameScore lower) names activityType
      (RankCandidateNames lower names activityType) ∧
    (∀ n : Str, nameScore lower n =
      if ["morning".toList, "afternoon".toList, "evening".toList, "night".toList,
          "lunch".toList].any (fun k => k.isPrefixOf (ToLower lower n)) then
        roundQ (roundQ ((if Contains n " - ".toList then roundQ (1 + 100) else 1) +
          roundQ (roundQ (((n.map Char.utf8Size).sum : Nat) : ℚ) * roundQ (1 / 10))) - 10)
      else
        roundQ ((if Contains n " - ".toList then roundQ (1 + 100) else 1) +
          roundQ (roundQ (((n.map Char.utf8Size).sum : Nat) : ℚ) * roundQ (1 / 10)))) ∧
    (∀ n : Str, (∀ c ∈ n, c.val ≤ 127) → (n.map Char.utf8Size).sum = n.length) ∧
    (∀ n m : Str, Contains n " - ".toList = Contains m " - ".toList →
      keywords.any (fun k => k.isPrefixOf (ToLower lower n)) =
        keywords.any (fun k => k.isPrefixOf (ToLower lower m)) →
      (n.map Char.utf8Size).sum ≤ (m.map Char.utf8Size).sum →
      nameScore lower n ≤ nameScore lower m) ∧
    RankCandidateNames Char.toLower
      ["Morning Ride".toList, "Ellisville - Weldon".toList, "Cycling".toList]
      "Cycling".toList = "Ellisville - Weldon".toList ∧
    RankCandidateNames Char.toLower ["Morning Ride".toList, "Morning GravelRide".toList]
      "Cycling".toList = "Morning GravelRide".toList := by
  refine ⟨?_, fun n => nameScore_eq lower n, len_of_ascii,
    fun n m hc hk hl => nameScore_mono_len lower n m hc hk hl, by decide!, by decide!⟩
  rcases RankCandidateNames_inv lower names activityType with ⟨hall, _⟩ | ⟨_, hbest⟩
  · obtain ⟨n, hn, hgen⟩ := h
    rw [hall n hn] at hgen
    exact absurd hgen (by simp)
  · exact hbest

/-- C8 at the first list of the claim. -/
theorem C8_rank_first_best_witness :
    (∃ n ∈ ["Morning Ride".toList, "Ellisville - Weldon".toList, "Cycling".toList],
      IsGenericName Char.toLower n "Cycling".toList = false) ∧
    IsFirstBest Char.toLower (nameScore Char.toLower)
      ["Morning Ride".toList, "Ellisville - Weldon".toList, "Cycling".toList]
      "Cycling".toList
      (RankCandidateNames Char.toLower
        ["Morning Ride".toList, "Ellisville - Weldon".toList, "Cycling".toList]
        "Cycling".toList) :=
  ⟨⟨"Ellisville - Weldon".toList, by simp, by decide⟩,
    (C8_rank_first_best Char.toLower _ _
      ⟨"Ellisville - Weldon".toList, by simp, by decide⟩).1⟩

/-- C9: `RankCandidateNames` returns the empty string exactly when every
candidate is generic (in particular on the empty list); otherwise the result
is one of the candidates and is itself not generic.  The initial best score
of -999 is below the score of every title, so a candidate that qualifies is
never dropped. -/
theorem C9_rank_empty_iff_none_qualifies (lower : Char → Char) (names : List Str)
    (activityType : Str) :
    (RankCandidateNames lower names activityType = [] ↔
      ∀ n ∈ names, IsGenericName lower n activityType = true) ∧
    (RankCandidateNames lower names activityType ≠ [] →
      RankCandidateNames lower names activityType ∈ names ∧
      IsGenericName lower (RankCandidateNames lower names activityType) activityType
        = false) ∧
    RankCandidateNames lower [] activityType = [] ∧
    (∀ n : Str, (-999 : ℚ) < nameScore lower n) := by
  have hnil : IsGenericName lower [] activityType = true := by simp [IsGenericName]
  refine ⟨?_, ?_, rfl, ?_⟩
  · constructor
    · intro he
      rcases RankCandidateNames_inv lower names activityType with
        ⟨hall, _⟩ | ⟨_, pre, post, _, hng, _, _⟩
      · exact hall
      · change IsGenericName lower (RankCandidateNames lower names activityType)
          activityType = false at hng
        rw [he, hnil] at hng
        exact absurd hng (by simp)
    · intro hall
      rcases RankCandidateNames_inv lower names activityType with
        ⟨_, hst⟩ | ⟨_, pre, post, hsplit, hng, _, _⟩
      · unfold RankCandidateNames
        rw [hst]
      · have hmem : (names.foldl (rankStep lower activityType) ([], -999)).1 ∈ names := by
          generalize (names.foldl (rankStep lower activityType) ([], -999)).1 = r at hsplit
          rw [hsplit]; simp
        rw [hall _ hmem] at hng
        exact absurd hng (by simp)
  · intro hne
    rcases RankCandidateNames_inv lower names activityType with
      ⟨_, hst⟩ | ⟨_, pre, post, hsplit, hng, _, _⟩
    · exfalso
      apply hne
      unfold RankCandidateNames
      rw [hst]
    · refine ⟨?_, hng⟩
      have hmem : (names.foldl (rankStep lower activityType) ([], -999)).1 ∈ names := by
        generalize (names.foldl (rankStep lower activityType) ([], -999)).1 = r at hsplit
        rw [hsplit]; simp
      exact hmem
  · intro n
    have := nameScore_lower_bound lower n
    linarith

/-! ## Scoring -/

theorem mapSet_cons_ne (e : Str × ℚ) (m : List (Str × ℚ)) (k : Str) (v : ℚ) (h : e.1 ≠ k) :
    mapSet (e :: m) k v = e :: mapSet m k v := by
  rw [mapSet, if_neg h]

theorem setBreakdown_consCard (k0 : Str) (v0 : ℚ) (card : Scorecard) (k : Str) (v : ℚ)
    (h : k0 ≠ k) :
    setBreakdown (consCard (k0, v0) card) k v = consCard (k0, v0) (setBreakdown card k v) := by
  simp only [setBreakdown, consCard, mapSet_cons_ne (k0, v0) _ k v h]

/-- The sampling pass does not write the key "Power Stream". -/
theorem evaluateSampling_consCard (cfg : Config) (d : ActivityDetail) (v : ℚ)
    (card : Scorecard) :
    evaluateSampling cfg d (consCard ("Power Stream".toList, v) card) =
      consCard ("Power Stream".toList, v) (evaluateSampling cfg d card) := by
  unfold evaluateSampling
  split
  · rfl
  · exact setBreakdown_consCard _ _ _ _ _ (by decide)

/-- The device pass does not write the key "Power Stream". -/
theorem evaluateDevice_consCard (lower : Char → Char) (cfg : Config) (d : ActivityDetail)
    (v : ℚ) (card : Scorecard) :
    evaluateDevice lower cfg d (consCard ("Power Stream".toList, v) card) =
      consCard ("Power Stream".toList, v) (evaluateDevice lower cfg d card) := by
  have hkey : ∀ (n i : Nat) (l : List Str) (k : Str) (b : ℚ),
      devicePriorityScan lower (searchString lower d) n i l = some (k, b) →
      "Power Stream".toList ≠ k := by
    intro n i l
    induction l generalizing i with
    | nil => intro k b h; simp [devicePriorityScan] at h
    | cons p rest ih =>
      intro k b h
      unfold devicePriorityScan at h
      split at h
      · simp only [Option.some.injEq, Prod.mk.injEq] at h
        rw [← h.1]
        simp
      · exact ih _ k b h
  unfold evaluateDevice
  cases hs : devicePriorityScan lower (searchString lower d) cfg.DevicePriority.length 0
      cfg.DevicePriority with
  | none => rfl
  | some kb =>
    obtain ⟨k, b⟩ := kb
    exact setBreakdown_consCard _ _ _ _ _ (hkey _ _ _ k b hs)

/-- The interaction pass does not write the key "Power Stream". -/
theorem evaluateInteractions_consCard (cfg : Config) (d : ActivityDetail) (v : ℚ)
    (card : Scorecard) :
    evaluateInteractions cfg d (consCard ("Power Stream".toList, v) card) =
      consCard ("Power Stream".toList, v) (evaluateInteractions cfg d card) := by
  unfold evaluateInteractions
  have h1 : "Power Stream".toList ≠ "RPE/Feel".toList := by decide
  have h2 : "Power Stream".toList ≠ "Manual Description".toList := by decide
  split_ifs <;>
  simp only [setBreakdown_consCard _ v _ _ _ h1, setBreakdown_consCard _ v _ _ _ h2]

/-- The name pass does not write the key "Power Stream". -/
theorem evaluateName_consCard (lower : Char → Char) (cfg : Config) (d : ActivityDetail)
    (v : ℚ) (card : Scorecard) :
    evaluateName lower cfg d (consCard ("Power Stream".toList, v) card) =
      consCard ("Power Stream".toList, v) (evaluateName lower cfg d card) := by
  unfold evaluateName
  have h1 : "Power Stream".toList ≠ "Custom Name".toList := by decide
  simp only
  have h2 := setBreakdown_consCard "Power Stream".toList v card "Custom Name".toList
    cfg.Weights.CustomName h1
  split_ifs <;> first | exact h2 | rfl

/-- The uploader pass does not write the key "Power Stream". -/
theorem evaluateUploader_consCard (lower : Char → Char) (cfg : Config) (d : ActivityDetail)
    (v : ℚ) (card : Scorecard) :
    evaluateUploader lower cfg d (consCard ("Power Stream".toList, v) card) =
      consCard ("Power Stream".toList, v) (evaluateUploader lower cfg d card) := by
  unfold evaluateUploader
  simp only
  generalize (if d.Source = "OAUTH_CLIENT".toList ∧ d.OAuthClientName ≠ [] then
    d.OAuthClientName else d.Source) = uploader
  generalize cfg.UploaderPenalties = ps
  induction ps generalizing card with
  | nil => rfl
  | cons e ps ih =>
    rw [List.foldl_cons, List.foldl_cons]
    by_cases hc : Contains (ToLower lower uploader) (ToLower lower e.1) = true
    · rw [if_pos hc, if_pos hc, setBreakdown_consCard _ _ _ _ _ (by simp)]
      exact ih _
    · rw [if_neg hc, if_neg hc]
      exact ih _

/-- With a power stream the stream pass writes the entry "Power Stream"
first and then what it writes without one. -/
theorem evaluateStreams_watts (cfg : Config) (A B : ActivityDetail)
    (hA : "watts".toList ∈ A.StreamTypes) (hB : "watts".toList ∉ B.StreamTypes)
    (hother : ∀ t : Str, t ≠ "watts".toList → (t ∈ A.StreamTypes ↔ t ∈ B.StreamTypes)) :
    evaluateStreams cfg A { Total := 0, Breakdown := [] } =
      consCard ("Power Stream".toList, cfg.Weights.Power)
        (evaluateStreams cfg B { Total := 0, Breakdown := [] }) := by
  have e1 := hother "heartrate".toList (by decide)
  have e2 := hother "latlng".toList (by decide)
  have e3 := hother "cadence".toList (by decide)
  have k1 : "Power Stream".toList ≠ "HeartRate Stream".toList := by decide
  have k2 : "Power Stream".toList ≠ "GPS/Map Stream".toList := by decide
  have k3 : "Power Stream".toList ≠ "Cadence Stream".toList := by decide
  have start : setBreakdown { Total := 0, Breakdown := [] } "Power Stream".toList
      cfg.Weights.Power =
      consCard ("Power Stream".toList, cfg.Weights.Power) { Total := 0, Breakdown := [] } := rfl
  unfold evaluateStreams
  simp only [hA, hB, e1, e2, e3, decide_True, decide_False, if_true, Bool.false_eq_true,
    if_false, start]
  split_ifs <;>
  simp only [setBreakdown_consCard _ cfg.Weights.Power _ _ _ k1,
    setBreakdown_consCard _ cfg.Weights.Power _ _ _ k2,
    setBreakdown_consCard _ cfg.Weights.Power _ _ _ k3]

/-- C10 as stated fails: the totals are binary64 sums.  With a GPS weight of
`10^16` and a power weight of 1, the detail with GPS and power streams and the
same detail with the GPS stream only both have total `10^16` in every
iteration order: the power weight is absorbed by the rounding, and the first
total is not larger.  With GPS weight 0.1 and power weight 0.3 (their binary64
values) the totals are 0.4 and 0.1, and their difference, exact or rounded, is
not the power weight. -/
theorem C10_absorbed_weight_counterexample :
    (absorbConfig.Weights.Power > 0 ∧
      roundQ 10000000000000000 = absorbConfig.Weights.GPS ∧
      ({ zeroDetail with StreamTypes := ["latlng".toList, "watts".toList] } :
          ActivityDetail).toActivity =
        ({ zeroDetail with StreamTypes := ["latlng".toList] } : ActivityDetail).toActivity ∧
      "watts".toList ∈ ["latlng".toList, "watts".toList] ∧
      "watts".toList ∉ ["latlng".toList] ∧
      (∀ orderA orderB : List (Str × ℚ),
        orderA.Perm (Score Char.toLower absorbConfig
          { zeroDetail with StreamTypes := ["latlng".toList, "watts".toList] }).Breakdown →
        orderB.Perm (Score Char.toLower absorbConfig
          { zeroDetail with StreamTypes := ["latlng".toList] }).Breakdown →
        sumBreakdown orderA = F64.fin 10000000000000000 ∧
        sumBreakdown orderB = F64.fin 10000000000000000 ∧
        F64.gt (sumBreakdown orderA) (sumBreakdown orderB) = false)) ∧
    (tenthsConfig.Weights.Power > 0 ∧
      tenthsConfig.Weights.Power = 5404319552844595 / 18014398509481984 ∧
      (∀ orderA orderB : List (Str × ℚ),
        orderA.Perm (Score Char.toLower tenthsConfig
          { zeroDetail with StreamTypes := ["latlng".toList, "watts".toList] }).Breakdown →
        orderB.Perm (Score Char.toLower tenthsConfig
          { zeroDetail with StreamTypes := ["latlng".toList] }).Breakdown →
        sumBreakdown orderA = F64.fin (3602879701896397 / 9007199254740992) ∧
        sumBreakdown orderB = F64.fin (3602879701896397 / 36028797018963968) ∧
        F64.sub (sumBreakdown orderA) (sumBreakdown orderB) ≠
          F64.fin tenthsConfig.Weights.Power) ∧
      (3602879701896397 / 9007199254740992 - 3602879701896397 / 36028797018963968 : ℚ) ≠
        tenthsConfig.Weights.Power) := by
  have a1 : ∀ order : List (Str × ℚ),
      order.Perm (Score Char.toLower absorbConfig
        { zeroDetail with StreamTypes := ["latlng".toList, "watts".toList] }).Breakdown →
      sumBreakdown order = F64.fin 10000000000000000 :=
    forall_perm_of_permutations _ _ (by decide!)
  have a2 : ∀ order : List (Str × ℚ),
      order.Perm (Score Char.toLower absorbConfig
        { zeroDetail with StreamTypes := ["latlng".toList] }).Breakdown →
      sumBreakdown order = F64.fin 10000000000000000 :=
    forall_perm_of_permutations _ _ (by decide!)
  have b1 : ∀ order : List (Str × ℚ),
      order.Perm (Score Char.toLower tenthsConfig
        { zeroDetail with StreamTypes := ["latlng".toList, "watts".toList] }).Breakdown →
      sumBreakdown order = F64.fin (3602879701896397 / 9007199254740992) :=
    forall_perm_of_permutations _ _ (by decide!)
  have b2 : ∀ order : List (Str × ℚ),
      order.Perm (Score Char.toLower tenthsConfig
        { zeroDetail with StreamTypes := ["latlng".toList] }).Breakdown →
      sumBreakdown order = F64.fin (3602879701896397 / 36028797018963968) :=
    forall_perm_of_permutations _ _ (by decide!)
  refine ⟨⟨by decide!, by decide!, rfl, by decide, by decide, ?_⟩,
    ⟨by decide!, by decide!, ?_, by decide!⟩⟩
  · intro orderA orderB hA hB
    rw [a1 orderA hA, a2 orderB hB]
    exact ⟨rfl, rfl, by decide!⟩
  · intro orderA orderB hA hB
    rw [b1 orderA hA, b2 orderB hB]
    exact ⟨rfl, rfl, by decide!⟩

/-- C10 (amended): for every configuration with `Weights.Power > 0` and
every two details that agree on every field except that the stream types of
`A` include "watts" and those of `B` do not (the other stream kinds being
present in both or in neither), the breakdown of `A` is the breakdown of `B`
with the entry "Power Stream" of value `Weights.Power` added, so the exact sums
of the two breakdowns differ by `Weights.Power`.  When all values of the
breakdown of `A` are multiples of one power of two `2^k` (with `k` from -1074
to 971, whole numbers for `k = 0`) and their magnitudes sum to less than
`2^(k+53)`, the binary64 totals are these exact sums in every iteration order:
the total of `A` is strictly larger than the total of `B` and the difference is
`Weights.Power`. -/
theorem C10_power_stream_raises_total (lower : Char → Char) (cfg : Config)
    (A B : ActivityDetail) (hP : cfg.Weights.Power > 0)
    (hsame : A.toActivity = B.toActivity)
    (hA : "watts".toList ∈ A.StreamTypes) (hB : "watts".toList ∉ B.StreamTypes)
    (hother : ∀ t : Str, t ≠ "watts".toList → (t ∈ A.StreamTypes ↔ t ∈ B.StreamTypes)) :
    (Score lower cfg A).Breakdown =
      ("Power Stream".toList, cfg.Weights.Power) :: (Score lower cfg B).Breakdown ∧
    ((Score lower cfg A).Breakdown.map (fun e => e.2)).sum =
      ((Score lower cfg B).Breakdown.map (fun e => e.2)).sum + cfg.Weights.Power ∧
    (∀ (orderA orderB : List (Str × ℚ)) (k : Int),
      orderA.Perm (Score lower cfg A).Breakdown → orderB.Perm (Score lower cfg B).Breakdown →
      -1074 ≤ k → k ≤ 971 →
      (∀ e ∈ (Score lower cfg A).Breakdown, ∃ n : Int, e.2 = (n : ℚ) * pow2 k) →
      ((Score lower cfg A).Breakdown.map (fun e => |e.2|)).sum < pow2 (k + 53) →
      sumBreakdown orderA = F64.fin (((Score lower cfg A).Breakdown.map (fun e => e.2)).sum) ∧
      sumBreakdown orderB = F64.fin (((Score lower cfg B).Breakdown.map (fun e => e.2)).sum) ∧
      F64.gt (sumBreakdown orderA) (sumBreakdown orderB) = true ∧
      F64.sub (sumBreakdown orderA) (sumBreakdown orderB) = F64.fin cfg.Weights.Power) := by
  have hs := evaluateStreams_watts cfg A B hA hB hother
  obtain ⟨actA, sA⟩ := A
  obtain ⟨actB, sB⟩ := B
  simp only at hsame
  subst hsame
  have r1 : ∀ c, evaluateSampling cfg ⟨actA, sA⟩ c = evaluateSampling cfg ⟨actA, sB⟩ c :=
    fun _ => rfl
  have r2 : ∀ c, evaluateDevice lower cfg ⟨actA, sA⟩ c = evaluateDevice lower cfg ⟨actA, sB⟩ c :=
    fun _ => rfl
  have r3 : ∀ c, evaluateInteractions cfg ⟨actA, sA⟩ c =
      evaluateInteractions cfg ⟨actA, sB⟩ c := fun _ => rfl
  have r4 : ∀ c, evaluateName lower cfg ⟨actA, sA⟩ c = evaluateName lower cfg ⟨actA, sB⟩ c :=
    fun _ => rfl
  have r5 : ∀ c, evaluateUploader lower cfg ⟨actA, sA⟩ c =
      evaluateUploader lower cfg ⟨actA, sB⟩ c := fun _ => rfl
  have hbd : (Score lower cfg ⟨actA, sA⟩).Breakdown =
      ("Power Stream".toList, cfg.Weights.Power) :: (Score lower cfg ⟨actA, sB⟩).Breakdown := by
    unfold Score
    simp only
    rw [hs, r1, r2, r3, r4, r5, evaluateSampling_consCard, evaluateDevice_consCard,
      evaluateInteractions_consCard, evaluateName_consCard, evaluateUploader_consCard]
    rfl
  have hsum : ((Score lower cfg ⟨actA, sA⟩).Breakdown.map (fun e => e.2)).sum =
      ((Score lower cfg ⟨actA, sB⟩).Breakdown.map (fun e => e.2)).sum + cfg.Weights.Power := by
    rw [hbd, List.map_cons, List.sum_cons, add_comm]
  refine ⟨hbd, hsum, ?_⟩
  intro orderA orderB k hpa hpb hk1 hk2 hg hb
  have hgB : ∀ e ∈ (Score lower cfg ⟨actA, sB⟩).Breakdown, ∃ n : Int, e.2 = (n : ℚ) * pow2 k :=
    fun e he => hg e (by rw [hbd]; exact List.mem_cons_of_mem _ he)
  have hbB : ((Score lower cfg ⟨actA, sB⟩).Breakdown.map (fun e => |e.2|)).sum <
      pow2 (k + 53) := by
    rw [hbd, List.map_cons, List.sum_cons] at hb
    have := abs_nonneg cfg.Weights.Power
    linarith
  have eA := sumBreakdown_exact k hk1 hk2 _ orderA hpa hg hb
  have eB := sumBreakdown_exact k hk1 hk2 _ orderB hpb hgB hbB
  refine ⟨eA, eB, ?_, ?_⟩
  · rw [eA, eB, hsum]
    simp only [F64.gt, F64.lt, decide_eq_true_eq]
    linarith
  · rw [eA, eB, hsum]
    obtain ⟨n, hn⟩ := hg ("Power Stream".toList, cfg.Weights.Power)
      (by rw [hbd]; exact List.mem_cons_self _ _)
    have hdiff : ((Score lower cfg ⟨actA, sB⟩).Breakdown.map (fun e => e.2)).sum +
        cfg.Weights.Power + -((Score lower cfg ⟨actA, sB⟩).Breakdown.map (fun e => e.2)).sum =
        (n : ℚ) * pow2 k := by
      rw [← hn]; ring
    simp only [F64.sub, F64.neg, F64.add]
    rw [hdiff, round64_of_grid n k hk1 hk2, ← hn]
    rw [← hn]
    rw [hbd, List.map_cons, List.sum_cons] at hb
    have hnn : 0 ≤ ((Score lower cfg ⟨actA, sB⟩).Breakdown.map (fun e => |e.2|)).sum :=
      List.sum_nonneg (by
        intro x hx
        obtain ⟨e, _, rfl⟩ := List.mem_map.mp hx
        exact abs_nonneg _)
    linarith

/-- C10 at the high-quality activity of `TestScoring` and the same activity
without its power stream: the breakdowns differ by the entry of the power
stream, and the totals are 19 and 14 in every iteration order. -/
theorem C10_power_stream_raises_total_witness :
    testConfig.Weights.Power > 0 ∧
    "watts".toList ∈ testDetail1.StreamTypes ∧
    (Score Char.toLower testConfig testDetail1).Breakdown =
      ("Power Stream".toList, testConfig.Weights.Power) ::
        (Score Char.toLower testConfig
          { testDetail1 with StreamTypes := ["latlng".toList] }).Breakdown ∧
    (∀ orderA orderB : List (Str × ℚ),
      orderA.Perm (Score Char.toLower testConfig testDetail1).Breakdown →
      orderB.Perm (Score Char.toLower testConfig
        { testDetail1 with StreamTypes := ["latlng".toList] }).Breakdown →
      sumBreakdown orderA = F64.fin 19 ∧ sumBreakdown orderB = F64.fin 14 ∧
      F64.gt (sumBreakdown orderA) (sumBreakdown orderB) = true ∧
      F64.sub (sumBreakdown orderA) (sumBreakdown orderB) = F64.fin 5) := by
  have hother : ∀ t : Str, t ≠ "watts".toList →
      (t ∈ testDetail1.StreamTypes ↔
        t ∈ ({ testDetail1 with StreamTypes := ["latlng".toList] } :
          ActivityDetail).StreamTypes) := by
    intro t ht
    simp only [testDetail1, List.mem_cons, List.mem_singleton, List.not_mem_nil, or_false]
    constructor
    · rintro (h | h)
      · exact h
      · exact absurd h ht
    · intro h
      exact Or.inl h
  have main := C10_power_stream_raises_total Char.toLower testConfig testDetail1
    { testDetail1 with StreamTypes := ["latlng".toList] } (by decide) rfl (by decide)
    (by decide) hother
  have hbd : (Score Char.toLower testConfig testDetail1).Breakdown =
      [("Power Stream".toList, 5), ("GPS/Map Stream".toList, 10),
       ("Device/Sensor Priority: Wahoo".toList, 2), ("Custom Name".toList, 2)] := by decide!
  have hsA : ((Score Char.toLower testConfig testDetail1).Breakdown.map (fun e => e.2)).sum =
      19 := by decide!
  have hsB : ((Score Char.toLower testConfig
      { testDetail1 with StreamTypes := ["latlng".toList] }).Breakdown.map (fun e => e.2)).sum =
      14 := by decide!
  have hp0 : pow2 0 = 1 := by decide!
  refine ⟨by decide, by decide, main.1, ?_⟩
  intro orderA orderB hA hB
  have := main.2.2 orderA orderB 0 hA hB (by norm_num) (by norm_num)
    (by
      rw [hbd, hp0]
      intro e he
      simp only [List.mem_cons, List.mem_singleton, List.not_mem_nil, or_false] at he
      rcases he with h | h | h | h <;> rw [h]
      · exact ⟨5, by norm_num⟩
      · exact ⟨10, by norm_num⟩
      · exact ⟨2, by norm_num⟩
      · exact ⟨2, by norm_num⟩)
    (by decide!)
  rw [hsA, hsB] at this
  exact ⟨this.1, this.2.1, this.2.2.1, this.2.2.2⟩

/-! ## Breakdown of a score -/

theorem applyWrites_append (ws vs : List (Str × ℚ)) (card : Scorecard) :
    applyWrites (ws ++ vs) card = applyWrites vs (applyWrites ws card) := by
  unfold applyWrites
  rw [List.foldl_append]

theorem evaluateStreams_writes (cfg : Config) (d : ActivityDetail) (card : Scorecard) :
    evaluateStreams cfg d card = applyWrites (streamWrites cfg d) card := by
  unfold evaluateStreams streamWrites applyWrites
  by_cases h1 : "watts".toList ∈ d.StreamTypes <;>
  by_cases h2 : "heartrate".toList ∈ d.StreamTypes <;>
  by_cases h3 : "latlng".toList ∈ d.StreamTypes <;>
  by_cases h4 : "cadence".toList ∈ d.StreamTypes <;>
  simp only [h1, h2, h3, h4, decide_True, decide_False, if_true, if_false,
    Bool.false_eq_true, List.nil_append, List.append_nil, List.cons_append, List.foldl_cons,
    List.foldl_nil, List.singleton_append]

theorem evaluateSampling_writes (cfg : Config) (d : ActivityDetail) (card : Scorecard) :
    evaluateSampling cfg d card = applyWrites (samplingWrites cfg d) card := by
  unfold evaluateSampling samplingWrites applyWrites
  split_ifs <;> rfl

theorem evaluateDevice_writes (lower : Char → Char) (cfg : Config) (d : ActivityDetail)
    (card : Scorecard) :
    evaluateDevice lower cfg d card = applyWrites (deviceWrites lower cfg d) card := by
  unfold evaluateDevice deviceWrites applyWrites
  cases devicePriorityScan lower (searchString lower d) cfg.DevicePriority.length 0
      cfg.DevicePriority with
  | none => rfl
  | some kb => rfl

theorem evaluateInteractions_writes (cfg : Config) (d : ActivityDetail) (card : Scorecard) :
    evaluateInteractions cfg d card = applyWrites (interactionWrites cfg d) card := by
  unfold evaluateInteractions interactionWrites applyWrites
  by_cases h1 : d.RPE > 0 <;> by_cases h2 : d.Feel > 0 <;>
  by_cases h3 : TrimSpace d.Description = [] <;>
  simp only [h1, h2, h3, if_true, if_false, or_true, true_or, or_self, ne_eq,
    not_true_eq_false, not_false_eq_true, List.nil_append, List.append_nil, List.cons_append,
    List.foldl_cons, List.foldl_nil, List.singleton_append]

theorem evaluateName_writes (lower : Char → Char) (cfg : Config) (d : ActivityDetail)
    (card : Scorecard) :
    evaluateName lower cfg d card = applyWrites (nameWrites lower cfg d) card := by
  unfold evaluateName nameWrites applyWrites nameUploader
  by_cases h1 : IsGenericName lower d.Name d.Type_ = true
  · simp [h1]
  · have h1f : IsGenericName lower d.Name d.Type_ = false := by simpa using h1
    by_cases h2 : d.Source = "OAUTH_CLIENT".toList
    · simp only [h1, h1f, h2, if_true, not_false_eq_true, true_and]
      split_ifs <;> simp_all
    · simp only [h1, h1f, h2, if_true, if_false, not_false_eq_true, true_and]
      split_ifs <;> simp_all

theorem evaluateUploader_writes (lower : Char → Char) (cfg : Config) (d : ActivityDetail)
    (card : Scorecard) :
    evaluateUploader lower cfg d card = applyWrites (uploaderWrites lower cfg d) card := by
  unfold evaluateUploader uploaderWrites applyWrites penaltyUploader
  simp only
  generalize cfg.UploaderPenalties = ps
  induction ps generalizing card with
  | nil => rfl
  | cons e ps ih =>
    rw [List.foldl_cons, ih, List.filter_cons]
    by_cases hc : Contains (ToLower lower (if d.Source = "OAUTH_CLIENT".toList ∧
        d.OAuthClientName ≠ [] then d.OAuthClientName else d.Source)) (ToLower lower e.1) = true
    · simp only [hc, if_true, List.map_cons, List.foldl_cons]
    · simp only [hc, if_false, Bool.false_eq_true]

theorem applyWrites_breakdown (ws : List (Str × ℚ)) (card : Scorecard) :
    (applyWrites ws card).Breakdown = ws.foldl (fun m e => mapSet m e.1 e.2) card.Breakdown ∧
    (applyWrites ws card).Total = card.Total := by
  unfold applyWrites
  induction ws generalizing card with
  | nil => exact ⟨rfl, rfl⟩
  | cons e ws ih =>
    rw [List.foldl_cons, List.foldl_cons]
    exact ih (setBreakdown card e.1 e.2)

theorem foldl_total (l : List (Str × ℚ)) (t : ℚ) :
    l.foldl (fun total e => total + e.2) t = t + (l.map (fun e => e.2)).sum := by
  induction l generalizing t with
  | nil => simp
  | cons e l ih => rw [List.foldl_cons, ih, List.map_cons, List.sum_cons]; ring

/-- The breakdown of a score is what the assignments of the six passes, made
in order on an empty map, leave; the total is the sum of its values. -/
theorem Score_eq_writes (lower : Char → Char) (cfg : Config) (d : ActivityDetail) :
    (Score lower cfg d).Breakdown =
      (scoreWrites lower cfg d).foldl (fun m e => mapSet m e.1 e.2) [] ∧
    (Score lower cfg d).Total = ((Score lower cfg d).Breakdown.map (fun e => e.2)).sum := by
  have hb : (Score lower cfg d).Breakdown =
      (applyWrites (scoreWrites lower cfg d) { Total := 0, Breakdown := [] }).Breakdown := by
    unfold Score scoreWrites
    simp only [applyWrites_append, evaluateStreams_writes, evaluateSampling_writes,
      evaluateDevice_writes, evaluateInteractions_writes, evaluateName_writes,
      evaluateUploader_writes]
  have ht : (Score lower cfg d).Total =
      (Score lower cfg d).Breakdown.foldl (fun total e => total + e.2) 0 := by
    unfold Score
    simp only [evaluateStreams_writes, evaluateSampling_writes,
      evaluateDevice_writes, evaluateInteractions_writes, evaluateName_writes,
      evaluateUploader_writes, (applyWrites_breakdown _ _).2]
  constructor
  · rw [hb, (applyWrites_breakdown _ _).1]
  · rw [ht, foldl_total, zero_add]

theorem entriesWith_mapSet (p : Str → Bool) (m : List (Str × ℚ)) (k : Str) (v : ℚ) :
    entriesWith p (mapSet m k v) =
      if p k = true then mapSet (entriesWith p m) k v else entriesWith p m := by
  unfold entriesWith
  induction m with
  | nil =>
    by_cases hk : p k = true
    · simp [mapSet, hk]
    · simp [mapSet, hk]
  | cons e m ih =>
    by_cases he : e.1 = k
    · by_cases hk : p k = true
      · simp [mapSet, he, hk]
      · simp [mapSet, he, hk]
    · rw [mapSet, if_neg he, List.filter_cons, ih, List.filter_cons]
      by_cases hk : p k = true <;> by_cases hp : p e.1 = true <;>
      simp [hk, hp, mapSet, he]

theorem entriesWith_foldl (p : Str → Bool) (ws m : List (Str × ℚ)) :
    entriesWith p (ws.foldl (fun m e => mapSet m e.1 e.2) m) =
      (entriesWith p ws).foldl (fun m e => mapSet m e.1 e.2) (entriesWith p m) := by
  induction ws generalizing m with
  | nil => rfl
  | cons e ws ih =>
    rw [List.foldl_cons, ih, entriesWith_mapSet]
    by_cases hk : p e.1 = true
    · rw [if_pos hk]
      have : entriesWith p (e :: ws) = e :: entriesWith p ws := by
        unfold entriesWith
        rw [List.filter_cons, if_pos hk]
      rw [this, List.foldl_cons]
    · rw [if_neg hk]
      have : entriesWith p (e :: ws) = entriesWith p ws := by
        unfold entriesWith
        rw [List.filter_cons, if_neg hk]
      rw [this]

theorem mapSet_of_not_mem (m : List (Str × ℚ)) (k : Str) (v : ℚ)
    (h : k ∉ m.map (fun e => e.1)) : mapSet m k v = m ++ [(k, v)] := by
  induction m with
  | nil => rfl
  | cons e m ih =>
    rw [List.map_cons, List.mem_cons, not_or] at h
    rw [mapSet, if_neg (fun he => h.1 he.symm), ih h.2, List.cons_append]

/-- Assignments to distinct new keys append their entries in order. -/
theorem foldl_mapSet_of_nodup (ws m : List (Str × ℚ))
    (hnd : ((m ++ ws).map (fun e => e.1)).Nodup) :
    ws.foldl (fun m e => mapSet m e.1 e.2) m = m ++ ws := by
  induction ws generalizing m with
  | nil => simp
  | cons e ws ih =>
    have hnot : e.1 ∉ m.map (fun e => e.1) := by
      intro hmem
      rw [List.map_append, List.map_cons] at hnd
      have := (List.nodup_append.mp hnd).2.2
      exact this hmem (List.mem_cons_self _ _)
    rw [List.foldl_cons, mapSet_of_not_mem m e.1 e.2 hnot]
    have e2 : m ++ [(e.1, e.2)] ++ ws = m ++ e :: ws := by simp
    rw [ih (m ++ [(e.1, e.2)]) (by rw [e2]; exact hnd), e2]

theorem mapSet_keys_nodup (m : List (Str × ℚ)) (k : Str) (v : ℚ)
    (h : (m.map (fun e => e.1)).Nodup) : ((mapSet m k v).map (fun e => e.1)).Nodup := by
  induction m with
  | nil => simp [mapSet]
  | cons e m ih =>
    rw [List.map_cons, List.nodup_cons] at h
    by_cases he : e.1 = k
    · rw [mapSet, if_pos he, List.map_cons, List.nodup_cons]
      exact ⟨he ▸ h.1, h.2⟩
    · rw [mapSet, if_neg he, List.map_cons, List.nodup_cons]
      refine ⟨?_, ih h.2⟩
      intro hmem
      have hsub : ∀ x, x ∈ (mapSet m k v).map (fun e => e.1) → x = k ∨ x ∈ m.map (fun e => e.1) := by
        intro x
        clear ih h hmem
        induction m with
        | nil => simp [mapSet]
        | cons f m ihm =>
          by_cases hf : f.1 = k
          · rw [mapSet, if_pos hf]
            simp only [List.map_cons, List.mem_cons]
            rintro (h | h)
            · exact Or.inl h
            · exact Or.inr (Or.inr h)
          · rw [mapSet, if_neg hf]
            simp only [List.map_cons, List.mem_cons]
            rintro (h | h)
            · exact Or.inr (Or.inl h)
            · rcases ihm h with h | h
              · exact Or.inl h
              · exact Or.inr (Or.inr h)
      rcases hsub _ hmem with h1 | h1
      · exact he h1
      · exact h.1 h1

theorem foldl_mapSet_keys_nodup (ws m : List (Str × ℚ))
    (h : (m.map (fun e => e.1)).Nodup) :
    ((ws.foldl (fun m e => mapSet m e.1 e.2) m).map (fun e => e.1)).Nodup := by
  induction ws generalizing m with
  | nil => exact h
  | cons e ws ih => exact ih _ (mapSet_keys_nodup m e.1 e.2 h)

theorem mem_mapSet (m : List (Str × ℚ)) (k : Str) (v : ℚ) (e : Str × ℚ)
    (h : e ∈ mapSet m k v) : e = (k, v) ∨ e ∈ m := by
  induction m with
  | nil =>
    rw [mapSet, List.mem_singleton] at h
    exact Or.inl h
  | cons f m ih =>
    by_cases hf : f.1 = k
    · rw [mapSet, if_pos hf, List.mem_cons] at h
      rcases h with h | h
      · exact Or.inl h
      · exact Or.inr (List.mem_cons_of_mem _ h)
    · rw [mapSet, if_neg hf, List.mem_cons] at h
      rcases h with h | h
      · exact Or.inr (h ▸ List.mem_cons_self _ _)
      · rcases ih h with h | h
        · exact Or.inl h
        · exact Or.inr (List.mem_cons_of_mem _ h)

theorem keys_mapSet (m : List (Str × ℚ)) (k : Str) (v : ℚ) (x : Str)
    (h : x = k ∨ x ∈ m.map (fun e => e.1)) : x ∈ (mapSet m k v).map (fun e => e.1) := by
  induction m with
  | nil =>
    rcases h with h | h
    · simp [mapSet, h]
    · simp at h
  | cons f m ih =>
    by_cases hf : f.1 = k
    · rw [mapSet, if_pos hf, List.map_cons, List.mem_cons]
      rcases h with h | h
      · exact Or.inl h
      · rw [List.map_cons, List.mem_cons] at h
        rcases h with h | h
        · exact Or.inl (h.trans hf)
        · exact Or.inr h
    · rw [mapSet, if_neg hf, List.map_cons, List.mem_cons]
      rcases h with h | h
      · exact Or.inr (ih (Or.inl h))
      · rw [List.map_cons, List.mem_cons] at h
        rcases h with h | h
        · exact Or.inl h
        · exact Or.inr (ih (Or.inr h))

theorem mem_foldl_mapSet (ws m : List (Str × ℚ)) (e : Str × ℚ)
    (h : e ∈ ws.foldl (fun m e => mapSet m e.1 e.2) m) : e ∈ m ∨ e ∈ ws := by
  induction ws generalizing m with
  | nil => exact Or.inl h
  | cons w ws ih =>
    rw [List.foldl_cons] at h
    rcases ih _ h with h1 | h1
    · rcases mem_mapSet m w.1 w.2 e h1 with h2 | h2
      · exact Or.inr (h2 ▸ List.mem_cons_self _ _)
      · exact Or.inl h2
    · exact Or.inr (List.mem_cons_of_mem _ h1)

theorem keys_foldl_mapSet (ws m : List (Str × ℚ)) (x : Str)
    (h : x ∈ m.map (fun e => e.1) ∨ x ∈ ws.map (fun e => e.1)) :
    x ∈ (ws.foldl (fun m e => mapSet m e.1 e.2) m).map (fun e => e.1) := by
  induction ws generalizing m with
  | nil =>
    rcases h with h | h
    · exact h
    · simp at h
  | cons w ws ih =>
    rw [List.foldl_cons]
    apply ih
    rcases h with h | h
    · exact Or.inl (keys_mapSet m w.1 w.2 x (Or.inr h))
    · rw [List.map_cons, List.mem_cons] at h
      rcases h with h | h
      · exact Or.inl (keys_mapSet m w.1 w.2 x (Or.inl h))
      · exact Or.inr h

/-- C11 as stated fails: the total is accumulated in binary64, in the order
in which the map is ranged over.  With stream weights 0.1, 0.2 and 0.3 (their
binary64 values) the breakdown has three entries; ranged over as power, heart
rate, GPS the total is 0.6, ranged over as GPS, heart rate, power it is
0.6000000000000001, and in no order is it the sum of the three values. -/
theorem C11_total_order_counterexample :
    (Score Char.toLower tenthsConfig streamsDetail).Breakdown =
      [("Power Stream".toList, roundQ (3 / 10)), ("HeartRate Stream".toList, roundQ (2 / 10)),
       ("GPS/Map Stream".toList, roundQ (1 / 10))] ∧
    sumBreakdown
      [("Power Stream".toList, roundQ (3 / 10)), ("HeartRate Stream".toList, roundQ (2 / 10)),
       ("GPS/Map Stream".toList, roundQ (1 / 10))] =
      F64.fin (5404319552844595 / 9007199254740992) ∧
    sumBreakdown
      [("GPS/Map Stream".toList, roundQ (1 / 10)), ("HeartRate Stream".toList, roundQ (2 / 10)),
       ("Power Stream".toList, roundQ (3 / 10))] =
      F64.fin (1351079888211149 / 2251799813685248) ∧
    roundQ (6 / 10) = 5404319552844595 / 9007199254740992 ∧
    (∀ order : List (Str × ℚ),
      order.Perm (Score Char.toLower tenthsConfig streamsDetail).Breakdown →
      sumBreakdown order ≠ F64.fin
        (((Score Char.toLower tenthsConfig streamsDetail).Breakdown.map (fun e => e.2)).sum)) :=
  ⟨by decide!, by decide!, by decide!, by decide!,
    forall_perm_of_permutations _ _ (by decide!)⟩

/-- C11 (amended): for every detail and configuration the breakdown holds
each named factor once: its keys are distinct, every entry is an assignment of
one of the six passes, and every key a pass assigns is present.  The total is
the binary64 sum of its values, positive and negative, accumulated from 0 in
the order in which the map is ranged over.  When all values are multiples of
one power of two `2^k` (with `k` from -1074 to 971, whole numbers for `k = 0`)
and their magnitudes sum to less than `2^(k+53)`, the total is the exact sum
of the values, in every order.  For the high-quality activity of `TestScoring`
the breakdown is Power 5, GPS 10, device priority 2 and custom name 2 and the
total is 19, above 15, in every order; the generic-named activity with no
recognised stream has an empty breakdown and total 0, strictly less. -/
theorem C11_total_is_binary64_sum (lower : Char → Char) (cfg : Config)
    (d : ActivityDetail) :
    ((Score lower cfg d).Breakdown.map (fun e => e.1)).Nodup ∧
    (∀ e ∈ (Score lower cfg d).Breakdown, e ∈ scoreWrites lower cfg d) ∧
    (∀ w ∈ scoreWrites lower cfg d, w.1 ∈ (Score lower cfg d).Breakdown.map (fun e => e.1)) ∧
    (∀ (order : List (Str × ℚ)) (k : Int), order.Perm (Score lower cfg d).Breakdown →
      -1074 ≤ k → k ≤ 971 →
      (∀ e ∈ (Score lower cfg d).Breakdown, ∃ n : Int, e.2 = (n : ℚ) * pow2 k) →
      ((Score lower cfg d).Breakdown.map (fun e => |e.2|)).sum < pow2 (k + 53) →
      sumBreakdown order = F64.fin (((Score lower cfg d).Breakdown.map (fun e => e.2)).sum)) ∧
    (Score Char.toLower testConfig testDetail1).Breakdown =
      [("Power Stream".toList, 5), ("GPS/Map Stream".toList, 10),
       ("Device/Sensor Priority: Wahoo".toList, 2), ("Custom Name".toList, 2)] ∧
    (∀ order : List (Str × ℚ),
      order.Perm (Score Char.toLower testConfig testDetail1).Breakdown →
      sumBreakdown order = F64.fin (10 + 5 + 2 + 2) ∧
        F64.gt (sumBreakdown order) (F64.fin 15) = true) ∧
    (Score Char.toLower testConfig testDetail2).Breakdown = [] ∧
    (∀ order1 order2 : List (Str × ℚ),
      order1.Perm (Score Char.toLower testConfig testDetail1).Breakdown →
      order2.Perm (Score Char.toLower testConfig testDetail2).Breakdown →
      sumBreakdown order2 = F64.fin 0 ∧
        F64.lt (sumBreakdown order2) (sumBreakdown order1) = true) := by
  have hw := (Score_eq_writes lower cfg d).1
  have h19 : ∀ order : List (Str × ℚ),
      order.Perm (Score Char.toLower testConfig testDetail1).Breakdown →
      sumBreakdown order = F64.fin (10 + 5 + 2 + 2) ∧
        F64.gt (sumBreakdown order) (F64.fin 15) = true :=
    forall_perm_of_permutations _ _ (by decide!)
  have h0 : (Score Char.toLower testConfig testDetail2).Breakdown = [] := by decide!
  refine ⟨?_, ?_, ?_, ?_, by decide!, h19, h0, ?_⟩
  · rw [hw]
    exact foldl_mapSet_keys_nodup _ [] (by simp)
  · intro e he
    rw [hw] at he
    rcases mem_foldl_mapSet _ [] e he with h | h
    · simp at h
    · exact h
  · intro w hwm
    rw [hw]
    exact keys_foldl_mapSet _ [] w.1 (Or.inr (List.mem_map_of_mem _ hwm))
  · intro order k hperm hk1 hk2 hg hb
    exact sumBreakdown_exact k hk1 hk2 _ order hperm hg hb
  · intro order1 order2 h1 h2
    rw [h0] at h2
    rw [List.perm_nil.mp h2, (h19 order1 h1).1]
    exact ⟨by decide!, by decide!⟩

/-! ## Device priority -/

theorem entriesWith_append (p : Str → Bool) (a b : List (Str × ℚ)) :
    entriesWith p (a ++ b) = entriesWith p a ++ entriesWith p b := by
  unfold entriesWith
  rw [List.filter_append]

theorem entriesWith_eq_nil (p : Str → Bool) (m : List (Str × ℚ))
    (h : ∀ e ∈ m, p e.1 = false) : entriesWith p m = [] := by
  unfold entriesWith
  rw [List.filter_eq_nil_iff]
  intro e he
  rw [h e he]
  simp

theorem entriesWith_eq_self (p : Str → Bool) (m : List (Str × ℚ))
    (h : ∀ e ∈ m, p e.1 = true) : entriesWith p m = m := by
  unfold entriesWith
  rw [List.filter_eq_self]
  exact h

theorem streamWrites_keys (cfg : Config) (d : ActivityDetail) :
    ∀ e ∈ streamWrites cfg d, e.1 ∈ staticKeys := by
  intro e he
  unfold streamWrites at he
  simp only [List.mem_append] at he
  rcases he with ((he | he) | he) | he <;>
  · split at he
    · rw [List.mem_singleton] at he
      rw [he]
      dsimp only
      decide
    · simp at he

theorem samplingWrites_keys (cfg : Config) (d : ActivityDetail) :
    ∀ e ∈ samplingWrites cfg d, e.1 ∈ staticKeys := by
  intro e he
  unfold samplingWrites at he
  split at he
  · simp at he
  · rw [List.mem_singleton] at he
    rw [he]
    dsimp only
    decide

theorem interactionWrites_keys (cfg : Config) (d : ActivityDetail) :
    ∀ e ∈ interactionWrites cfg d, e.1 ∈ staticKeys := by
  intro e he
  unfold interactionWrites at he
  simp only [List.mem_append] at he
  rcases he with he | he <;>
  · split at he
    · rw [List.mem_singleton] at he
      rw [he]
      dsimp only
      decide
    · simp at he

theorem nameWrites_keys (lower : Char → Char) (cfg : Config) (d : ActivityDetail) :
    ∀ e ∈ nameWrites lower cfg d, e.1 = "Custom Name".toList := by
  intro e he
  unfold nameWrites at he
  split at he
  · rw [List.mem_singleton] at he
    rw [he]
  · simp at he

theorem devicePriorityScan_key (lower : Char → Char) (search : Str) (n : Nat) (l : List Str) :
    ∀ (i : Nat) (e : Str × ℚ), devicePriorityScan lower search n i l = some e →
      ∃ preferred ∈ l, e.1 = "Device/Sensor Priority: ".toList ++ preferred := by
  induction l with
  | nil => intro i e h; simp [devicePriorityScan] at h
  | cons p rest ih =>
    intro i e h
    unfold devicePriorityScan at h
    split at h
    · rw [Option.some.injEq] at h
      exact ⟨p, List.mem_cons_self _ _, by rw [← h]⟩
    · obtain ⟨q, hq, hk⟩ := ih _ e h
      exact ⟨q, List.mem_cons_of_mem _ hq, hk⟩

theorem deviceWrites_keys (lower : Char → Char) (cfg : Config) (d : ActivityDetail) :
    ∀ e ∈ deviceWrites lower cfg d,
      ∃ preferred ∈ cfg.DevicePriority, e.1 = "Device/Sensor Priority: ".toList ++ preferred := by
  intro e he
  unfold deviceWrites at he
  rw [Option.mem_toList] at he
  exact devicePriorityScan_key lower _ _ _ 0 e he

theorem uploaderWrites_keys (lower : Char → Char) (cfg : Config) (d : ActivityDetail) :
    ∀ e ∈ uploaderWrites lower cfg d,
      ∃ k : Str, e.1 = "Uploader Penalty: ".toList ++ k := by
  intro e he
  unfold uploaderWrites at he
  rw [List.mem_map] at he
  obtain ⟨a, _, ha⟩ := he
  exact ⟨a.1, by rw [← ha]⟩

/-- The loop of `evaluateDevice` stops at the first entry that matches. -/
theorem devicePriorityScan_first (lower : Char → Char) (search : Str) (n : Nat)
    (l : List Str) :
    ∀ (i0 i : Nat) (preferred : Str), l[i]? = some preferred →
      Contains search (ToLower lower preferred) = true →
      (∀ (j : Nat) (q : Str), j < i → l[j]? = some q →
        Contains search (ToLower lower q) = false) →
      devicePriorityScan lower search n i0 l =
        some ("Device/Sensor Priority: ".toList ++ preferred,
          ((n : ℚ) - ((i0 + i : Nat) : ℚ)) * 2) := by
  induction l with
  | nil => intro i0 i p h; simp at h
  | cons x rest ih =>
    intro i0 i p h hc hfirst
    cases i with
    | zero =>
      simp only [List.getElem?_cons_zero, Option.some.injEq] at h
      subst h
      unfold devicePriorityScan
      rw [if_pos hc]
      push_cast
      simp
    | succ i =>
      have hx : Contains search (ToLower lower x) = false :=
        hfirst 0 x (Nat.succ_pos _) (by simp)
      unfold devicePriorityScan
      rw [if_neg (by rw [hx]; simp)]
      rw [List.getElem?_cons_succ] at h
      have := ih (i0 + 1) i p h hc (fun j q hj hq =>
        hfirst (j + 1) q (Nat.succ_lt_succ hj) (by rw [List.getElem?_cons_succ]; exact hq))
      rw [this]
      have e : i0 + 1 + i = i0 + (i + 1) := by omega
      rw [e]

theorem devicePriorityScan_none (lower : Char → Char) (search : Str) (n : Nat)
    (l : List Str) :
    ∀ (i0 : Nat), (∀ q ∈ l, Contains search (ToLower lower q) = false) →
      devicePriorityScan lower search n i0 l = none := by
  induction l with
  | nil => intro i0 _; rfl
  | cons x rest ih =>
    intro i0 h
    unfold devicePriorityScan
    rw [if_neg (by rw [h x (List.mem_cons_self _ _)]; simp)]
    exact ih _ (fun q hq => h q (List.mem_cons_of_mem _ hq))

theorem staticKeys_not_device : ∀ k ∈ staticKeys, isDeviceKey k = false := by decide

theorem staticKeys_not_penalty : ∀ k ∈ staticKeys, isPenaltyKey k = false := by decide

theorem isDeviceKey_device (x : Str) :
    isDeviceKey ("Device/Sensor Priority: ".toList ++ x) = true := by
  simp [isDeviceKey]

theorem isDeviceKey_penalty (x : Str) :
    isDeviceKey ("Uploader Penalty: ".toList ++ x) = false := rfl

theorem isPenaltyKey_device (x : Str) :
    isPenaltyKey ("Device/Sensor Priority: ".toList ++ x) = false := rfl

theorem isPenaltyKey_penalty (x : Str) :
    isPenaltyKey ("Uploader Penalty: ".toList ++ x) = true := by
  simp [isPenaltyKey]

theorem isCustomNameKey_device (x : Str) :
    isCustomNameKey ("Device/Sensor Priority: ".toList ++ x) = false := by
  simp [isCustomNameKey]

theorem isCustomNameKey_penalty (x : Str) :
    isCustomNameKey ("Uploader Penalty: ".toList ++ x) = false := by
  simp [isCustomNameKey]

theorem scoreWrites_split (p : Str → Bool) (lower : Char → Char) (cfg : Config)
    (d : ActivityDetail) :
    entriesWith p (scoreWrites lower cfg d) =
      entriesWith p (streamWrites cfg d) ++ entriesWith p (samplingWrites cfg d) ++
      entriesWith p (deviceWrites lower cfg d) ++ entriesWith p (interactionWrites cfg d) ++
      entriesWith p (nameWrites lower cfg d) ++ entriesWith p (uploaderWrites lower cfg d) := by
  unfold scoreWrites
  simp only [entriesWith_append]

/-- The entries of the device kind in the breakdown of a score are what the
device pass assigns: nothing, or the one entry of the first match. -/
theorem Score_deviceEntries (lower : Char → Char) (cfg : Config) (d : ActivityDetail) :
    entriesWith isDeviceKey (Score lower cfg d).Breakdown = deviceWrites lower cfg d := by
  rw [(Score_eq_writes lower cfg d).1, entriesWith_foldl, scoreWrites_split]
  rw [entriesWith_eq_nil _ _ (fun e he =>
        staticKeys_not_device _ (streamWrites_keys cfg d e he)),
    entriesWith_eq_nil _ _ (fun e he =>
        staticKeys_not_device _ (samplingWrites_keys cfg d e he)),
    entriesWith_eq_nil _ _ (fun e he =>
        staticKeys_not_device _ (interactionWrites_keys cfg d e he)),
    entriesWith_eq_nil _ (nameWrites lower cfg d) (fun e he => by
        rw [nameWrites_keys lower cfg d e he]; decide),
    entriesWith_eq_nil _ (uploaderWrites lower cfg d) (fun e he => by
        obtain ⟨k, hk⟩ := uploaderWrites_keys lower cfg d e he
        rw [hk]; exact isDeviceKey_penalty k),
    entriesWith_eq_self _ (deviceWrites lower cfg d) (fun e he => by
        obtain ⟨k, _, hk⟩ := deviceWrites_keys lower cfg d e he
        rw [hk]; exact isDeviceKey_device k)]
  simp only [List.nil_append, List.append_nil, entriesWith, List.filter_nil]
  unfold deviceWrites
  cases devicePriorityScan lower (searchString lower d) cfg.DevicePriority.length 0
      cfg.DevicePriority with
  | none => rfl
  | some e => rfl

/-- The entries of the penalty kind in the breakdown of a score are what the
uploader pass leaves on an empty map. -/
theorem Score_penaltyEntries (lower : Char → Char) (cfg : Config) (d : ActivityDetail) :
    entriesWith isPenaltyKey (Score lower cfg d).Breakdown =
      (uploaderWrites lower cfg d).foldl (fun m e => mapSet m e.1 e.2) [] := by
  rw [(Score_eq_writes lower cfg d).1, entriesWith_foldl, scoreWrites_split]
  rw [entriesWith_eq_nil _ _ (fun e he =>
        staticKeys_not_penalty _ (streamWrites_keys cfg d e he)),
    entriesWith_eq_nil _ _ (fun e he =>
        staticKeys_not_penalty _ (samplingWrites_keys cfg d e he)),
    entriesWith_eq_nil _ _ (fun e he =>
        staticKeys_not_penalty _ (interactionWrites_keys cfg d e he)),
    entriesWith_eq_nil _ (nameWrites lower cfg d) (fun e he => by
        rw [nameWrites_keys lower cfg d e he]; decide),
    entriesWith_eq_nil _ (deviceWrites lower cfg d) (fun e he => by
        obtain ⟨k, _, hk⟩ := deviceWrites_keys lower cfg d e he
        rw [hk]; exact isPenaltyKey_device k),
    entriesWith_eq_self _ (uploaderWrites lower cfg d) (fun e he => by
        obtain ⟨k, hk⟩ := uploaderWrites_keys lower cfg d e he
        rw [hk]; exact isPenaltyKey_penalty k)]
  simp only [List.nil_append, List.append_nil, entriesWith, List.filter_nil]

/-- The entries with the key "Custom Name" in the breakdown of a score are
what the name pass assigns. -/
theorem Score_customNameEntries (lower : Char → Char) (cfg : Config) (d : ActivityDetail) :
    entriesWith isCustomNameKey (Score lower cfg d).Breakdown = nameWrites lower cfg d := by
  rw [(Score_eq_writes lower cfg d).1, entriesWith_foldl, scoreWrites_split]
  rw [entriesWith_eq_nil _ (streamWrites cfg d) (fun e he => by
        unfold streamWrites at he
        simp only [List.mem_append] at he
        rcases he with ((he | he) | he) | he <;>
        · split at he
          · rw [List.mem_singleton] at he
            rw [he]
            rfl
          · simp at he),
    entriesWith_eq_nil _ (samplingWrites cfg d) (fun e he => by
        unfold samplingWrites at he
        split at he
        · simp at he
        · rw [List.mem_singleton] at he
          rw [he]
          rfl),
    entriesWith_eq_nil _ (interactionWrites cfg d) (fun e he => by
        unfold interactionWrites at he
        simp only [List.mem_append] at he
        rcases he with he | he <;>
        · split at he
          · rw [List.mem_singleton] at he
            rw [he]
            rfl
          · simp at he),
    entriesWith_eq_nil _ (deviceWrites lower cfg d) (fun e he => by
        obtain ⟨k, _, hk⟩ := deviceWrites_keys lower cfg d e he
        rw [hk]; exact isCustomNameKey_device k),
    entriesWith_eq_nil _ (uploaderWrites lower cfg d) (fun e he => by
        obtain ⟨k, hk⟩ := uploaderWrites_keys lower cfg d e he
        rw [hk]; exact isCustomNameKey_penalty k),
    entriesWith_eq_self _ (nameWrites lower cfg d) (fun e he => by
        rw [nameWrites_keys lower cfg d e he]; rfl)]
  simp only [List.nil_append, List.append_nil, entriesWith, List.filter_nil]
  unfold nameWrites
  split <;> rfl

/-- C12: device priority is first-match-wins and never stacked.  For every
detail and priority list of length `n`: if `i` is the smallest index whose
case-folded entry is a substring of the case-folded search string (device
name, source, power-meter identifier and OAuth client name, joined by
blanks), the breakdown of the score has exactly one entry whose key starts
with "Device/Sensor Priority", namely the key "Device/Sensor Priority: "
followed by that entry, with value `(n - i) * 2`; if no entry matches, the
breakdown has no entry of that kind.  With the list Garmin, Wahoo, ELEMNT and
the device "Wahoo ELEMNT" the one entry is that of Wahoo with value 4: the
later match ELEMNT contributes nothing. -/
theorem C12_device_priority_first_match (lower : Char → Char) (cfg : Config)
    (d : ActivityDetail) :
    (∀ (i : Nat) (preferred : Str), cfg.DevicePriority[i]? = some preferred →
      Contains (searchString lower d) (ToLower lower preferred) = true →
      (∀ (j : Nat) (q : Str), j < i → cfg.DevicePriority[j]? = some q →
        Contains (searchString lower d) (ToLower lower q) = false) →
      entriesWith isDeviceKey (Score lower cfg d).Breakdown =
        [("Device/Sensor Priority: ".toList ++ preferred,
          ((cfg.DevicePriority.length : ℚ) - (i : ℚ)) * 2)]) ∧
    ((∀ q ∈ cfg.DevicePriority,
        Contains (searchString lower d) (ToLower lower q) = false) →
      entriesWith isDeviceKey (Score lower cfg d).Breakdown = []) ∧
    searchString lower d =
      ToLower lower (d.DeviceName ++ " ".toList ++ d.Source ++ " ".toList ++ d.PowerMeter ++
        " ".toList ++ d.OAuthClientName) ∧
    entriesWith isDeviceKey (Score Char.toLower testConfig testDetail1).Breakdown =
      [("Device/Sensor Priority: Wahoo".toList, 2)] ∧
    entriesWith isDeviceKey
      (Score Char.toLower
        { testConfig with
          DevicePriority := ["Garmin".toList, "Wahoo".toList, "ELEMNT".toList] }
        testDetail1).Breakdown =
      [("Device/Sensor Priority: Wahoo".toList, 4)] := by
  refine ⟨?_, ?_, rfl, by decide!, by decide!⟩
  · intro i preferred hi hc hfirst
    rw [Score_deviceEntries]
    unfold deviceWrites
    rw [devicePriorityScan_first lower _ _ cfg.DevicePriority 0 i preferred hi hc hfirst]
    simp
  · intro hnone
    rw [Score_deviceEntries]
    unfold deviceWrites
    rw [devicePriorityScan_none lower _ _ cfg.DevicePriority 0 hnone]
    rfl

/-! ## Uploader penalties and the custom-name bonus -/

theorem uploaderWrites_keys_nodup (lower : Char → Char) (cfg : Config) (d : ActivityDetail)
    (hnd : (cfg.UploaderPenalties.map (fun e => e.1)).Nodup) :
    ((uploaderWrites lower cfg d).map (fun e => e.1)).Nodup := by
  unfold uploaderWrites
  rw [List.map_map]
  have h1 : ((cfg.UploaderPenalties.filter
      (fun e => Contains (penaltyUploader lower d) (ToLower lower e.1))).map
      (fun e => e.1)).Nodup :=
    hnd.sublist ((List.filter_sublist _).map _)
  have h2 := h1.map (f := fun k : Str => "Uploader Penalty: ".toList ++ k)
    (fun a b hab => List.append_cancel_left hab)
  rw [List.map_map] at h2
  exact h2

/-- C13 as stated fails: with source "OAUTH_CLIENT", an empty client name and
the penalty key "oauth", the scorecard has the entry
"Uploader Penalty: oauth" = -5, although "oauth" is not a substring of the
(empty) client name, so that the specification's rule yields no entry. -/
theorem C13_empty_client_name_counterexample :
    oauthNoClientDetail.Source = "OAUTH_CLIENT".toList ∧
    oauthNoClientDetail.OAuthClientName = [] ∧
    entriesWith isPenaltyKey
      (Score Char.toLower oauthPenaltyConfig oauthNoClientDetail).Breakdown =
      [("Uploader Penalty: oauth".toList, -5)] ∧
    specPenaltyEntries Char.toLower oauthPenaltyConfig oauthNoClientDetail = [] ∧
    entriesWith isPenaltyKey
      (Score Char.toLower oauthPenaltyConfig oauthNoClientDetail).Breakdown ≠
      specPenaltyEntries Char.toLower oauthPenaltyConfig oauthNoClientDetail := by
  decide!

/-- C13 (amended): uploader penalties stack.  For every detail and penalty
table (a map: its keys are distinct) the entries of the breakdown whose key
starts with "Uploader Penalty: " are, in table order, one entry
"Uploader Penalty: <key>" with value `-penalty(key)` for exactly those table
keys whose case-folded form is a substring of the case-folded uploader, where
the uploader is the OAuth client name when the source is "OAUTH_CLIENT" and
the client name is not empty, and the source otherwise; the values of these
entries sum to minus the sum of the penalties of the matching keys. -/
theorem C13_uploader_penalties_stack (lower : Char → Char) (cfg : Config)
    (d : ActivityDetail) (hmap : (cfg.UploaderPenalties.map (fun e => e.1)).Nodup) :
    entriesWith isPenaltyKey (Score lower cfg d).Breakdown =
      (cfg.UploaderPenalties.filter (fun e =>
        Contains
          (ToLower lower
            (if d.Source = "OAUTH_CLIENT".toList ∧ d.OAuthClientName ≠ []
              then d.OAuthClientName else d.Source))
          (ToLower lower e.1))).map
        (fun e => ("Uploader Penalty: ".toList ++ e.1, -e.2)) ∧
    (∀ (k : Str) (v : ℚ),
      ((k, v) ∈ (Score lower cfg d).Breakdown ∧ isPenaltyKey k = true) ↔
      ∃ e ∈ cfg.UploaderPenalties,
        Contains
          (ToLower lower
            (if d.Source = "OAUTH_CLIENT".toList ∧ d.OAuthClientName ≠ []
              then d.OAuthClientName else d.Source))
          (ToLower lower e.1) = true ∧
        k = "Uploader Penalty: ".toList ++ e.1 ∧ v = -e.2) ∧
    ((entriesWith isPenaltyKey (Score lower cfg d).Breakdown).map (fun e => e.2)).sum =
      -((cfg.UploaderPenalties.filter (fun e =>
        Contains
          (ToLower lower
            (if d.Source = "OAUTH_CLIENT".toList ∧ d.OAuthClientName ≠ []
              then d.OAuthClientName else d.Source))
          (ToLower lower e.1))).map (fun e => e.2)).sum := by
  have hE : entriesWith isPenaltyKey (Score lower cfg d).Breakdown =
      uploaderWrites lower cfg d := by
    rw [Score_penaltyEntries, foldl_mapSet_of_nodup _ []
      (by rw [List.nil_append]; exact uploaderWrites_keys_nodup lower cfg d hmap),
      List.nil_append]
  have hU : uploaderWrites lower cfg d =
      (cfg.UploaderPenalties.filter (fun e =>
        Contains
          (ToLower lower
            (if d.Source = "OAUTH_CLIENT".toList ∧ d.OAuthClientName ≠ []
              then d.OAuthClientName else d.Source))
          (ToLower lower e.1))).map
        (fun e => ("Uploader Penalty: ".toList ++ e.1, -e.2)) := rfl
  refine ⟨hE.trans hU, ?_, ?_⟩
  · intro k v
    have hmem : ((k, v) ∈ (Score lower cfg d).Breakdown ∧ isPenaltyKey k = true) ↔
        (k, v) ∈ entriesWith isPenaltyKey (Score lower cfg d).Breakdown := by
      unfold entriesWith
      rw [List.mem_filter]
    rw [hmem, hE, hU, List.mem_map]
    constructor
    · rintro ⟨e, he, hkv⟩
      rw [List.mem_filter] at he
      rw [Prod.mk.injEq] at hkv
      exact ⟨e, he.1, he.2, hkv.1.symm, hkv.2.symm⟩
    · rintro ⟨e, he, hc, hk, hv⟩
      exact ⟨e, List.mem_filter.mpr ⟨he, hc⟩, by rw [hk, hv]⟩
  · rw [hE, hU, List.map_map]
    generalize cfg.UploaderPenalties.filter _ = l
    induction l with
    | nil => simp
    | cons e l ih =>
      rw [List.map_cons, List.map_cons, List.sum_cons, List.sum_cons, ih]
      simp only [Function.comp]
      ring

/-- C13 at a table with the keys "rungap" and "gap" and the source "RunGap":
both penalties are entered. -/
theorem C13_uploader_penalties_stack_witness :
    (stackedPenaltyConfig.UploaderPenalties.map (fun e => e.1)).Nodup ∧
    entriesWith isPenaltyKey (Score Char.toLower stackedPenaltyConfig runGapDetail).Breakdown =
      [("Uploader Penalty: rungap".toList, -5), ("Uploader Penalty: gap".toList, -1)] ∧
    ((entriesWith isPenaltyKey
        (Score Char.toLower stackedPenaltyConfig runGapDetail).Breakdown).map
      (fun e => e.2)).sum =
      -((stackedPenaltyConfig.UploaderPenalties.filter (fun e =>
        Contains
          (ToLower Char.toLower
            (if runGapDetail.Source = "OAUTH_CLIENT".toList ∧ runGapDetail.OAuthClientName ≠ []
              then runGapDetail.OAuthClientName else runGapDetail.Source))
          (ToLower Char.toLower e.1))).map (fun e => e.2)).sum :=
  ⟨by decide, by decide!,
    (C13_uploader_penalties_stack Char.toLower stackedPenaltyConfig runGapDetail
      (by decide)).2.2⟩

theorem Contains_nil_right (s : Str) : Contains s [] = true := by
  cases s <;> simp [Contains]

theorem Contains_nil_left (k : Str) (h : Contains [] k = true) : k = [] := by
  cases k with
  | nil => rfl
  | cons c k => simp [Contains] at h

/-- The two passes test the same uploader string unless the source is
"OAUTH_CLIENT" and the client name is empty. -/
theorem nameUploader_eq_penaltyUploader (lower : Char → Char) (d : ActivityDetail)
    (h : d.Source ≠ "OAUTH_CLIENT".toList ∨ d.OAuthClientName ≠ []) :
    nameUploader lower d = penaltyUploader lower d := by
  unfold nameUploader penaltyUploader
  by_cases hs : d.Source = "OAUTH_CLIENT".toList
  · have hn : d.OAuthClientName ≠ [] := by
      rcases h with h | h
      · exact absurd hs h
      · exact h
    rw [if_pos hs, if_pos ⟨hs, hn⟩]
  · rw [if_neg hs, if_neg (fun hc => hs hc.1)]

/-- A key that the name pass matches is matched by the uploader pass. -/
theorem penalized_name_imp_penalty (lower : Char → Char) (d : ActivityDetail) (k : Str)
    (h : Contains (nameUploader lower d) (ToLower lower k) = true) :
    Contains (penaltyUploader lower d) (ToLower lower k) = true := by
  by_cases hc : d.Source ≠ "OAUTH_CLIENT".toList ∨ d.OAuthClientName ≠ []
  · rw [← nameUploader_eq_penaltyUploader lower d hc]
    exact h
  · rw [not_or, not_not, not_not] at hc
    unfold nameUploader at h
    rw [if_pos hc.1, hc.2] at h
    have hk : ToLower lower k = [] := Contains_nil_left _ h
    rw [hk]
    exact Contains_nil_right _

theorem foldl_mapSet_eq_nil (ws : List (Str × ℚ))
    (h : ws.foldl (fun m e => mapSet m e.1 e.2) [] = []) : ws = [] := by
  cases ws with
  | nil => rfl
  | cons w ws =>
    have := keys_foldl_mapSet (w :: ws) [] w.1 (Or.inr (by simp))
    rw [h] at this
    simp at this

/-- The custom-name bonus and an uploader penalty exclude each other whenever
the source is not "OAUTH_CLIENT" or the client name is not empty. -/
theorem customName_excludes_penalty (lower : Char → Char) (cfg : Config) (d : ActivityDetail)
    (h : d.Source ≠ "OAUTH_CLIENT".toList ∨ d.OAuthClientName ≠ [])
    (hp : entriesWith isPenaltyKey (Score lower cfg d).Breakdown ≠ []) :
    entriesWith isCustomNameKey (Score lower cfg d).Breakdown = [] := by
  rw [Score_customNameEntries]
  rw [Score_penaltyEntries] at hp
  have hne : uploaderWrites lower cfg d ≠ [] := by
    intro h0
    rw [h0] at hp
    exact hp rfl
  unfold uploaderWrites at hne
  have hf : cfg.UploaderPenalties.filter
      (fun e => Contains (penaltyUploader lower d) (ToLower lower e.1)) ≠ [] := by
    intro h0
    apply hne
    rw [h0]
    rfl
  obtain ⟨e, he⟩ := List.exists_mem_of_ne_nil _ hf
  rw [List.mem_filter] at he
  unfold nameWrites
  rw [if_neg]
  rintro ⟨_, hany⟩
  have : cfg.UploaderPenalties.any
      (fun e => Contains (nameUploader lower d) (ToLower lower e.1)) = true := by
    rw [List.any_eq_true]
    exact ⟨e, he.1, by rw [nameUploader_eq_penaltyUploader lower d h]; exact he.2⟩
  rw [this] at hany
  exact absurd hany (by simp)

/-- A title that is not generic and has no uploader-penalty entry always
receives the custom-name entry. -/
theorem customName_of_no_penalty (lower : Char → Char) (cfg : Config) (d : ActivityDetail)
    (hg : IsGenericName lower d.Name d.Type_ = false)
    (hp : entriesWith isPenaltyKey (Score lower cfg d).Breakdown = []) :
    entriesWith isCustomNameKey (Score lower cfg d).Breakdown =
      [("Custom Name".toList, cfg.Weights.CustomName)] := by
  rw [Score_customNameEntries]
  rw [Score_penaltyEntries] at hp
  have h0 := foldl_mapSet_eq_nil _ hp
  unfold uploaderWrites at h0
  rw [List.map_eq_nil_iff, List.filter_eq_nil_iff] at h0
  unfold nameWrites
  rw [if_pos]
  refine ⟨hg, ?_⟩
  rw [List.any_eq_false]
  intro e he hc
  exact h0 e he (penalized_name_imp_penalty lower d e.1 hc)

/-- C14 (evaluation of the code where the claimed exclusion fails): for a
title that is not generic, source "OAUTH_CLIENT", an empty client name and the
penalty key "oauth", the scorecard holds both the entry
"Uploader Penalty: oauth" = -5 and the entry "Custom Name" = 2: the name pass
tests the empty client name, the uploader pass tests the source. -/
theorem C14_penalty_and_custom_name_together :
    IsGenericName Char.toLower oauthNoClientDetail.Name oauthNoClientDetail.Type_ = false ∧
    nameUploader Char.toLower oauthNoClientDetail = [] ∧
    penaltyUploader Char.toLower oauthNoClientDetail = "oauth_client".toList ∧
    entriesWith isPenaltyKey
      (Score Char.toLower oauthPenaltyConfig oauthNoClientDetail).Breakdown =
      [("Uploader Penalty: oauth".toList, -5)] ∧
    entriesWith isCustomNameKey
      (Score Char.toLower oauthPenaltyConfig oauthNoClientDetail).Breakdown =
      [("Custom Name".toList, 2)] := by
  decide!

/-! ## Per-cluster processing -/

/-- C15: for every winner and ranked loser list, a name is proposed for
adoption exactly when the winner's title is generic for the winner's type and
`RankCandidateNames`, applied to the losers' titles in ranked order with the
winner's type, returns a string that is not empty; the proposed name is that
result, it is the title of one of the losers and is not generic for the
winner's type.  A winner whose title is not generic gets no proposal.  Every
action of the name-adoption block carries the winner's ID and the proposed
name, and without the interactive mode the block issues its action exactly
when a name is proposed. -/
theorem C15_name_adoption (lower : Char → Char) (w : evaluatedActivity)
    (ls : List evaluatedActivity) :
    (∀ n : Str, proposedName lower w ls = some n ↔
      (IsGenericName lower w.Detail.Name w.Detail.Type_ = true ∧
        RankCandidateNames lower (ls.map (fun l => l.Detail.Name)) w.Detail.Type_ = n ∧
        n ≠ [])) ∧
    (∀ n : Str, proposedName lower w ls = some n →
      (∃ l ∈ ls, l.Detail.Name = n) ∧ IsGenericName lower n w.Detail.Type_ = false) ∧
    (IsGenericName lower w.Detail.Name w.Detail.Type_ = false →
      proposedName lower w ls = none) ∧
    (∀ (dryRun interactive : Bool) (input : List Str) (a : Action),
      a ∈ (nameAdoption lower dryRun interactive w ls input).1 →
      ∃ n : Str, proposedName lower w ls = some n ∧
        (a = Action.updateName w.Detail.ID n ∨ a = Action.wouldAdoptName w.Detail.ID n)) ∧
    (∀ (dryRun : Bool) (input : List Str),
      (nameAdoption lower dryRun false w ls input).1 =
        match proposedName lower w ls with
        | none => []
        | some n =>
          if dryRun then [Action.wouldAdoptName w.Detail.ID n]
          else [Action.updateName w.Detail.ID n]) := by
  have hiff : ∀ n : Str, proposedName lower w ls = some n ↔
      (IsGenericName lower w.Detail.Name w.Detail.Type_ = true ∧
        RankCandidateNames lower (ls.map (fun l => l.Detail.Name)) w.Detail.Type_ = n ∧
        n ≠ []) := by
    intro n
    unfold proposedName
    by_cases hg : IsGenericName lower w.Detail.Name w.Detail.Type_ = true
    · rw [if_pos hg]
      simp only [hg, true_and]
      by_cases hb : RankCandidateNames lower (ls.map (fun l => l.Detail.Name))
          w.Detail.Type_ ≠ []
      · rw [if_pos hb, Option.some.injEq]
        constructor
        · intro h; exact ⟨h, h ▸ hb⟩
        · intro h; exact h.1
      · rw [if_neg hb]
        constructor
        · intro h; exact absurd h (by simp)
        · rintro ⟨h1, h2⟩
          exact absurd (h1 ▸ h2) hb
    · rw [if_neg hg]
      constructor
      · intro h; exact absurd h (by simp)
      · rintro ⟨h1, _⟩
        exact absurd h1 hg
  refine ⟨hiff, ?_, ?_, ?_, ?_⟩
  · intro n hn
    obtain ⟨_, hr, hne⟩ := (hiff n).mp hn
    rcases RankCandidateNames_inv lower (ls.map (fun l => l.Detail.Name)) w.Detail.Type_ with
      ⟨_, hst⟩ | ⟨_, pre, post, hsplit, hng, _, _⟩
    · exfalso
      apply hne
      rw [← hr]
      unfold RankCandidateNames
      rw [hst]
    · change IsGenericName lower
        (RankCandidateNames lower (ls.map (fun l => l.Detail.Name)) w.Detail.Type_)
        w.Detail.Type_ = false at hng
      rw [hr] at hng
      refine ⟨?_, hng⟩
      have hmem : n ∈ ls.map (fun l => l.Detail.Name) := by
        change ls.map (fun l => l.Detail.Name) = pre ++
          RankCandidateNames lower (ls.map (fun l => l.Detail.Name)) w.Detail.Type_ :: post
          at hsplit
        rw [hr] at hsplit
        rw [hsplit]
        simp
      rw [List.mem_map] at hmem
      exact hmem
  · intro hg
    unfold proposedName
    rw [if_neg (by rw [hg]; simp)]
  · intro dryRun interactive input a ha
    unfold nameAdoption at ha
    cases hp : proposedName lower w ls with
    | none =>
      rw [hp] at ha
      simp at ha
    | some n =>
      rw [hp] at ha
      refine ⟨n, rfl, ?_⟩
      simp only at ha
      split_ifs at ha <;> simp at ha <;> simp [ha]
  · intro dryRun input
    unfold nameAdoption
    cases hp : proposedName lower w ls with
    | none => rfl
    | some n =>
      simp only [Bool.not_false, Bool.false_eq_true, if_false, if_true]
      split_ifs <;> rfl

/-- The mismatch flag is the same on the in-memory winner of the loser loop
and on the winner as ranked. -/
theorem isMismatch_after_metadata (w : evaluatedActivity) (ls : List evaluatedActivity)
    (l : ActivityDetail) :
    isMismatch (metadataAdoption w ls).winner l = isMismatch w.Detail l := by
  have hp := metaLoop_component
    (fun st => (st.winner.Distance, st.winner.MovingTime)) (fun b _ => b)
    metaStep_size ls
    { winner := w.Detail, metaUpdates := ⟨none, none, none⟩, metaReasons := [] }
  have hfix : ∀ (xs : List evaluatedActivity) (b : ℚ × Int),
      xs.foldl (fun (b : ℚ × Int) (_ : evaluatedActivity) => b) b = b := by
    intro xs b
    induction xs with
    | nil => rfl
    | cons x xs ih => exact ih
  rw [hfix] at hp
  have hD : (metadataAdoption w ls).winner.Distance = w.Detail.Distance :=
    congrArg Prod.fst hp
  have hM : (metadataAdoption w ls).winner.MovingTime = w.Detail.MovingTime :=
    congrArg Prod.snd hp
  unfold isMismatch distDiff timeDiff
  rw [hD, hM]

theorem nameAdoption_no_delete (lower : Char → Char) (dryRun interactive : Bool)
    (w : evaluatedActivity) (ls : List evaluatedActivity) (input : List Str) (a : Action)
    (ha : a ∈ (nameAdoption lower dryRun interactive w ls input).1) (id : Str) :
    ¬ a.isDeleteOf id := by
  unfold nameAdoption at ha
  unfold Action.isDeleteOf
  cases hp : proposedName lower w ls with
  | none =>
    rw [hp] at ha
    simp at ha
  | some n =>
    rw [hp] at ha
    simp only at ha
    split_ifs at ha <;> simp at ha <;> simp [ha]

theorem metadataActions_no_delete (lower : Char → Char) (dryRun interactive : Bool)
    (st : MetaState) (input : List Str) (a : Action)
    (ha : a ∈ (metadataActions lower dryRun interactive st input).1) (id : Str) :
    ¬ a.isDeleteOf id := by
  unfold metadataActions at ha
  unfold Action.isDeleteOf
  simp only at ha
  split_ifs at ha <;> simp at ha <;> simp [ha]

theorem loserStep_flagged (lower : Char → Char) (dryRun interactive : Bool)
    (wd : ActivityDetail) (st : List Action × List Str) (l : evaluatedActivity)
    (h : isMismatch wd l.Detail = true) :
    loserStep lower dryRun interactive wd st l = st := by
  unfold loserStep
  rw [if_pos h]

theorem loserStep_actions (lower : Char → Char) (dryRun interactive : Bool)
    (wd : ActivityDetail) (st : List Action × List Str) (l : evaluatedActivity) (a : Action)
    (ha : a ∈ (loserStep lower dryRun interactive wd st l).1) :
    a ∈ st.1 ∨ (isMismatch wd l.Detail = false ∧ a.isDeleteOf l.Detail.ID) := by
  unfold loserStep at ha
  unfold Action.isDeleteOf
  cases hm : isMismatch wd l.Detail with
  | true =>
    rw [hm] at ha
    exact Or.inl ha
  | false =>
    rw [hm] at ha
    simp only [Bool.false_eq_true, if_false] at ha
    split_ifs at ha <;> simp only [List.mem_append, List.mem_singleton] at ha
    all_goals first
      | exact Or.inl ha
      | (rcases ha with ha | ha
         · exact Or.inl ha
         · exact Or.inr ⟨rfl, by simp [ha]⟩)

theorem loserLoop_actions (lower : Char → Char) (dryRun interactive : Bool)
    (wd : ActivityDetail) (ls : List evaluatedActivity) :
    ∀ (st : List Action × List Str) (a : Action),
    a ∈ (ls.foldl (loserStep lower dryRun interactive wd) st).1 →
    a ∈ st.1 ∨ ∃ l ∈ ls, isMismatch wd l.Detail = false ∧ a.isDeleteOf l.Detail.ID := by
  induction ls with
  | nil => intro st a ha; exact Or.inl ha
  | cons l ls ih =>
    intro st a ha
    rw [List.foldl_cons] at ha
    rcases ih _ a ha with h | ⟨l2, hl2, h2⟩
    · rcases loserStep_actions lower dryRun interactive wd st l a h with h1 | h1
      · exact Or.inl h1
      · exact Or.inr ⟨l, List.mem_cons_self _ _, h1⟩
    · exact Or.inr ⟨l2, List.mem_cons_of_mem _ hl2, h2⟩

/-- Every deletion that the processing of a cluster issues, real or dry-run,
is for the ID of a loser that is not flagged as a mismatch. -/
theorem processCluster_deletes (lower : Char → Char) (cfg : Config)
    (dryRun interactive : Bool) (details : List ActivityDetail) (input : List Str)
    (a : Action) (ha : a ∈ (processCluster lower cfg dryRun interactive details input).1)
    (id : Str) (hd : a.isDeleteOf id) :
    ∃ (w : evaluatedActivity) (ls : List evaluatedActivity),
      sortEvaluated (details.map (fun d => ⟨d, Score lower cfg d⟩)) = w :: ls ∧
      ∃ l ∈ ls, l.Detail.ID = id ∧ isMismatch w.Detail l.Detail = false := by
  unfold processCluster at ha
  split_ifs at ha with hlen
  · simp at ha
  · cases hs : sortEvaluated (details.map (fun d => ⟨d, Score lower cfg d⟩)) with
    | nil =>
      rw [hs] at ha
      simp [winner] at ha
    | cons w ls =>
      rw [hs] at ha
      simp only [winner, losers, List.head?_cons, List.drop_succ_cons, List.drop_zero] at ha
      refine ⟨w, ls, rfl, ?_⟩
      rcases loserLoop_actions lower dryRun interactive _ ls _ a ha with h | ⟨l, hl, hm, hdel⟩
      · exfalso
        rcases List.mem_append.mp h with h1 | h1
        · exact nameAdoption_no_delete lower dryRun interactive w ls input a h1 id hd
        · exact metadataActions_no_delete lower dryRun interactive _ _ a h1 id hd
      · rw [isMismatch_after_metadata] at hm
        refine ⟨l, hl, ?_, hm⟩
        unfold Action.isDeleteOf at hd hdel
        rcases hd with hd | hd <;> rcases hdel with hdel | hdel <;>
        · rw [hd] at hdel
          first
            | exact (Action.DeleteActivity.inj hdel).symm
            | exact (Action.wouldDelete.inj hdel).symm
            | exact absurd hdel (by simp)

/-- C16: a loser flagged as a size mismatch is never deleted.  Whatever the
dry-run setting, the interactive setting and the answers typed are: the
iteration of the loser loop for a flagged loser issues nothing; every delete
action of the processing of a cluster (`DeleteActivity` or the dry-run
"would delete") carries the ID of a loser that is not flagged; and, the IDs of
a cluster being distinct, no delete action carries the ID of a flagged loser
or of the winner.  For the cluster of a best record, a duplicate of similar
size and a record of 4000 m against 10000 m, only the duplicate is deleted. -/
theorem C16_flagged_loser_never_deleted (lower : Char → Char) (cfg : Config)
    (dryRun interactive : Bool) (details : List ActivityDetail) (input : List Str) :
    (∀ (w : evaluatedActivity) (ls : List evaluatedActivity) (st : List Action × List Str)
        (l : evaluatedActivity), isMismatch w.Detail l.Detail = true →
      loserStep lower dryRun interactive (metadataAdoption w ls).winner st l = st) ∧
    (∀ a ∈ (processCluster lower cfg dryRun interactive details input).1,
      ∀ id : Str, a.isDeleteOf id →
      ∃ (w : evaluatedActivity) (ls : List evaluatedActivity),
        sortEvaluated (details.map (fun d => ⟨d, Score lower cfg d⟩)) = w :: ls ∧
        ∃ l ∈ ls, l.Detail.ID = id ∧ isMismatch w.Detail l.Detail = false) ∧
    ((details.map (fun d => d.ID)).Nodup →
      ∀ (w : evaluatedActivity) (ls : List evaluatedActivity),
        sortEvaluated (details.map (fun d => ⟨d, Score lower cfg d⟩)) = w :: ls →
        (∀ a ∈ (processCluster lower cfg dryRun interactive details input).1,
          ¬ a.isDeleteOf w.Detail.ID) ∧
        (∀ l ∈ ls, isMismatch w.Detail l.Detail = true →
          ∀ a ∈ (processCluster lower cfg dryRun interactive details input).1,
            ¬ a.isDeleteOf l.Detail.ID)) ∧
    (processCluster Char.toLower testConfig false false
        [clusterShort, clusterDuplicate, clusterBest] []).1 =
      [Action.updateMetadata "i1".toList ⟨some 3, none, none⟩,
       Action.DeleteActivity "i2".toList] ∧
    (processCluster Char.toLower testConfig true true
        [clusterShort, clusterDuplicate, clusterBest]
        ["y".toList, "y".toList, "y".toList]).1 =
      [Action.wouldDelete "i2".toList] := by
  refine ⟨?_, ?_, ?_, by decide!, by decide!⟩
  · intro w ls st l h
    exact loserStep_flagged lower dryRun interactive _ st l
      (by rw [isMismatch_after_metadata]; exact h)
  · intro a ha id hd
    exact processCluster_deletes lower cfg dryRun interactive details input a ha id hd
  · intro hnd w ls hs
    have hperm : (w :: ls).Perm (details.map (fun d => ⟨d, Score lower cfg d⟩)) := by
      rw [← hs]
      exact sortSlice_perm evaluatedLess _
    have hids : ((w :: ls).map (fun e => e.Detail.ID)).Nodup := by
      have h1 := (hperm.map (fun e : evaluatedActivity => e.Detail.ID)).nodup_iff
      rw [h1, List.map_map]
      exact hnd
    rw [List.map_cons, List.nodup_cons] at hids
    constructor
    · intro a ha hd
      obtain ⟨w2, ls2, hs2, l, hl, hid, _⟩ :=
        processCluster_deletes lower cfg dryRun interactive details input a ha _ hd
      rw [hs] at hs2
      rw [List.cons.injEq] at hs2
      rw [← hs2.2] at hl
      exact hids.1 (hid ▸ List.mem_map_of_mem _ hl)
    · intro l hl hflag a ha hd
      obtain ⟨w2, ls2, hs2, l2, hl2, hid, hm⟩ :=
        processCluster_deletes lower cfg dryRun interactive details input a ha _ hd
      rw [hs] at hs2
      rw [List.cons.injEq] at hs2
      rw [← hs2.1, ← hs2.2] at *
      have : l2 = l := List.inj_on_of_nodup_map hids.2 hl2 hl hid
      rw [this, hflag] at hm
      exact absurd hm (by simp)

end IntervalsDeduper
